import Mathlib

/-!
# gossif/diddoc: DID documents, the reflection-driven value coercion engine and
the verification-method resolver

A shallow embedding of `encoder.go`, `doc.go`, `docbuilder.go` and `doctypes.go`.

* A Go `string` is its byte sequence (`GoString`); `gs` writes one from a literal.
* `Any` is the universe of dynamic values an `interface{}` can hold in this
  package: the decoded-JSON shapes (null, bool, number, string, `[]interface{}`,
  `map[string]interface{}`), the typed values the tests pass in (`[]byte`,
  `[]string`, the `VerificationMethod` and `Service` records and slices of them)
  and pointers.
* `RValue` is a `reflect.Value`: invalid, a value of a concrete kind, or a value
  of kind `Interface` (an element of a `[]interface{}`, a map entry, an
  interface-typed field).
* A Go call that can panic returns `Exec`; a Go `error` result is an
  `Option GoError` (`none` is `nil`).
* `Json` is the JSON value of the bytes `json.Marshal` writes and
  `json.Unmarshal` reads, the members of an object in written order.
* The order in which `range` visits a Go map is a parameter of `UnmarshalJSON`.
-/

namespace DidDoc

/-! ## Strings -/

/-- A Go string: an immutable sequence of bytes. -/
abbrev GoString := List UInt8

/-- The Go string literal with the UTF-8 bytes of `s`. -/
def gs (s : String) : GoString := s.toUTF8.data.toList

/-- Go `strings.Split(s, sep)` for a one-byte separator: worker carrying the
current piece in reverse. -/
def splitAux (sep : UInt8) : List UInt8 → List UInt8 → List GoString
  | [], cur => [cur.reverse]
  | c :: rest, cur =>
    if c = sep then cur.reverse :: splitAux sep rest [] else splitAux sep rest (c :: cur)

/-- Go `strings.Split(s, sep)` for a one-byte separator. -/
def Split (s : GoString) (sep : UInt8) : List GoString := splitAux sep s []

/-- Go `strconv.FormatBool`. -/
def FormatBool (b : Bool) : GoString := if b then gs "true" else gs "false"

/-! ## doctypes.go -/

/-- Go `type ProofPurpose string`. -/
abbrev ProofPurpose := GoString

def AssertionMethod : ProofPurpose := gs "assertionMethod"
def Authentication : ProofPurpose := gs "authentication"
def KeyAgreement : ProofPurpose := gs "keyAgreement"
def CapabilityInvocation : ProofPurpose := gs "capabilityInvocation"
def CapabilityDelegation : ProofPurpose := gs "capabilityDelegation"

/-- Go `func (p ProofPurpose) String() string`. -/
def ProofPurpose.String (p : ProofPurpose) : GoString := p

/-- Go `type VerificationMethod struct`, with the type of the `interface{}`
field `PubicKeyJWK` as a parameter (it is `Any` below). The Go field `Type` is
`Type_` here. -/
structure VerificationMethodOf (α : Type) where
  Id : GoString
  Type_ : GoString
  Controller : GoString
  PubicKeyJWK : α
  PublicKeyMultibase : GoString

/-- Go `type Service struct`. The Go field `Type` is `Type_` here. -/
structure Service where
  Id : GoString
  Type_ : GoString
  ServiceEndpoint : GoString
deriving DecidableEq

/-! ## Dynamic values and reflection -/

/-- The dynamic values of the package: what an `interface{}` can hold.
`null` is the nil interface; `number` is a numeric scalar (a decoded JSON
number), whose payload no code of the package inspects; `uint8` is one byte of
a `[]byte`; `list` is `[]interface{}` (also `[]VerificationRelation`); `map`
is `map[string]interface{}`, read by first match; `ptr v` is a pointer to a
variable holding `v`, and `ptr null` the nil pointer. -/
inductive Any where
  | null
  | bool (b : Bool)
  | number (n : Int)
  | uint8 (b : UInt8)
  | str (s : GoString)
  | bytes (bs : List UInt8)
  | strings (xs : List GoString)
  | list (xs : List Any)
  | map (m : List (GoString × Any))
  | vm (r : VerificationMethodOf Any)
  | service (r : Service)
  | vms (xs : List (VerificationMethodOf Any))
  | services (xs : List Service)
  | ptr (v : Any)

/-- Go `type VerificationMethod struct`. -/
abbrev VerificationMethod := VerificationMethodOf Any

/-- Go `type VerificationRelation interface{}`. -/
abbrev VerificationRelation := Any

/-- Go `reflect.Kind`, the kinds the package meets. `Float64` stands for every
numeric kind other than `Uint8`. -/
inductive Kind where
  | Invalid | Bool | Float64 | Uint8 | String | Slice | Array | Map | Struct
  | Interface | Pointer
deriving DecidableEq

/-- Go `reflect.Type`, the static types the package meets. `relations` is
`[]VerificationRelation` (and `[]interface{}`), `map` is
`map[string]interface{}`. -/
inductive GoType where
  | bool | float64 | uint8 | string | iface | map | vm | service
  | bytes | strings | relations | vms | services | pointer
deriving DecidableEq

/-- Go `reflect.Type.Kind`. -/
def GoType.Kind : GoType → Kind
  | .bool => .Bool | .float64 => .Float64 | .uint8 => .Uint8 | .string => .String
  | .iface => .Interface | .map => .Map | .vm => .Struct | .service => .Struct
  | .bytes => .Slice | .strings => .Slice | .relations => .Slice | .vms => .Slice
  | .services => .Slice | .pointer => .Pointer

/-- Go `reflect.Type.Elem` of a slice type; `none` where Go panics. -/
def GoType.Elem : GoType → Option GoType
  | .bytes => some .uint8 | .strings => some .string | .relations => some .iface
  | .vms => some .vm | .services => some .service
  | _ => none

/-- One field of a struct type: Go `reflect.StructField`. -/
structure StructField where
  Name : String
  Type_ : GoType
  Tag : List (String × GoString)

/-- Go `StructTag.Get`. -/
def StructField.TagGet (f : StructField) (key : String) : GoString :=
  (f.Tag.lookup key).getD []

/-- The declared fields of the two record types, in declaration order, with
their `json` tags (doctypes.go). -/
def GoType.Fields : GoType → List StructField
  | .vm =>
    [ ⟨"Id", .string, [("json", gs "id,omitempty")]⟩,
      ⟨"Type", .string, [("json", gs "type,omitempty")]⟩,
      ⟨"Controller", .string, [("json", gs "controller,omitempty")]⟩,
      ⟨"PubicKeyJWK", .iface, [("json", gs "publicKeyJwk,omitempty")]⟩,
      ⟨"PublicKeyMultibase", .string, [("json", gs "publicKeyMultibase,omitempty")]⟩ ]
  | .service =>
    [ ⟨"Id", .string, [("json", gs "id")]⟩,
      ⟨"Type", .string, [("json", gs "type")]⟩,
      ⟨"ServiceEndpoint", .string, [("json", gs "serviceEndpoint")]⟩ ]
  | _ => []

/-- Go `reflect.Type.NumField`. -/
def GoType.NumField (dt : GoType) : Nat := dt.Fields.length

/-- Go `reflect.Type.Field(i)`. -/
def GoType.Field (dt : GoType) (i : Nat) : StructField :=
  dt.Fields.getD i ⟨"", .iface, []⟩

/-- The dynamic type of a value. -/
def Any.Type : Any → GoType
  | .null => .iface
  | .bool _ => .bool | .number _ => .float64 | .uint8 _ => .uint8 | .str _ => .string
  | .bytes _ => .bytes | .strings _ => .strings | .list _ => .relations | .map _ => .map
  | .vm _ => .vm | .service _ => .service | .vms _ => .vms | .services _ => .services
  | .ptr _ => .pointer

/-- Go `reflect.Value`: the zero Value, a value of a concrete kind, or a value
of kind Interface holding a dynamic value (possibly nil). -/
inductive RValue where
  | invalid
  | concrete (v : Any)
  | iface (v : Any)

/-- Go `reflect.ValueOf`: the zero Value for a nil interface. -/
def ValueOf : Any → RValue
  | .null => .invalid
  | v => .concrete v

/-- Go `reflect.Value.Kind`. -/
def RValue.Kind : RValue → Kind
  | .invalid => .Invalid
  | .iface _ => .Interface
  | .concrete .null => .Invalid
  | .concrete v => v.Type.Kind

/-- Go `reflect.Value.IsValid`. -/
def RValue.IsValid : RValue → Bool
  | .invalid => false
  | .concrete .null => false
  | _ => true

/-- Go `reflect.Value.CanInterface`: no value here comes from an unexported field. -/
def RValue.CanInterface (_ : RValue) : Bool := true

/-- Go `reflect.Value.Type`, read only on valid values. -/
def RValue.Type : RValue → GoType
  | .concrete v => v.Type
  | _ => .iface

/-- Go `reflect.Value.Interface`: the dynamic value held. -/
def RValue.Interface : RValue → Any
  | .concrete v => v
  | .iface v => v
  | .invalid => .null

/-- Go `reflect.Value.Elem` of an interface or a pointer. -/
def RValue.Elem : RValue → RValue
  | .iface v => ValueOf v
  | .concrete (.ptr v) => ValueOf v
  | _ => .invalid

/-- Go `reflect.Value.Bool`, read only on kind Bool. -/
def RValue.BoolVal : RValue → Bool
  | .concrete (.bool b) => b
  | _ => false

/-- Go `reflect.Value.String`, read only on kind String. -/
def RValue.String : RValue → GoString
  | .concrete (.str s) => s
  | _ => []

/-- Go `reflect.Value.Bytes`, read only on a byte slice. -/
def RValue.Bytes : RValue → List UInt8
  | .concrete (.bytes bs) => bs
  | _ => []

/-- Go `len` of a slice value. -/
def Any.Len : Any → Nat
  | .bytes bs => bs.length | .strings xs => xs.length | .list xs => xs.length
  | .vms xs => xs.length | .services xs => xs.length
  | _ => 0

/-- Go `reflect.Value.Len`. -/
def RValue.Len : RValue → Nat
  | .concrete v => v.Len
  | _ => 0

/-- Go `reflect.Value.Index`: the elements of a `[]interface{}` have kind
Interface, those of a typed slice the kind of the element type. -/
def RValue.Index : RValue → Nat → RValue
  | .concrete (.bytes bs), i =>
    match bs[i]? with | some b => .concrete (.uint8 b) | none => .invalid
  | .concrete (.strings xs), i =>
    match xs[i]? with | some s => .concrete (.str s) | none => .invalid
  | .concrete (.list xs), i =>
    match xs[i]? with | some v => .iface v | none => .invalid
  | .concrete (.vms xs), i =>
    match xs[i]? with | some r => .concrete (.vm r) | none => .invalid
  | .concrete (.services xs), i =>
    match xs[i]? with | some r => .concrete (.service r) | none => .invalid
  | _, _ => .invalid

/-- Go `reflect.Value.MapIndex` with a string key: the zero Value when the key
is missing, else the entry, of kind Interface. -/
def RValue.MapIndex : RValue → GoString → RValue
  | .concrete (.map m), k =>
    match m.lookup k with | some v => .iface v | none => .invalid
  | _, _ => .invalid

/-- The content of field `i` of a record: Go `reflect.Value.Field(i)` read as a
destination slot. -/
def Any.Field : Any → Nat → Any
  | .vm r, 0 => .str r.Id
  | .vm r, 1 => .str r.Type_
  | .vm r, 2 => .str r.Controller
  | .vm r, 3 => r.PubicKeyJWK
  | .vm r, 4 => .str r.PublicKeyMultibase
  | .service r, 0 => .str r.Id
  | .service r, 1 => .str r.Type_
  | .service r, 2 => .str r.ServiceEndpoint
  | _, _ => .null

/-- The record with field `i` replaced: what a store through
`reflect.Value.Field(i)` leaves behind. -/
def Any.SetField : Any → Nat → Any → Any
  | .vm r, 0, .str s => .vm { r with Id := s }
  | .vm r, 1, .str s => .vm { r with Type_ := s }
  | .vm r, 2, .str s => .vm { r with Controller := s }
  | .vm r, 3, v => .vm { r with PubicKeyJWK := v }
  | .vm r, 4, .str s => .vm { r with PublicKeyMultibase := s }
  | .service r, 0, .str s => .service { r with Id := s }
  | .service r, 1, .str s => .service { r with Type_ := s }
  | .service r, 2, .str s => .service { r with ServiceEndpoint := s }
  | v, _, _ => v

/-- Go `reflect.Value.FieldByName("Id")` of a struct value. -/
def RValue.FieldById : RValue → RValue
  | .concrete (.vm r) => .concrete (.str r.Id)
  | .concrete (.service r) => .concrete (.str r.Id)
  | _ => .invalid

/-- Go `reflect.New(dt).Elem()`: a fresh variable of type `dt` at its zero value. -/
def reflectNew : GoType → Any
  | .bool => .bool false | .float64 => .number 0 | .uint8 => .uint8 0 | .string => .str []
  | .iface => .null | .map => .map []
  | .vm => .vm ⟨[], [], [], .null, []⟩
  | .service => .service ⟨[], [], []⟩
  | .bytes => .bytes [] | .strings => .strings [] | .relations => .list []
  | .vms => .vms [] | .services => .services [] | .pointer => .ptr .null

/-! ## Errors and outcomes -/

/-- The sentinel errors of encoder.go and doc.go; `jsonError` stands for an
error returned by encoding/json. -/
inductive GoError where
  | errUnsupportedSourceType | errUnsupportedDestinationType | errUnadressable
  | errNotAPointer | errStructNotEqual | errMapNotEqual | errNotFound | errInvalidType
  | jsonError
deriving DecidableEq

export GoError (errUnsupportedSourceType errUnsupportedDestinationType errUnadressable
  errNotAPointer errStructNotEqual errMapNotEqual errNotFound errInvalidType)

/-- The outcome of a Go call: it returns, or it panics (`some e` for
`panic(e)` with an error value of the package, `none` for a panic raised by
package reflect or by the Go runtime). -/
inductive Exec (α : Type) where
  | ret (a : α)
  | panic (e : Option GoError)

/-- What an encoder leaves behind: the destination's content and the error returned. -/
abbrev Res := Exec (Any × Option GoError)

/-- Go `dv.SetString(s)` on a destination of kind String. -/
def Any.SetString (_ : Any) (s : GoString) : Any := .str s

/-- Go `dv.Set(x)` for a destination of static type `dt`: panics unless `x` is
valid and assignable to `dt`; otherwise the destination holds `x`. -/
def SetValue (dt : GoType) (x : RValue) : Exec Any :=
  if x.IsValid && (dt.Kind == .Interface || x.Type == dt) then .ret x.Interface
  else .panic none

/-- Go `reflect.Append(s, x)`: panics unless `x` is assignable to the element
type of the slice `s`. -/
def reflectAppend : Any → Any → Exec Any
  | .bytes xs, .uint8 b => .ret (.bytes (xs ++ [b]))
  | .strings xs, .str s => .ret (.strings (xs ++ [s]))
  | .list xs, v => .ret (.list (xs ++ [v]))
  | .vms xs, .vm r => .ret (.vms (xs ++ [r]))
  | .services xs, .service r => .ret (.services (xs ++ [r]))
  | _, _ => .panic none

/-! ## Termination measure of the encoders

The encoders recurse on the source value (through `Elem`, `Index` and
`MapIndex`) and, for a bare value given to a slice destination, on the
destination type. -/

mutual
/-- Size of a dynamic value. -/
def Any.size : Any → Nat
  | .list xs => 1 + sizeList xs
  | .map m => 1 + sizeEntries m
  | .vm r => 2 + sizeRecord r
  | .vms xs => 1 + sizeRecords xs
  | .services xs => 2 + xs.length
  | .strings xs => 2 + xs.length
  | .bytes xs => 2 + xs.length
  | .ptr v => 1 + v.size
  | _ => 1
/-- Size of the elements of a `[]interface{}`. -/
def sizeList : List Any → Nat
  | [] => 0
  | x :: xs => 1 + x.size + sizeList xs
/-- Size of the entries of a map. -/
def sizeEntries : List (GoString × Any) → Nat
  | [] => 0
  | (_, x) :: xs => 1 + x.size + sizeEntries xs
/-- Size of a verification method record. -/
def sizeRecord : VerificationMethodOf Any → Nat
  | ⟨_, _, _, j, _⟩ => 1 + j.size
/-- Size of a slice of verification method records. -/
def sizeRecords : List (VerificationMethodOf Any) → Nat
  | [] => 0
  | r :: xs => 2 + sizeRecord r + sizeRecords xs
end

/-- Size of a reflected value: an interface wrapper counts one more than its content. -/
def RValue.size : RValue → Nat
  | .invalid => 0
  | .concrete v => 2 * v.size
  | .iface v => 2 * v.size + 1

/-- Rank of a destination type: slices above their elements. -/
def GoType.rank (dt : GoType) : Nat := if dt.Elem.isSome then 1 else 0

theorem size_ValueOf_le (v : Any) : (ValueOf v).size ≤ 2 * v.size := by
  cases v <;> simp [ValueOf, RValue.size]

theorem size_Elem_lt (sv : RValue) (h : sv.Kind = .Interface ∨ sv.Kind = .Pointer) :
    sv.Elem.size < sv.size := by
  cases sv with
  | invalid => simp [RValue.Kind] at h
  | iface v =>
    have := size_ValueOf_le v
    show (ValueOf v).size < 2 * v.size + 1
    omega
  | concrete v =>
    cases v <;> simp [RValue.Kind, Any.Type, GoType.Kind] at h
    case ptr w =>
      have := size_ValueOf_le w
      show (ValueOf w).size < 2 * (1 + w.size)
      omega

theorem sizeList_get (xs : List Any) (i : Nat) (v : Any) (h : xs[i]? = some v) :
    v.size < sizeList xs := by
  induction xs generalizing i with
  | nil => simp at h
  | cons x xs ih =>
    cases i with
    | zero => simp at h; subst h; simp [sizeList]; omega
    | succ i => simp at h; have := ih i h; simp [sizeList]; omega

theorem sizeRecords_get (xs : List (VerificationMethodOf Any)) (i : Nat)
    (r : VerificationMethodOf Any) (h : xs[i]? = some r) :
    sizeRecord r + 2 ≤ sizeRecords xs := by
  induction xs generalizing i with
  | nil => simp at h
  | cons x xs ih =>
    cases i with
    | zero => simp at h; subst h; simp [sizeRecords]; omega
    | succ i => simp at h; have := ih i h; simp [sizeRecords]; omega

theorem sizeEntries_lookup (m : List (GoString × Any)) (k : GoString) (v : Any)
    (h : m.lookup k = some v) : v.size < sizeEntries m := by
  induction m with
  | nil => simp at h
  | cons x xs ih =>
    obtain ⟨a, b⟩ := x
    simp only [List.lookup] at h
    split at h
    · simp at h; subst h; simp [sizeEntries]; omega
    · have := ih h; simp [sizeEntries]; omega

theorem size_Index_lt (sv : RValue) (i : Nat) (h : i < sv.Len) :
    (sv.Index i).size < sv.size := by
  cases sv with
  | invalid => simp [RValue.Len] at h
  | iface v => simp [RValue.Len] at h
  | concrete v =>
    cases v <;> simp [RValue.Len, Any.Len] at h
    case bytes bs =>
      simp only [RValue.Index]; split <;> simp [RValue.size, Any.size]; omega
    case strings bs =>
      simp only [RValue.Index]; split <;> simp [RValue.size, Any.size]; omega
    case list xs =>
      simp only [RValue.Index]; split
      · rename_i v hv; have := sizeList_get xs i v hv; simp [RValue.size, Any.size]; omega
      · simp [RValue.size, Any.size]
    case vms xs =>
      simp only [RValue.Index]; split
      · rename_i v hv; have := sizeRecords_get xs i v hv; simp [RValue.size, Any.size]; omega
      · simp [RValue.size, Any.size]
    case services xs =>
      simp only [RValue.Index]; split <;> simp [RValue.size, Any.size]; omega

theorem size_MapIndex_lt (sv : RValue) (k : GoString) (h : (sv.MapIndex k).IsValid = true) :
    (sv.MapIndex k).size < sv.size := by
  cases sv with
  | invalid => simp [RValue.MapIndex, RValue.IsValid] at h
  | iface v => simp [RValue.MapIndex, RValue.IsValid] at h
  | concrete v =>
    cases v <;> simp [RValue.MapIndex, RValue.IsValid] at h
    case map m =>
      simp only [RValue.MapIndex]; split
      · rename_i v hv; have := sizeEntries_lookup m k v hv
        simp [RValue.size, Any.size]; omega
      · rename_i hv; simp [hv, RValue.IsValid] at h

theorem rank_Elem_lt {dt et : GoType} (h : dt.Elem = some et) : et.rank < dt.rank := by
  cases dt <;> simp [GoType.Elem] at h <;> subst h <;> simp [GoType.rank, GoType.Elem]

/-! ## encoder.go -/

/-- Go `stringEncoder`: encodes the source value to a string value. -/
def stringEncoder (dv : Any) (sv : RValue) : Res :=
  match h : sv.Kind with
  | .Bool => .ret (dv.SetString (FormatBool sv.BoolVal), none)
  | .String => .ret (dv.SetString sv.String, none)
  | .Slice =>
    -- only allow a bytes slice
    if sv.Type.Elem.map GoType.Kind == some .Uint8 then
      .ret (dv.SetString sv.Bytes, none)
    else
      .ret (dv, some errUnsupportedSourceType)
  | .Interface | .Pointer =>
    if sv.IsValid then stringEncoder dv sv.Elem else .ret (dv, none)
  | _ => .ret (dv, some errUnsupportedSourceType)
termination_by sv.size
decreasing_by
  · exact size_Elem_lt sv (Or.inl h)
  · exact size_Elem_lt sv (Or.inr h)

/-- Go `interfaceEncoder`: encodes the source value to an interface. -/
def interfaceEncoder (dv : Any) (sv : RValue) : Res :=
  match h : sv.Kind with
  | .Interface | .Pointer =>
    if sv.IsValid then interfaceEncoder dv sv.Elem else .ret (dv, none)
  | _ =>
    match SetValue .iface sv with
    | .panic e => .panic e
    | .ret dv' => .ret (dv', none)
termination_by sv.size
decreasing_by
  · exact size_Elem_lt sv (Or.inl h)
  · exact size_Elem_lt sv (Or.inr h)

/-- Go `mapEncoder`: encodes the source value to a map. -/
def mapEncoder (dv : Any) (dt : GoType) (sv : RValue) : Res :=
  match sv.Kind with
  | .Map =>
    if dt != sv.Type then .ret (dv, some errMapNotEqual)
    else
      match SetValue dt sv with
      | .panic e => .panic e
      | .ret dv' => .ret (dv', none)
  | _ => .ret (dv, some errUnsupportedSourceType)

mutual
/-- Go `valueEncoder`: dispatch on the kind of the destination type. -/
def valueEncoder (dv : Any) (dt : GoType) (sv : RValue) : Res :=
  match dt.Kind with
  | .String => stringEncoder dv sv
  | .Interface => interfaceEncoder dv sv
  | .Struct => structEncoder dv dt sv
  | .Map => mapEncoder dv dt sv
  | .Slice | .Array => arrayEncoder dv dt sv
  | _ => .ret (dv, some errUnsupportedDestinationType)
termination_by (sv.size, dt.rank, 2, 0)
decreasing_by
  all_goals decreasing_tactic

/-- The `for i := 0; i < sv.Len(); i++` loop of `arrayEncoder`, from index `i`:
the error of `valueEncoder` is dropped and the element appended. -/
def arrayLoop (dv : Any) (dt : GoType) (sv : RValue) (i : Nat) : Res :=
  if hi : i < sv.Len then
    match dt.Elem with
    | none => .panic none
    | some et =>
      match valueEncoder (reflectNew et) et (sv.Index i) with
      | .panic e => .panic e
      | .ret (xv, _) =>
        match reflectAppend dv xv with
        | .panic e => .panic e
        | .ret dv' => arrayLoop dv' dt sv (i + 1)
  else .ret (dv, none)
termination_by (sv.size, dt.rank, 0, sv.Len - i)
decreasing_by
  · have := size_Index_lt sv i hi
    decreasing_tactic
  · decreasing_tactic

/-- Go `arrayEncoder`: encodes the source value to an array or slice. It
returns nil whatever `valueEncoder` returned. -/
def arrayEncoder (dv : Any) (dt : GoType) (sv : RValue) : Res :=
  match h : sv.Kind with
  | .Array | .Slice =>
    match he : dt.Elem with
    | none => .panic none
    | some et =>
      if et.Kind == .String && sv.Type.Elem.map GoType.Kind == some .Uint8 then
        match valueEncoder (reflectNew et) et sv with
        | .panic e => .panic e
        | .ret (xv, _) =>
          match reflectAppend dv xv with
          | .panic e => .panic e
          | .ret dv' => .ret (dv', none)
      else arrayLoop dv dt sv 0
  | .Interface =>
    match valueEncoder dv dt sv.Elem with
    | .panic e => .panic e
    | .ret (dv', _) => .ret (dv', none)
  | _ =>
    match he : dt.Elem with
    | none => .panic none
    | some et =>
      match valueEncoder (reflectNew et) et sv with
      | .panic e => .panic e
      | .ret (xv, _) =>
        match reflectAppend dv xv with
        | .panic e => .panic e
        | .ret dv' => .ret (dv', none)
termination_by (sv.size, dt.rank, 1, 0)
decreasing_by
  · have := rank_Elem_lt he
    decreasing_tactic
  · decreasing_tactic
  · have := rank_Elem_lt he
    decreasing_tactic
  · decreasing_tactic
  · have := size_Elem_lt sv (Or.inl h)
    decreasing_tactic
  · have := rank_Elem_lt he
    decreasing_tactic

/-- The `for i := 0; i < dt.NumField(); i++` loop of `structEncoder`, from
field `i`, filling the fresh record `xv`; at the end `dv.Set(xv)`. -/
def structLoop (dv xv : Any) (dt : GoType) (sv : RValue) (i : Nat) : Res :=
  if hi : i < dt.NumField then
    let key := Split ((dt.Field i).TagGet "json") 44
    let sourceValue := sv.MapIndex (key.headD [])
    if hv : sourceValue.IsValid && sourceValue.CanInterface then
      match valueEncoder (xv.Field i) (dt.Field i).Type_ sourceValue with
      | .panic e => .panic e
      | .ret (_, some err) => .ret (dv, some err)
      | .ret (fv, none) => structLoop dv (xv.SetField i fv) dt sv (i + 1)
    else structLoop dv xv dt sv (i + 1)
  else
    match SetValue dt (.concrete xv) with
    | .panic e => .panic e
    | .ret dv' => .ret (dv', none)
termination_by (sv.size, dt.rank, 0, dt.NumField - i)
decreasing_by
  · have := size_MapIndex_lt sv _ (by simpa [RValue.CanInterface] using hv)
    simp only [List.headD_eq_head?_getD] at this
    decreasing_tactic
  · decreasing_tactic
  · decreasing_tactic

/-- Go `structEncoder`: encodes the source value to a struct. -/
def structEncoder (dv : Any) (dt : GoType) (sv : RValue) : Res :=
  match h : sv.Kind with
  | .Interface =>
    if sv.IsValid then structEncoder dv dt sv.Elem else .ret (dv, none)
  | .Struct =>
    -- types must be the same to assign the value
    if dt != sv.Type then .ret (dv, some errStructNotEqual)
    else
      match SetValue dt sv with
      | .panic e => .panic e
      | .ret dv' => .ret (dv', none)
  | .Map => structLoop dv (reflectNew dt) dt sv 0
  | _ => .ret (dv, some errUnsupportedSourceType)
termination_by (sv.size, dt.rank, 1, 0)
decreasing_by
  · have := size_Elem_lt sv (Or.inl h)
    decreasing_tactic
  · decreasing_tactic
end

/-- Go `encode(d, s)`. The destination `d` is `some (dt, dv)` when it is a
non-nil pointer to a variable of static type `dt` holding `dv` (what every
caller passes), `none` otherwise. The returned pair is the variable's content
after the call and the error. -/
def encode (d : Option (GoType × Any)) (s : Any) : Res :=
  match d with
  | none => .panic (some errNotAPointer)
  | some (dt, dv) =>
    let sv := ValueOf s
    if sv.IsValid then valueEncoder dv dt sv else .ret (dv, none)

/-! ## doc.go -/

def contextKey : GoString := gs "@context"
def subjectKey : GoString := gs "id"
def alsoKnownAsKey : GoString := gs "alsoKnownAs"
def controllerKey : GoString := gs "controller"
def verificationMethodKey : GoString := gs "verificationMethod"
def authenticationKey : GoString := gs "authentication"
def assertionMethodKey : GoString := gs "assertionMethod"
def keyAgreementKey : GoString := gs "keyAgreement"
def capabilityInvocationKey : GoString := gs "capabilityInvocation"
def capabilityDelegationKey : GoString := gs "capabilityDelegation"
def serviceKey : GoString := gs "service"

/-- Go `type MapItem struct { Key, Value interface{} }`. -/
structure MapItem where
  Key : Any
  Value : Any

/-- Go `type MapSlice []MapItem`. -/
abbrev MapSlice := List MapItem

/-- Go `type Document struct`: the ordered properties (the mutex guards `Set`
only and holds no data). -/
structure Document where
  properties : MapSlice

/-- Go `NewDocument`. -/
def NewDocument : Document := ⟨[]⟩

/-- Go `prop.Key == key`: an interface value equals a string when it holds
that very string. -/
def Any.eqString : Any → GoString → Bool
  | .str s, key => s == key
  | _, _ => false

/-- The `for _, prop := range d.properties` loop of `Get`. -/
def MapSlice.Get : MapSlice → GoString → Any
  | [], _ => .null
  | prop :: rest, key => if prop.Key.eqString key then prop.Value else MapSlice.Get rest key

/-- Go `Document.Get`: the value of the first property with the key, nil when none. -/
def Document.Get (d : Document) (key : GoString) : Any := MapSlice.Get d.properties key

/-- Go `Document.Set`: appends the property; the error is always nil. -/
def Document.Set (d : Document) (key value : Any) : Document × Option GoError :=
  ({ properties := d.properties ++ [⟨key, value⟩] }, none)

def Document.Context (d : Document) : Any := d.Get contextKey
def Document.Subject (d : Document) : Any := d.Get subjectKey
def Document.AlsoKnownAs (d : Document) : Any := d.Get alsoKnownAsKey
def Document.Controller (d : Document) : Any := d.Get controllerKey
def Document.VerificationMethod (d : Document) : Any := d.Get verificationMethodKey
def Document.Authentication (d : Document) : Any := d.Get authenticationKey
def Document.AssertionMethod (d : Document) : Any := d.Get assertionMethodKey
def Document.KeyAgreement (d : Document) : Any := d.Get keyAgreementKey
def Document.CapabilityInvocation (d : Document) : Any := d.Get capabilityInvocationKey
def Document.CapabilityDelegation (d : Document) : Any := d.Get capabilityDelegationKey
def Document.Services (d : Document) : Any := d.Get serviceKey

/-- Go `x != nil` for an interface value. -/
def Any.notNil : Any → Bool
  | .null => false
  | _ => true

/-- Go `Document.verificationMethodFound`: the flag returned and the content
of `foundValue` afterwards. -/
def verificationMethodFound (iteratorValue : RValue) (keyId : GoString) (foundValue : Any) :
    Exec (Bool × Any) :=
  match h : iteratorValue.Kind with
  | .Struct =>
    if iteratorValue.FieldById.String == keyId then
      match SetValue .vm iteratorValue with
      | .panic e => .panic e
      | .ret fv => .ret (true, fv)
    else .ret (false, foundValue)
  | .Interface => verificationMethodFound iteratorValue.Elem keyId foundValue
  | _ => .ret (false, foundValue)
termination_by iteratorValue.size
decreasing_by
  exact size_Elem_lt iteratorValue (Or.inl h)

/-- The `for i := 0; i < v.Len(); i++` loop of `GetVerificationMethodById`,
from index `i`. -/
def findLoop (v : RValue) (keyId : GoString) (responseValue : Any) (i : Nat) :
    Exec (VerificationMethod × Option GoError) :=
  if i < v.Len then
    match verificationMethodFound (v.Index i) keyId responseValue with
    | .panic e => .panic e
    | .ret (true, fv) =>
      match fv with
      | .vm resp => .ret (resp, none)
      | _ => .ret (⟨[], [], [], .null, []⟩, some errInvalidType)
    | .ret (false, fv) => findLoop v keyId fv (i + 1)
  else .ret (⟨[], [], [], .null, []⟩, some errNotFound)
termination_by v.Len - i

/-- Go `Document.GetVerificationMethodById`. -/
def GetVerificationMethodById (d : Document) (keyId : GoString) :
    Exec (VerificationMethod × Option GoError) :=
  let responseValue := reflectNew .vm
  let verificationMehods := d.Get verificationMethodKey
  if verificationMehods.notNil then
    let v := ValueOf verificationMehods
    match v.Kind with
    | .Slice | .Array => findLoop v keyId responseValue 0
    | _ => .ret (⟨[], [], [], .null, []⟩, some errNotFound)
  else .ret (⟨[], [], [], .null, []⟩, some errNotFound)

/-- Go `Document.addVerificationMethod`: the content of `foundValue`
afterwards and the error returned. -/
def addVerificationMethod (d : Document) (iteratorValue : RValue) (foundValue : Any) : Res :=
  match h : iteratorValue.Kind with
  | .Map =>
    match structEncoder (reflectNew .vm) .vm iteratorValue with
    | .panic e => .panic e
    | .ret (_, some err) => .ret (foundValue, some err)
    | .ret (verificationMethodValue, none) =>
      match reflectAppend foundValue verificationMethodValue with
      | .panic e => .panic e
      | .ret fv => .ret (fv, none)
  | .String =>
    match GetVerificationMethodById d iteratorValue.String with
    | .panic e => .panic e
    | .ret (_, some _) => .ret (foundValue, none) -- no error, verificatiod might be revoked
    | .ret (verificationMethod, none) =>
      match reflectAppend foundValue (.vm verificationMethod) with
      | .panic e => .panic e
      | .ret fv => .ret (fv, none)
  | .Struct =>
    match reflectAppend foundValue iteratorValue.Interface with
    | .panic e => .panic e
    | .ret fv => .ret (fv, none)
  | .Interface => addVerificationMethod d iteratorValue.Elem foundValue
  | _ => .ret (foundValue, none)
termination_by iteratorValue.size
decreasing_by
  exact size_Elem_lt iteratorValue (Or.inl h)

/-- The `for i := 0; i < v.Len(); i++` loop of
`GetAssociatedVerificationMethod`, from index `i`: the content of
`responseValue` afterwards and the first error met. -/
def addLoop (d : Document) (v : RValue) (responseValue : Any) (i : Nat) : Res :=
  if i < v.Len then
    match addVerificationMethod d (v.Index i) responseValue with
    | .panic e => .panic e
    | .ret (rv, some err) => .ret (rv, some err)
    | .ret (rv, none) => addLoop d v rv (i + 1)
  else .ret (responseValue, none)
termination_by v.Len - i

/-- The type switch on `responseValue.Interface()` that ends
`GetAssociatedVerificationMethod`. -/
def respond (responseValue : Any) : List VerificationMethod × Option GoError :=
  match responseValue with
  | .vms resp => if resp.length > 0 then (resp, none) else ([], some errNotFound)
  | _ => ([], some errInvalidType)

/-- Go `Document.GetAssociatedVerificationMethod`: gets the associated
verification method for a purpose. -/
def GetAssociatedVerificationMethod (d : Document) (purpose : ProofPurpose) :
    Exec (List VerificationMethod × Option GoError) :=
  let responseValue := reflectNew .vms
  let verificationRelation := d.Get purpose.String
  if verificationRelation.notNil then
    let v := ValueOf verificationRelation
    match v.Kind with
    | .Slice | .Array =>
      match addLoop d v responseValue 0 with
      | .panic e => .panic e
      | .ret (_, some err) => .ret ([], some err)
      | .ret (rv, none) => .ret (respond rv)
    | _ => .ret (respond responseValue)
  else .ret ([], some errNotFound)

/-! ## docbuilder.go -/

/-- Go `type BuilderItem struct { Key, Value interface{} }`. -/
structure BuilderItem where
  Key : Any
  Value : Any

/-- Go `type BuilderSlice []BuilderItem`. -/
abbrev BuilderSlice := List BuilderItem

/-- Go `type builder struct`. -/
structure builder where
  properties : BuilderSlice

/-- Go `NewBuilder`. -/
def NewBuilder : builder := ⟨[]⟩

/-- Go `builder.property`: records the value for a key unless the value is nil. -/
def builder.property (b : builder) (key : GoString) (value : Any) : builder :=
  if value.notNil then { properties := b.properties ++ [⟨.str key, value⟩] } else b

/-- The common body of the typed builder methods: `var d T; err := encode(&d, v);
if err != nil { panic(err) }; return b.property(key, d)`. -/
def builder.encodeProperty (b : builder) (dt : GoType) (key : GoString) (v : Any) :
    Exec builder :=
  match encode (some (dt, reflectNew dt)) v with
  | .panic e => .panic e
  | .ret (_, some err) => .panic (some err)
  | .ret (d, none) => .ret (b.property key d)

/-- Go `builder.verificationRelationArray`. -/
def builder.verificationRelationArray (b : builder) (key : GoString) (v : Any) : Exec builder :=
  b.encodeProperty .relations key v

/-- Go `builder.stringArray`. -/
def builder.stringArray (b : builder) (key : GoString) (v : Any) : Exec builder :=
  b.encodeProperty .strings key v

/-- Go `builder.Context`. -/
def builder.Context (b : builder) (v : Any) : Exec builder := b.stringArray contextKey v

/-- Go `builder.Subject`. -/
def builder.Subject (b : builder) (v : Any) : Exec builder :=
  b.encodeProperty .string subjectKey v

/-- Go `builder.AlsoKnownAs`. -/
def builder.AlsoKnownAs (b : builder) (v : Any) : Exec builder := b.stringArray alsoKnownAsKey v

/-- Go `builder.Controller`. -/
def builder.Controller (b : builder) (v : Any) : Exec builder := b.stringArray controllerKey v

/-- Go `builder.VerificationMethod`. -/
def builder.VerificationMethod (b : builder) (v : Any) : Exec builder :=
  b.encodeProperty .vms verificationMethodKey v

/-- Go `builder.Authentication`. -/
def builder.Authentication (b : builder) (v : Any) : Exec builder :=
  b.verificationRelationArray authenticationKey v

/-- Go `builder.AssertionMethod`. -/
def builder.AssertionMethod (b : builder) (v : Any) : Exec builder :=
  b.verificationRelationArray assertionMethodKey v

/-- Go `builder.KeyAgreement`. -/
def builder.KeyAgreement (b : builder) (v : Any) : Exec builder :=
  b.verificationRelationArray keyAgreementKey v

/-- Go `builder.CapabilityInvocation`. -/
def builder.CapabilityInvocation (b : builder) (v : Any) : Exec builder :=
  b.verificationRelationArray capabilityInvocationKey v

/-- Go `builder.CapabilityDelegation`. -/
def builder.CapabilityDelegation (b : builder) (v : Any) : Exec builder :=
  b.verificationRelationArray capabilityDelegationKey v

/-- Go `builder.Service`. -/
def builder.Service (b : builder) (v : Any) : Exec builder :=
  b.encodeProperty .services serviceKey v

/-- Go `builder.CustomProperty`. -/
def builder.CustomProperty (b : builder) (key : GoString) (v : Any) : builder :=
  b.property key v

/-- The `for _, property := range b.properties` loop of `Build`: it stops at
the first `Set` that fails and returns the document built so far (the error,
which Go wraps with the key name, is shown as the error of `Set`). -/
def buildLoop (doc : Document) : BuilderSlice → Document × Option GoError
  | [] => (doc, none)
  | property :: rest =>
    match doc.Set property.Key property.Value with
    | (doc', some err) => (doc', some err)
    | (doc', none) => buildLoop doc' rest

/-- Go `builder.Build`. -/
def builder.Build (b : builder) : Document × Option GoError :=
  buildLoop NewDocument b.properties

/-! ## doc.go: MarshalJSON

`MarshalJSON` fills a Go `map[string]interface{}` from the properties and
hands it to `json.Marshal`. The map is an association list with distinct keys;
the bytes `json.Marshal` writes are shown as the JSON value they denote, with
the members of an object in the order they are written (encoding/json writes
the keys of a map sorted bytewise, and the fields of a struct in declaration
order). A JSON string is shown as the Go string it was written from (the
escaping, and the replacement of invalid UTF-8, are not shown). The values
here hold no nil/empty distinction for slices: the empty slice is the nil
slice a `var d []T` starts as, which encoding/json writes as `null`; a map is
never nil. -/

/-- A JSON value, the members of an object in written order. -/
inductive Json where
  | null
  | bool (b : Bool)
  | number (n : Int)
  | string (s : GoString)
  | array (xs : List Json)
  | object (members : List (GoString × Json))

/-- The alphabet of `base64.StdEncoding`. -/
def base64Alphabet : List UInt8 :=
  gs "ABCDEFGHIJKLMNOPQRSTUVWXYZabcdefghijklmnopqrstuvwxyz0123456789+/"

/-- The base64 digit for a six-bit value. -/
def base64Digit (n : Nat) : UInt8 := base64Alphabet.getD (n % 64) 0

/-- Go `base64.StdEncoding.EncodeToString`, as encoding/json writes a `[]byte`. -/
def base64 : List UInt8 → GoString
  | [] => []
  | [a] => [base64Digit (a.toNat / 4), base64Digit (a.toNat % 4 * 16), 61, 61]
  | [a, b] =>
    [base64Digit (a.toNat / 4), base64Digit (a.toNat % 4 * 16 + b.toNat / 16),
      base64Digit (b.toNat % 16 * 4), 61]
  | a :: b :: c :: rest =>
    [base64Digit (a.toNat / 4), base64Digit (a.toNat % 4 * 16 + b.toNat / 16),
      base64Digit (b.toNat % 16 * 4 + c.toNat / 64), base64Digit (c.toNat % 64)] ++ base64 rest

/-- Go `a < b` on strings: bytewise lexicographic order. -/
def strLess : GoString → GoString → Bool
  | [], [] => false
  | [], _ :: _ => true
  | _ :: _, [] => false
  | a :: as, b :: bs =>
    if a.toNat < b.toNat then true else if b.toNat < a.toNat then false else strLess as bs

/-- Insertion of a member into a list of members sorted by key. -/
def insertMember (p : GoString × Json) : List (GoString × Json) → List (GoString × Json)
  | [] => [p]
  | q :: rest => if strLess q.1 p.1 then q :: insertMember p rest else p :: q :: rest

/-- The members of a map in the order encoding/json writes them: sorted by key. -/
def sortMembers (ms : List (GoString × Json)) : List (GoString × Json) :=
  ms.foldr insertMember []

/-- The entries a map read by first match holds: one per key. -/
def distinctKeys {α : Type} : List (GoString × α) → List (GoString × α)
  | [] => []
  | p :: rest => p :: (distinctKeys rest).filter fun q => q.1 != p.1

/-- A string field tagged `omitempty`: left out when empty. -/
def omitEmpty (key s : GoString) : List (GoString × Json) :=
  if s.isEmpty then [] else [(key, .string s)]

/-- Go `json.Marshal` on a Service: the three fields, none of them `omitempty`. -/
def marshalService (s : Service) : Json :=
  .object [(gs "id", .string s.Id), (gs "type", .string s.Type_),
    (gs "serviceEndpoint", .string s.ServiceEndpoint)]

mutual
/-- Go `json.Marshal` on a value of the package, as the JSON value written.
It returns no error on these values. -/
def jsonMarshal : Any → Json
  | .null => .null
  | .bool b => .bool b
  | .number n => .number n
  | .uint8 b => .number b.toNat
  | .str s => .string s
  | .bytes bs => if bs.isEmpty then .null else .string (base64 bs)
  | .strings xs => if xs.isEmpty then .null else .array (xs.map .string)
  | .list xs => if xs.isEmpty then .null else .array (marshalList xs)
  | .map m => .object (sortMembers (distinctKeys (marshalEntries m)))
  | .vm r => marshalRecord r
  | .service r => marshalService r
  | .vms xs => if xs.isEmpty then .null else .array (marshalRecords xs)
  | .services xs => if xs.isEmpty then .null else .array (xs.map marshalService)
  | .ptr v => jsonMarshal v
/-- The elements of a `[]interface{}`, each marshalled. -/
def marshalList : List Any → List Json
  | [] => []
  | x :: xs => jsonMarshal x :: marshalList xs
/-- The entries of a map, each value marshalled. -/
def marshalEntries : List (GoString × Any) → List (GoString × Json)
  | [] => []
  | (k, x) :: xs => (k, jsonMarshal x) :: marshalEntries xs
/-- Go `json.Marshal` on a VerificationMethod: the fields in declaration
order, each tagged `omitempty` (the key material is left out when it is the
nil interface). -/
def marshalRecord : VerificationMethodOf Any → Json
  | ⟨id, ty, c, j, mb⟩ =>
    .object (omitEmpty (gs "id") id ++ omitEmpty (gs "type") ty ++
      omitEmpty (gs "controller") c ++
      (if j.notNil then [(gs "publicKeyJwk", jsonMarshal j)] else []) ++
      omitEmpty (gs "publicKeyMultibase") mb)
/-- The elements of a `[]VerificationMethod`, each marshalled. -/
def marshalRecords : List (VerificationMethodOf Any) → List Json
  | [] => []
  | r :: xs => marshalRecord r :: marshalRecords xs
end

/-- Go `m[key] = value` on a map. -/
def mapAssign (m : List (GoString × Any)) (key : GoString) (value : Any) :
    List (GoString × Any) :=
  match m with
  | [] => [(key, value)]
  | p :: rest => if p.1 = key then (key, value) :: rest else p :: mapAssign rest key value

/-- The body of the loop of `MarshalJSON` for one property: the `switch` on
`prop.Key.(string)`. The type assertions `prop.Key.(string)` and
`prop.Value.([]string)`, and the index `value[0]`, panic when they fail. A key
that matches no case leaves the map as it is. -/
def marshalStep (mapKeyValue : List (GoString × Any)) (prop : MapItem) :
    Exec (List (GoString × Any)) :=
  match prop.Key with
  | .str key =>
    if key = subjectKey then
      .ret (mapAssign mapKeyValue key prop.Value)
    else if key = contextKey ∨ key = controllerKey then
      match prop.Value with
      | .strings value =>
        if value.length > 1 then
          .ret (mapAssign mapKeyValue key prop.Value)
        else
          match value with
          | v0 :: _ => .ret (mapAssign mapKeyValue key (.str v0))
          | [] => .panic none
      | _ => .panic none
    else if key = alsoKnownAsKey then
      .ret (mapAssign mapKeyValue key prop.Value)
    else if key = verificationMethodKey then
      .ret (mapAssign mapKeyValue key prop.Value)
    else if key = authenticationKey ∨ key = assertionMethodKey ∨ key = keyAgreementKey ∨
        key = capabilityInvocationKey ∨ key = capabilityDelegationKey then
      .ret (mapAssign mapKeyValue key prop.Value)
    else if key = serviceKey then
      .ret (mapAssign mapKeyValue key prop.Value)
    else
      .ret mapKeyValue
  | _ => .panic none

/-- The `for _, prop := range d.properties` loop of `MarshalJSON`. -/
def marshalLoop (mapKeyValue : List (GoString × Any)) : MapSlice → Exec (List (GoString × Any))
  | [] => .ret mapKeyValue
  | prop :: rest =>
    match marshalStep mapKeyValue prop with
    | .panic e => .panic e
    | .ret m => marshalLoop m rest

/-- Go `Document.MarshalJSON`: the JSON value of the bytes returned, and the error. -/
def Document.MarshalJSON (d : Document) : Exec (Json × Option GoError) :=
  match marshalLoop [] d.properties with
  | .panic e => .panic e
  | .ret mapKeyValue => .ret (jsonMarshal (.map mapKeyValue), none)

/-! ## doc.go: UnmarshalJSON

`UnmarshalJSON` decodes the bytes with `json.Unmarshal` into a
`map[string]interface{}` and hands each entry to a builder method. The bytes
are given as the JSON value they denote. The order in which `range` visits a
Go map is not specified: it is a parameter here, the function `visit` that
lists the entries of the decoded map in visiting order.

A JSON number is decoded to a float64 with `strconv.ParseFloat`: an integer of
magnitude up to 2^53 is kept, a larger one is rounded to the nearest float64,
and one beyond the largest float64 makes `json.Unmarshal` return an error.

A string is decoded to itself, which is what `json.Unmarshal` does to valid
UTF-8; it writes U+FFFD for any other byte, so a statement that depends on the
strings decoded asks for valid UTF-8 (`Json.validText`). -/

/-- The number of binary digits of a natural number, by halving at most `fuel` times. -/
def bitLengthAux : Nat → Nat → Nat
  | 0, _ => 0
  | fuel + 1, n => if n = 0 then 0 else bitLengthAux fuel (n / 2) + 1

/-- The number of binary digits of a natural number. -/
def bitLength (n : Nat) : Nat := bitLengthAux n n

/-- The float64 nearest to a natural number, shown as the integer it is: the
number itself up to 2^53, and beyond that the number rounded to 53 binary
digits, a tie going to the even mantissa. -/
def roundFloat64 (n : Nat) : Nat :=
  if n ≤ 2 ^ 53 then n
  else
    let shift := bitLength n - 53
    let q := n / 2 ^ shift
    let r := n % 2 ^ shift
    if 2 * r > 2 ^ shift ∨ (2 * r = 2 ^ shift ∧ q % 2 = 1) then (q + 1) * 2 ^ shift
    else q * 2 ^ shift

/-- Go `strconv.ParseFloat(s, 64)` on the digits of an integer: the float64
encoding/json decodes the number to. -/
def float64OfInt (n : Int) : Int :=
  if n < 0 then -(roundFloat64 n.natAbs : Int) else (roundFloat64 n.natAbs : Int)

set_option exponentiation.threshold 2048

/-- Go `strconv.ParseFloat(s, 64)` reports a range error: the number rounds to
a value beyond the largest float64. -/
def float64Overflows (n : Int) : Bool := decide (2 ^ 1024 ≤ roundFloat64 n.natAbs)

mutual
/-- Every number of the JSON value can be decoded to a float64. -/
def Json.representable : Json → Bool
  | .number n => !float64Overflows n
  | .array xs => representableList xs
  | .object ms => representableMembers ms
  | _ => true
/-- Every number of the elements can be decoded. -/
def representableList : List Json → Bool
  | [] => true
  | x :: xs => x.representable && representableList xs
/-- Every number of the member values can be decoded. -/
def representableMembers : List (GoString × Json) → Bool
  | [] => true
  | (_, x) :: ms => x.representable && representableMembers ms
end

mutual
/-- Go `json.Unmarshal` into an `interface{}`: null is nil, a number a
float64, an array a `[]interface{}`, an object a `map[string]interface{}`. -/
def Json.decode : Json → Any
  | .null => .null
  | .bool b => .bool b
  | .number n => .number (float64OfInt n)
  | .string s => .str s
  | .array xs => .list (decodeList xs)
  | .object ms => .map (decodeMembers ms)
/-- The elements of an array, each decoded. -/
def decodeList : List Json → List Any
  | [] => []
  | x :: xs => x.decode :: decodeList xs
/-- The members of an object, each decoded, in written order. Of two members
with one key the map keeps the later: the list is reversed, since a map is
read by first match. -/
def decodeMembers : List (GoString × Json) → List (GoString × Any)
  | [] => []
  | (k, x) :: ms => decodeMembers ms ++ [(k, x.decode)]
end

/-- Go `json.Unmarshal(data, &properties)` for `properties` a
`map[string]interface{}`: the entries of the map, one per key, and `none` for
the error returned when the value is neither an object nor null, or when a
number in it is beyond the range of float64. -/
def jsonUnmarshal : Json → Option (List (GoString × Any))
  | .object ms =>
    if representableMembers ms then some (distinctKeys (decodeMembers ms)) else none
  | .null => some []
  | _ => none

/-- The `switch key` of `UnmarshalJSON` for one entry of the decoded map. -/
def unmarshalStep (b : builder) (key : GoString) (value : Any) : Exec builder :=
  if key = contextKey ∨ key = alsoKnownAsKey ∨ key = controllerKey then
    b.stringArray key value
  else if key = subjectKey then
    b.Subject value
  else if key = verificationMethodKey then
    b.VerificationMethod value
  else if key = authenticationKey ∨ key = assertionMethodKey ∨ key = keyAgreementKey ∨
      key = capabilityInvocationKey ∨ key = capabilityDelegationKey then
    b.verificationRelationArray key value
  else if key = serviceKey then
    b.Service value
  else
    .ret (b.CustomProperty key value)

/-- The `for key, value := range properties` loop of `UnmarshalJSON`, over the
entries in visiting order. -/
def unmarshalLoop (b : builder) : List (GoString × Any) → Exec builder
  | [] => .ret b
  | (key, value) :: rest =>
    match unmarshalStep b key value with
    | .panic e => .panic e
    | .ret b' => unmarshalLoop b' rest

/-- Go `Document.UnmarshalJSON`: the document afterwards and the error returned. -/
def Document.UnmarshalJSON (d : Document) (data : Json)
    (visit : List (GoString × Any) → List (GoString × Any)) : Exec (Document × Option GoError) :=
  match jsonUnmarshal data with
  | none => .ret (d, some .jsonError)
  | some properties =>
    match unmarshalLoop NewBuilder (visit properties) with
    | .panic e => .panic e
    | .ret b =>
      match b.Build with
      | (_, some err) => .ret (d, some err)
      | (doc, none) => .ret ({ properties := doc.properties }, none)

/-! ## Definitions the statements are written with

Readings of the encoders and of the resolver over lists, the words of the
claims (contribution of an element, unresolved reference, the three string
kinds), and the documents and maps of the tests. -/

/-- A value with its pointer indirections removed. -/
def Any.strip : Any → Any
  | .ptr v => v.strip
  | v => v

/-- The `n`-fold pointer to a value. -/
def wrap : Nat → Any → Any
  | 0, v => v
  | n + 1, v => .ptr (wrap n v)

/-- The string a source of kind Bool, String or byte slice is coerced to. -/
def stringOf : Any → Option GoString
  | .bool b => some (FormatBool b)
  | .str s => some s
  | .bytes bs => some bs
  | _ => none

/-- What `interfaceEncoder` leaves for a source without indirections: the
value itself, and a panic in `Set` for nil. -/
def storeAny : Any → Res
  | .null => .panic none
  | w => .ret (w, none)

/-- The map key read for field `i` of a record type: the `json` tag up to the
first comma. -/
def GoType.jsonKey (dt : GoType) (i : Nat) : GoString :=
  (Split ((dt.Field i).TagGet "json") 44).headD []

/-- The string a map holds under a key, the empty string when the key is missing. -/
def entryString (m : List (GoString × Any)) (k : GoString) : GoString :=
  match m.lookup k with
  | some (.str s) => s
  | _ => []

/-- The entry of a map under a key is a string, where present. -/
def stringOrAbsent (m : List (GoString × Any)) (k : GoString) : Prop :=
  m.lookup k = none ∨ ∃ s, m.lookup k = some (.str s)

/-- The record a map is coerced to, field by field: its string entries, and
under `publicKeyJwk` the given value. -/
def vmOfMap (m : List (GoString × Any)) (jwk : Any) : VerificationMethod :=
  ⟨entryString m (gs "id"), entryString m (gs "type"), entryString m (gs "controller"), jwk,
   entryString m (gs "publicKeyMultibase")⟩

/-- The Service record a map is coerced to, field by field. -/
def serviceOfMap (m : List (GoString × Any)) : Service :=
  ⟨entryString m (gs "id"), entryString m (gs "type"), entryString m (gs "serviceEndpoint")⟩

/-- A source is of kind Bool, of kind String, or a byte slice: the three kinds
`stringEncoder` accepts. -/
def isStringSource (w : Any) : Bool :=
  (ValueOf w).Kind == .Bool || (ValueOf w).Kind == .String ||
    ((ValueOf w).Kind == .Slice && (ValueOf w).Type.Elem.map GoType.Kind == some .Uint8)

/-- The map of `testVerificationMethodMap`, without its key material. -/
def sampleMethodMap : List (GoString × Any) :=
  [(gs "id", .str (gs "did:example:123#key-1")), (gs "type", .str (gs "JsonWebKey2020")),
   (gs "controller", .str (gs "did:example:123"))]

/-- The record `sampleMethodMap` is coerced to. -/
def sampleMethod : VerificationMethod :=
  ⟨gs "did:example:123#key-1", gs "JsonWebKey2020", gs "did:example:123", .null, []⟩

/-- The map of `testServiceMap`. -/
def sampleServiceMap : List (GoString × Any) :=
  [(gs "id", .str (gs "did:example:123#linked-domain")), (gs "type", .str (gs "LinkedDomains")),
   (gs "serviceEndpoint", .str (gs "https://bar.example.com"))]

/-- The record of `testServiceStruct`. -/
def sampleService : Service :=
  ⟨gs "did:example:123#linked-domain", gs "LinkedDomains", gs "https://bar.example.com"⟩

/-- The value the `publicKeyJwk` field receives from a map: the entry without
its pointer indirections, nil when the key is missing. -/
def keyMaterialOf (m : List (GoString × Any)) : Any :=
  match m.lookup (gs "publicKeyJwk") with
  | some j => j.strip
  | none => .null

/-- The `publicKeyJwk` entry of a map is missing, or is not nil once its
pointer indirections are removed. -/
def keyMaterialStorable (m : List (GoString × Any)) : Prop :=
  m.lookup (gs "publicKeyJwk") = none ∨
    ∃ j, m.lookup (gs "publicKeyJwk") = some j ∧ j.strip.notNil = true

/-- A map with only a pointer under `publicKeyJwk`. -/
def pointerKeyMap : List (GoString × Any) := [(gs "publicKeyJwk", .ptr (.str (gs "k")))]

/-- A map whose `publicKeyJwk` entry is nil (JSON `null`). -/
def nullKeyMap : List (GoString × Any) := [(gs "publicKeyJwk", .null)]

/-- The elements of a slice value, as `Index` yields them from index 0. -/
def RValue.elems : RValue → List RValue
  | .concrete (.bytes bs) => bs.map fun b => .concrete (.uint8 b)
  | .concrete (.strings xs) => xs.map fun s => .concrete (.str s)
  | .concrete (.list xs) => xs.map .iface
  | .concrete (.vms xs) => xs.map fun r => .concrete (.vm r)
  | .concrete (.services xs) => xs.map fun r => .concrete (.service r)
  | _ => []

/-- The loop of `GetAssociatedVerificationMethod` over a list of elements. -/
def addAll (d : Document) : List RValue → Any → Res
  | [], rv => .ret (rv, none)
  | x :: xs, rv =>
    match addVerificationMethod d x rv with
    | .panic e => .panic e
    | .ret (rv', some err) => .ret (rv', some err)
    | .ret (rv', none) => addAll d xs rv'

/-- The loop of `GetVerificationMethodById` over a list of elements. -/
def findAll (keyId : GoString) : List RValue → Any → Exec (VerificationMethod × Option GoError)
  | [], _ => .ret (⟨[], [], [], .null, []⟩, some errNotFound)
  | x :: xs, rv =>
    match verificationMethodFound x keyId rv with
    | .panic e => .panic e
    | .ret (true, fv) =>
      match fv with
      | .vm resp => .ret (resp, none)
      | _ => .ret (⟨[], [], [], .null, []⟩, some errInvalidType)
    | .ret (false, fv) => findAll keyId xs fv

/-- The Id of a record, for a value that is one. -/
def recordId : Any → Option GoString
  | .vm r => some r.Id
  | .service r => some r.Id
  | _ => none

/-- The first verification method of the document of
`tstVerificationRelationWithEmbedded`. -/
def key0 : VerificationMethod :=
  ⟨gs "did:example:123#key-0", gs "JsonWebKey2020", gs "did:example:123",
   .map [(gs "kty", .str (gs "OKP")), (gs "crv", .str (gs "Ed25519")),
     (gs "x", .str (gs "VCpo2LMLhn6iWku8MKvSLg2ZAoC-nlOyPVQaO3FxVeQ"))], []⟩

/-- The second verification method of that document. -/
def key1 : VerificationMethod :=
  ⟨gs "did:example:123#key-1", gs "JsonWebKey2020", gs "did:example:123",
   .map [(gs "kty", .str (gs "OKP")), (gs "crv", .str (gs "X25519")),
     (gs "x", .str (gs "pE_mG098rdQjY3MKK2D5SUQ6ZOEW3a6Z6T7Z4SgnzCE"))], []⟩

/-- The embedded verification method of its `authentication` list, as the
decoded map. -/
def embeddedKeyMap : List (GoString × Any) :=
  [(gs "id", .str (gs "did:example:123456789abcdefghi#keys-2")),
   (gs "type", .str (gs "Ed25519VerificationKey2020")),
   (gs "controller", .str (gs "did:example:123456789abcdefghi")),
   (gs "publicKeyMultibase", .str (gs "zH3C2AVvLMv6gmMNam3uVAjZpfkcJCwDwnZn6z3wXmqPV"))]

/-- The record `embeddedKeyMap` is coerced to. -/
def embeddedKey : VerificationMethod :=
  ⟨gs "did:example:123456789abcdefghi#keys-2", gs "Ed25519VerificationKey2020",
   gs "did:example:123456789abcdefghi", .null,
   gs "zH3C2AVvLMv6gmMNam3uVAjZpfkcJCwDwnZn6z3wXmqPV"⟩

/-- The document of `tstVerificationRelationWithEmbedded`, as the Builder
stores its properties. -/
def embeddedDocument : Document :=
  ⟨[⟨.str contextKey, .strings [gs "https://www.w3.org/ns/did/v1",
      gs "https://w3id.org/security/suites/jws-2020/v1"]⟩,
    ⟨.str subjectKey, .str (gs "did:example:123456789abcdefghi")⟩,
    ⟨.str verificationMethodKey, .vms [key0, key1]⟩,
    ⟨.str authenticationKey, .list [.str (gs "did:example:123#key-1"), .map embeddedKeyMap]⟩]⟩

/-- Some record of the stored `verificationMethod` value has this Id. -/
def hasRecordWithId (d : Document) (s : GoString) : Bool :=
  (ValueOf (d.Get verificationMethodKey)).elems.any fun x => recordId x.Interface == some s

/-- The element is a reference string whose id is the Id of no record of
`verificationMethod`. -/
def isUnresolvedRef (d : Document) (x : RValue) : Bool :=
  match x.Interface with
  | .str s => !hasRecordWithId d s
  | _ => false

/-- The document of `TestGetVerificationMethodById`: its `authentication` list
starts with a reference to a key that `verificationMethod` does not hold. -/
def unresolvedDocument : Document :=
  ⟨[⟨.str verificationMethodKey, .vms [key0, key1]⟩,
    ⟨.str authenticationKey,
      .list [.str (gs "did:example:123456789abcdefghi#keys-1"), .map embeddedKeyMap]⟩]⟩

/-- The same document with the embedded method removed: its `authentication`
list holds the unresolved reference only. -/
def onlyUnresolvedDocument : Document :=
  ⟨[⟨.str verificationMethodKey, .vms [key0, key1]⟩,
    ⟨.str authenticationKey, .list [.str (gs "did:example:123456789abcdefghi#keys-1")]⟩]⟩

/-- What one element of the relationship list contributes, as C1 words it: the
record itself for an embedded VerificationMethod, the coerced record for a
generic map, the record `GetVerificationMethodById` returns for a reference
string that resolves, and nothing otherwise. -/
def contribution (d : Document) (x : RValue) : List VerificationMethod :=
  match x.Interface with
  | .vm r => [r]
  | .map m =>
    match structEncoder (reflectNew .vm) .vm (.concrete (.map m)) with
    | .ret (.vm r, none) => [r]
    | _ => []
  | .str s =>
    match GetVerificationMethodById d s with
    | .ret (r, none) => [r]
    | _ => []
  | _ => []

/-- The element is neither a map that fails to coerce to a record, nor a
record of another struct type, nor a reference whose lookup panics. -/
def wellShaped (d : Document) (x : RValue) : Prop :=
  (∀ m, x.Interface = .map m →
    ∃ r, structEncoder (reflectNew .vm) .vm (.concrete (.map m)) = .ret (.vm r, none)) ∧
  (∀ r, x.Interface ≠ .service r) ∧
  (∀ s, x.Interface = .str s → ∀ e, GetVerificationMethodById d s ≠ .panic e)

/-- A document whose `authentication` list holds an embedded verification
method followed by a Service record. -/
def foreignRecordDocument : Document :=
  ⟨[⟨.str verificationMethodKey, .vms [key0, key1]⟩,
    ⟨.str authenticationKey, .list [.vm key1, .service sampleService]⟩]⟩

/-- A map whose "id" entry is a number: it cannot be coerced to a record. -/
def numberIdMap : List (GoString × Any) := [(gs "id", .number 5)]

/-- A document whose `authentication` list holds a Service record and then a
map that cannot be coerced. -/
def foreignThenBadMapDocument : Document :=
  ⟨[⟨.str authenticationKey, .list [.service sampleService, .map numberIdMap]⟩]⟩

/-- A document whose `authentication` list holds a map with a nil
`publicKeyJwk` entry (JSON `null`) and then a map that cannot be coerced. -/
def nullKeyThenBadMapDocument : Document :=
  ⟨[⟨.str authenticationKey, .list [.map nullKeyMap, .map numberIdMap]⟩]⟩

/-- The first entry of a property list whose key equals `k`. -/
def firstEntry (props : MapSlice) (k : GoString) : Option MapItem :=
  props.find? fun p => p.Key.eqString k

/-- The document entry a builder pair becomes in `Build`. -/
def BuilderItem.toMapItem (p : BuilderItem) : MapItem := ⟨p.Key, p.Value⟩

/-- Appending the slot values one by one to a slice with `reflect.Append`. -/
def appendAll : Any → List Any → Res
  | dv, [] => .ret (dv, none)
  | dv, y :: ys =>
    match reflectAppend dv y with
    | .panic e => .panic e
    | .ret dv' => appendAll dv' ys

/-- The element is a verification relation of one of the three shapes: a
reference string, a generic map or an embedded VerificationMethod record. -/
def isRelation : Any → Bool
  | .str _ | .map _ | .vm _ => true
  | _ => false

/-- The source is a record or a map. -/
def isRecordOrMap : Any → Bool
  | .vm _ | .service _ | .map _ => true
  | _ => false

/-- The member of a JSON object under a key (the first one written). -/
def Json.member : Json → GoString → Option Json
  | .object ms, key => ms.lookup key
  | _, _ => none

/-- An entry `MarshalJSON` can take: its key is a string, and under
`@context` or `controller` its value is a list of strings with at least one
element. -/
def marshalable (p : MapItem) : Bool :=
  match p.Key, p.Value with
  | .str _, .strings (_ :: _) => true
  | .str key, _ => key != contextKey && key != controllerKey
  | _, _ => false

/-- A document that keeps `@context` twice: first a list of one element, then
a list of two. -/
def twoContextsDocument : Document :=
  ⟨[⟨.str contextKey, .strings [gs "https://www.w3.org/ns/did/v1"]⟩,
    ⟨.str contextKey, .strings [gs "https://www.w3.org/ns/did/v1",
      gs "https://w3id.org/security/suites/jws-2020/v1"]⟩]⟩

/-- A document whose `alsoKnownAs` list has one element. -/
def oneAliasDocument : Document :=
  ⟨[⟨.str subjectKey, .str (gs "did:example:123456789abcdefghi")⟩,
    ⟨.str alsoKnownAsKey, .strings [gs "https://example.com/alice"]⟩]⟩

/-- A document with a `@context` of one element, a subject and a `controller`
of two elements. -/
def serializedDocument : Document :=
  ⟨[⟨.str contextKey, .strings [gs "https://www.w3.org/ns/did/v1"]⟩,
    ⟨.str subjectKey, .str (gs "did:example:123456789abcdefghi")⟩,
    ⟨.str controllerKey, .strings [gs "did:example:bcehfew7h32f32h7af3",
      gs "did:example:123456789abcdefghi"]⟩]⟩

/-- The eleven keys for which `MarshalJSON` has a case. -/
def wellKnownKeys : List GoString :=
  [subjectKey, contextKey, controllerKey, alsoKnownAsKey, verificationMethodKey,
    authenticationKey, assertionMethodKey, keyAgreementKey, capabilityInvocationKey,
    capabilityDelegationKey, serviceKey]

/-- A document with a subject and the extension property `created`. -/
def extensionDocument : Document :=
  ⟨[⟨.str subjectKey, .str (gs "did:example:123456789abcdefghi")⟩,
    ⟨.str (gs "created"), .str (gs "2023-01-01T00:00:00Z")⟩]⟩

/-- The value the loop of `MarshalJSON` assigns for a value kept under a
well-known key: under `@context` and `controller` the element of a list of
one string, and the value itself otherwise. -/
def writtenValue (key : GoString) (v : Any) : Any :=
  if key = contextKey ∨ key = controllerKey then
    match v with
    | .strings [s] => .str s
    | _ => v
  else v

/-- What the loop of `MarshalJSON` assigns for an entry with a string key:
nothing when the key is not well known. -/
def writtenEntry (e : GoString × Any) : Option (GoString × Any) :=
  if e.1 ∈ wellKnownKeys then some (e.1, writtenValue e.1 e.2) else none

/-- The document that holds the given entries, all with string keys, in order. -/
def documentOf (es : List (GoString × Any)) : Document :=
  ⟨es.map fun e => ⟨.str e.1, e.2⟩⟩

/-- A document with its subject set first and its `@context` second. -/
def subjectFirstDocument : Document :=
  ⟨[⟨.str subjectKey, .str (gs "did:example:123456789abcdefghi")⟩,
    ⟨.str contextKey, .strings [gs "https://www.w3.org/ns/did/v1",
      gs "https://w3id.org/security/suites/jws-2020/v1"]⟩]⟩

/-- The same entries, `@context` set first. -/
def contextFirstDocument : Document :=
  ⟨[⟨.str contextKey, .strings [gs "https://www.w3.org/ns/did/v1",
      gs "https://w3id.org/security/suites/jws-2020/v1"]⟩,
    ⟨.str subjectKey, .str (gs "did:example:123456789abcdefghi")⟩]⟩

/-- A document whose subject has been set twice. -/
def twiceSetDocument : Document :=
  ((NewDocument.Set (.str subjectKey) (.str (gs "did:example:first"))).1.Set
    (.str subjectKey) (.str (gs "did:example:second"))).1

/-- A document that keeps `alsoKnownAs` twice. -/
def twoAliasesDocument : Document :=
  ⟨[⟨.str alsoKnownAsKey, .strings [gs "https://example.com/alice"]⟩,
    ⟨.str alsoKnownAsKey, .strings [gs "https://example.com/bob",
      gs "https://example.com/carol"]⟩]⟩

/-- The static type of the variable into which the builder method that
`UnmarshalJSON` calls for a key coerces the value; `none` for an extension
key, whose value is recorded as it is. -/
def destinationOf (key : GoString) : Option GoType :=
  if key = contextKey ∨ key = alsoKnownAsKey ∨ key = controllerKey then some .strings
  else if key = subjectKey then some .string
  else if key = verificationMethodKey then some .vms
  else if key = authenticationKey ∨ key = assertionMethodKey ∨ key = keyAgreementKey ∨
      key = capabilityInvocationKey ∨ key = capabilityDelegationKey then some .relations
  else if key = serviceKey then some .services
  else none

/-- The value `UnmarshalJSON` hands to `property` for an entry of the decoded
map: the coerced value, the value itself for an extension key, and a panic
when the coercion fails. -/
def recordedValue (key : GoString) (value : Any) : Exec Any :=
  match destinationOf key with
  | none => .ret value
  | some dt =>
    match encode (some (dt, reflectNew dt)) value with
    | .panic e => .panic e
    | .ret (_, some err) => .panic (some err)
    | .ret (d, none) => .ret d

/-- The entry `UnmarshalJSON` records for an entry of the decoded map whose
coercion returns: none for a nil value. -/
def recordedEntry (e : GoString × Any) : Option (GoString × Any) :=
  match recordedValue e.1 e.2 with
  | .ret w => if w.notNil then some (e.1, w) else none
  | .panic _ => none

/-- The coercion of an entry of the decoded map returns. -/
def coercible (e : GoString × Any) : Bool :=
  match recordedValue e.1 e.2 with
  | .ret _ => true
  | .panic _ => false

/-- One byte of Go `utf8.ValidString`. The state holds how many continuation
bytes the current character still needs and the range the next one must lie
in; `none` after a byte that cannot stand where it does. -/
def utf8Step (st : Option (Nat × Nat × Nat)) (b : UInt8) : Option (Nat × Nat × Nat) :=
  match st with
  | none => none
  | some (0, _, _) =>
    if b.toNat < 128 then some (0, 128, 191)
    else if 194 ≤ b.toNat ∧ b.toNat ≤ 223 then some (1, 128, 191)
    else if b.toNat = 224 then some (2, 160, 191)
    else if b.toNat = 237 then some (2, 128, 159)
    else if 225 ≤ b.toNat ∧ b.toNat ≤ 239 then some (2, 128, 191)
    else if b.toNat = 240 then some (3, 144, 191)
    else if 241 ≤ b.toNat ∧ b.toNat ≤ 243 then some (3, 128, 191)
    else if b.toNat = 244 then some (3, 128, 143)
    else none
  | some (k + 1, lo, hi) =>
    if lo ≤ b.toNat ∧ b.toNat ≤ hi then some (k, 128, 191) else none

/-- Go `utf8.ValidString`: the bytes are the UTF-8 encoding of a sequence of
Unicode characters. encoding/json keeps such a string as it is, and puts
U+FFFD in the place of any other byte. -/
def validUTF8 (s : GoString) : Bool :=
  match s.foldl utf8Step (some (0, 128, 191)) with
  | some (0, _, _) => true
  | _ => false

mutual
/-- Every string and every key of the JSON value is valid UTF-8. -/
def Json.validText : Json → Bool
  | .string s => validUTF8 s
  | .array xs => validTextList xs
  | .object ms => validTextMembers ms
  | _ => true
/-- Every string and key of the elements is valid UTF-8. -/
def validTextList : List Json → Bool
  | [] => true
  | x :: xs => x.validText && validTextList xs
/-- Every key, and every string and key of the member values, is valid UTF-8. -/
def validTextMembers : List (GoString × Json) → Bool
  | [] => true
  | (k, x) :: ms => validUTF8 k && x.validText && validTextMembers ms
end

mutual
/-- A JSON value that decoding into an `interface{}` and marshalling give
back: every number in it is an integer of magnitude at most 2^53 (which is a
float64, written with all its digits), every array in it has an element, and
the keys of every object in it are increasing. -/
def stable : Json → Bool
  | .number n => decide (n.natAbs ≤ 2 ^ 53)
  | .array xs => !xs.isEmpty && stableList xs
  | .object ms =>
    decide ((ms.map Prod.fst).Pairwise fun a b => strLess a b = true) && stableMembers ms
  | _ => true
/-- Every element is stable. -/
def stableList : List Json → Bool
  | [] => true
  | x :: xs => stable x && stableList xs
/-- Every member value is stable. -/
def stableMembers : List (GoString × Json) → Bool
  | [] => true
  | (_, x) :: ms => stable x && stableMembers ms
end

/-- The content of a verification method object: its string members (the empty
string for a missing member) and its key material, when present. -/
structure MethodTree where
  Id : GoString
  Type_ : GoString
  Controller : GoString
  key : Option Json
  PublicKeyMultibase : GoString

/-- The `publicKeyJwk` member of a verification method object, when present. -/
def keyMember : Option Json → List (GoString × Json)
  | some c => [(gs "publicKeyJwk", c)]
  | none => []

/-- The members of a verification method object: those present, in the order
`id`, `type`, `controller`, `publicKeyJwk`, `publicKeyMultibase`. -/
def MethodTree.members (r : MethodTree) : List (GoString × Json) :=
  omitEmpty (gs "id") r.Id ++ omitEmpty (gs "type") r.Type_ ++
    omitEmpty (gs "controller") r.Controller ++ keyMember r.key ++
    omitEmpty (gs "publicKeyMultibase") r.PublicKeyMultibase

/-- The verification method object with that content. -/
def MethodTree.tree (r : MethodTree) : Json := .object r.members

/-- The key material, when present, is stable and not `null`. -/
def MethodTree.ok (r : MethodTree) : Bool :=
  match r.key with
  | some .null => false
  | some c => stable c
  | none => true

/-- An element of a verification relationship: a reference string, or an
object that is stable. -/
def relationTree : Json → Bool
  | .string _ => true
  | .object ms => stable (.object ms)
  | _ => false

/-- The values under a well-known key that a round trip gives back:
`@context` and `controller` a string or an array of two or more strings, `id`
a string, `alsoKnownAs` an array of one or more strings, `verificationMethod`
an array of one or more verification method objects, `service` an array of
one or more objects with the members `id`, `type`, `serviceEndpoint`, and a
verification relationship an array of one or more relation elements. -/
def canonicalValue (key : GoString) (v : Json) : Prop :=
  if key = contextKey ∨ key = controllerKey then
    (∃ s, v = .string s) ∨ ∃ L : List GoString, 2 ≤ L.length ∧ v = .array (L.map .string)
  else if key = subjectKey then
    ∃ s, v = .string s
  else if key = alsoKnownAsKey then
    ∃ L : List GoString, L ≠ [] ∧ v = .array (L.map .string)
  else if key = verificationMethodKey then
    ∃ rs : List MethodTree, rs ≠ [] ∧ (∀ r ∈ rs, r.ok = true) ∧ v = .array (rs.map MethodTree.tree)
  else if key = authenticationKey ∨ key = assertionMethodKey ∨ key = keyAgreementKey ∨
      key = capabilityInvocationKey ∨ key = capabilityDelegationKey then
    ∃ es : List Json, es ≠ [] ∧ (∀ e ∈ es, relationTree e = true) ∧ v = .array es
  else if key = serviceKey then
    ∃ ss : List Service, ss ≠ [] ∧ v = .array (ss.map marshalService)
  else False

/-- A JSON document in canonical form: an object whose strings and keys are
valid UTF-8 and whose keys are well known and increasing, each with a value of
the shape for its key. -/
def canonical (t : Json) : Prop :=
  ∃ ms, t = .object ms ∧ t.validText = true ∧
    (ms.Pairwise fun a b => strLess a.1 b.1 = true) ∧ ∀ p ∈ ms, canonicalValue p.1 p.2

/-- The record a verification method object is coerced to. -/
def MethodTree.record (r : MethodTree) : VerificationMethod :=
  ⟨r.Id, r.Type_, r.Controller,
    match r.key with
    | some c => c.decode
    | none => .null,
    r.PublicKeyMultibase⟩

/-- The verification method object of a relationship in the document of
`testMarshal`: the members `controller`, `id`, `publicKeyMultibase`, `type`. -/
def relationObject (id multibase : String) : Json :=
  .object [(gs "controller", .string (gs "did:example:123")), (gs "id", .string (gs id)),
    (gs "publicKeyMultibase", .string (gs multibase)),
    (gs "type", .string (gs "Ed25519VerificationKey2020"))]

/-- The key material of the verification method in the document of `testMarshal`. -/
def testMarshalKey : Json :=
  .object [(gs "crv", .string (gs "secp256k1")), (gs "kid", .string (gs "xyz")),
    (gs "kty", .string (gs "EC")),
    (gs "x", .string (gs "F5ZFqah38KdBiRl99LdADUxhum5n1yNFdvv5ngW5K24")),
    (gs "y", .string (gs "SA_fdWHQor_kCQkJETqJ4dwLENWY4ArOTEhd8R6nMVw"))]

/-- The content of the verification method in the document of `testMarshal`. -/
def testMarshalMethod : MethodTree :=
  ⟨gs "xyz", gs "EcdsaSecp256k1VerificationKey2019", gs "did:example:123", some testMarshalKey, []⟩

/-- The service in the document of `testMarshal`. -/
def testMarshalService : Service :=
  ⟨gs "did:example:123#linked-domain", gs "LinkedDomains", gs "https://bar.example.com"⟩

/-- The JSON document of `testMarshal`. -/
def testMarshalTree : Json :=
  .object [
    (contextKey, .array [.string (gs "https://www.w3.org/ns/did/v1"),
      .string (gs "https://w3id.org/security/suites/ed25519-2020/v1")]),
    (assertionMethodKey, .array [relationObject
      "did:example:123#z6MkiukuAuQAE8ozxvmahnQGzApvtW7KT5XXKfojjwbdEomY"
      "z5TVraf9itbKXrRvt2DSS95Gw4vqU3CHAdetoufdcKazA"]),
    (authenticationKey, .array [relationObject
      "did:example:123#z6MkecaLyHuYWkayBDLw5ihndj3T1m6zKTGqau3A51G7RBf3"
      "zAKJP3f7BD6W4iWEQ9jwndVTCBq8ua2Utt8EEjJ6Vxsf"]),
    (capabilityDelegationKey, .array [relationObject
      "did:example:123#z6Mkw94ByR26zMSkNdCUi6FNRsWnc2DFEeDXyBGJ5KTzSWyi"
      "zHgo9PAmfeoxHG8Mn2XHXamxnnSwPpkyBHAMNF3VyXJCL"]),
    (capabilityInvocationKey, .array [relationObject
      "did:example:123#z6MkhdmzFu659ZJ4XKj31vtEDmjvsi5yDZG5L7Caz63oP39k"
      "z4BWwfeqdp1obQptLLMvPNgBw48p7og1ie6Hf9p5nTpNN"]),
    (controllerKey, .string (gs "did:example:123")),
    (subjectKey, .string (gs "did:example:456")),
    (keyAgreementKey, .array [relationObject
      "did:example:123#z6MkhdmzFu6594633290c794224f1185955236fa7176eb"
      "z4BWwfeqdp1obQptLLMvPNgBw48p7og1ie6Hf9p5nTpNN"]),
    (serviceKey, .array [marshalService testMarshalService]),
    (verificationMethodKey, .array [testMarshalMethod.tree])]

/-- A JSON document whose `service` is the empty list. -/
def emptyServiceTree : Json :=
  .object [(subjectKey, .string (gs "did:example:456")), (serviceKey, .array [])]

/-- A JSON document whose service has an `id` only. -/
def bareServiceTree : Json :=
  .object [(subjectKey, .string (gs "did:example:456")),
    (serviceKey, .array [.object [(gs "id", .string (gs "did:example:123#linked-domain"))]])]

/-! ## Reading the encoders case by case -/

theorem strip_wrap (n : Nat) (v : Any) : (wrap n v).strip = v.strip := by
  induction n with
  | zero => rfl
  | succ n ih => simpa [wrap, Any.strip] using ih

@[simp] theorem stringEncoder_iface (dv v : Any) :
    stringEncoder dv (.iface v) = stringEncoder dv (ValueOf v) := by
  rw [stringEncoder]; simp [RValue.Kind, RValue.IsValid, RValue.Elem]

@[simp] theorem stringEncoder_ptr (dv v : Any) :
    stringEncoder dv (.concrete (.ptr v)) = stringEncoder dv (ValueOf v) := by
  rw [stringEncoder]; simp [RValue.Kind, RValue.IsValid, RValue.Elem, Any.Type, GoType.Kind]

@[simp] theorem stringEncoder_invalid (dv : Any) :
    stringEncoder dv .invalid = .ret (dv, some errUnsupportedSourceType) := by
  rw [stringEncoder]; simp [RValue.Kind]

/-- Reading of `stringEncoder` on a source that is no pointer. -/
theorem stringEncoder_base (dv v : Any) (h : ∀ w, v ≠ .ptr w) :
    stringEncoder dv (ValueOf v) =
      match stringOf v with
      | some s => .ret (.str s, none)
      | none => .ret (dv, some errUnsupportedSourceType) := by
  cases v
  case ptr w => exact absurd rfl (h w)
  all_goals
    rw [stringEncoder]
    simp [ValueOf, RValue.Kind, Any.Type, GoType.Kind, Any.SetString, RValue.String,
      RValue.BoolVal, RValue.Bytes, RValue.Type, GoType.Elem, stringOf]

theorem strip_not_ptr : (v : Any) → ∀ w, v.strip ≠ .ptr w
  | .ptr v => by simpa [Any.strip] using strip_not_ptr v
  | .null | .bool _ | .number _ | .uint8 _ | .str _ | .bytes _ | .strings _ | .list _
  | .map _ | .vm _ | .service _ | .vms _ | .services _ => by simp [Any.strip]

/-- Reading of `stringEncoder`: indirections are transparent. -/
theorem stringEncoder_strip (dv : Any) : (v : Any) →
    stringEncoder dv (ValueOf v) = stringEncoder dv (ValueOf v.strip)
  | .ptr v => by
    have := stringEncoder_strip dv v
    simpa [ValueOf, Any.strip] using this
  | .null | .bool _ | .number _ | .uint8 _ | .str _ | .bytes _ | .strings _ | .list _
  | .map _ | .vm _ | .service _ | .vms _ | .services _ => by simp [Any.strip]

/-- Reading of `stringEncoder` on any source. -/
theorem stringEncoder_eq (dv v : Any) :
    stringEncoder dv (ValueOf v) =
      match stringOf v.strip with
      | some s => .ret (.str s, none)
      | none => .ret (dv, some errUnsupportedSourceType) := by
  rw [stringEncoder_strip, stringEncoder_base dv v.strip (strip_not_ptr v)]

@[simp] theorem interfaceEncoder_iface (dv v : Any) :
    interfaceEncoder dv (.iface v) = interfaceEncoder dv (ValueOf v) := by
  rw [interfaceEncoder]; simp [RValue.Kind, RValue.IsValid, RValue.Elem]

@[simp] theorem interfaceEncoder_ptr (dv v : Any) :
    interfaceEncoder dv (.concrete (.ptr v)) = interfaceEncoder dv (ValueOf v) := by
  rw [interfaceEncoder]
  simp [RValue.Kind, RValue.IsValid, RValue.Elem, Any.Type, GoType.Kind]

@[simp] theorem interfaceEncoder_invalid (dv : Any) :
    interfaceEncoder dv .invalid = .panic none := by
  rw [interfaceEncoder]; simp [RValue.Kind, SetValue, RValue.IsValid]

/-- Reading of `interfaceEncoder` on a source that is no pointer. -/
theorem interfaceEncoder_base (dv v : Any) (h : ∀ w, v ≠ .ptr w) :
    interfaceEncoder dv (ValueOf v) = storeAny v := by
  cases v
  case ptr w => exact absurd rfl (h w)
  case null => simp [ValueOf, storeAny]
  all_goals
    rw [interfaceEncoder]
    simp [ValueOf, RValue.Kind, Any.Type, GoType.Kind, SetValue, RValue.IsValid,
      RValue.Interface, storeAny]

theorem interfaceEncoder_strip (dv : Any) : (v : Any) →
    interfaceEncoder dv (ValueOf v) = interfaceEncoder dv (ValueOf v.strip)
  | .ptr v => by
    have := interfaceEncoder_strip dv v
    simpa [ValueOf, Any.strip] using this
  | .null | .bool _ | .number _ | .uint8 _ | .str _ | .bytes _ | .strings _ | .list _
  | .map _ | .vm _ | .service _ | .vms _ | .services _ => by simp [Any.strip]

/-- Reading of `interfaceEncoder` on any source: the value without its
indirections is stored; a nil one panics in `Set`. -/
theorem interfaceEncoder_eq (dv v : Any) :
    interfaceEncoder dv (ValueOf v) = storeAny v.strip := by
  rw [interfaceEncoder_strip, interfaceEncoder_base dv v.strip (strip_not_ptr v)]

theorem valueEncoder_string (dv : Any) (sv : RValue) :
    valueEncoder dv .string sv = stringEncoder dv sv := by
  rw [valueEncoder]; simp [GoType.Kind]

theorem valueEncoder_iface (dv : Any) (sv : RValue) :
    valueEncoder dv .iface sv = interfaceEncoder dv sv := by
  rw [valueEncoder]; simp [GoType.Kind]

theorem valueEncoder_struct (dv : Any) (dt : GoType) (sv : RValue) (h : dt.Kind = .Struct) :
    valueEncoder dv dt sv = structEncoder dv dt sv := by
  rw [valueEncoder]; simp [h]

theorem valueEncoder_slice (dv : Any) (dt : GoType) (sv : RValue) (h : dt.Kind = .Slice) :
    valueEncoder dv dt sv = arrayEncoder dv dt sv := by
  rw [valueEncoder]; simp [h]

theorem vm_jsonKey :
    GoType.vm.jsonKey 0 = gs "id" ∧ GoType.vm.jsonKey 1 = gs "type" ∧
    GoType.vm.jsonKey 2 = gs "controller" ∧ GoType.vm.jsonKey 3 = gs "publicKeyJwk" ∧
    GoType.vm.jsonKey 4 = gs "publicKeyMultibase" := by decide

theorem service_jsonKey :
    GoType.service.jsonKey 0 = gs "id" ∧ GoType.service.jsonKey 1 = gs "type" ∧
    GoType.service.jsonKey 2 = gs "serviceEndpoint" := by decide

@[simp] theorem structEncoder_iface (dv : Any) (dt : GoType) (v : Any) :
    structEncoder dv dt (.iface v) = structEncoder dv dt (ValueOf v) := by
  rw [structEncoder]; simp [RValue.Kind, RValue.IsValid, RValue.Elem]

theorem structEncoder_map (dv : Any) (dt : GoType) (m : List (GoString × Any)) :
    structEncoder dv dt (.concrete (.map m)) =
      structLoop dv (reflectNew dt) dt (.concrete (.map m)) 0 := by
  rw [structEncoder]; simp [RValue.Kind, Any.Type, GoType.Kind]

theorem structEncoder_vm (dv : Any) (r : VerificationMethod) :
    structEncoder dv .vm (.concrete (.vm r)) = .ret (.vm r, none) := by
  rw [structEncoder]
  simp [RValue.Kind, Any.Type, GoType.Kind, RValue.Type, SetValue, RValue.IsValid,
    RValue.Interface]

theorem structEncoder_service (dv : Any) (r : Service) :
    structEncoder dv .service (.concrete (.service r)) = .ret (.service r, none) := by
  rw [structEncoder]
  simp [RValue.Kind, Any.Type, GoType.Kind, RValue.Type, SetValue, RValue.IsValid,
    RValue.Interface]

/-- One round of the field loop of `structEncoder` on a map source. -/
theorem structLoop_step (dv xv : Any) (dt : GoType) (m : List (GoString × Any)) (i : Nat)
    (hi : i < dt.NumField) :
    structLoop dv xv dt (.concrete (.map m)) i =
      match m.lookup (dt.jsonKey i) with
      | none => structLoop dv xv dt (.concrete (.map m)) (i + 1)
      | some v =>
        match valueEncoder (xv.Field i) (dt.Field i).Type_ (.iface v) with
        | .panic e => .panic e
        | .ret (_, some err) => .ret (dv, some err)
        | .ret (fv, none) => structLoop dv (xv.SetField i fv) dt (.concrete (.map m)) (i + 1) := by
  rw [structLoop]
  simp only [hi, dite_true, GoType.jsonKey, RValue.MapIndex, RValue.CanInterface, Bool.and_true]
  cases hl : m.lookup ((Split ((dt.Field i).TagGet "json") 44).headD []) with
  | none => simp [RValue.IsValid]
  | some v => simp [RValue.IsValid]

theorem structLoop_end (dv xv : Any) (dt : GoType) (sv : RValue) (i : Nat)
    (hi : ¬ i < dt.NumField) :
    structLoop dv xv dt sv i =
      match SetValue dt (.concrete xv) with
      | .panic e => .panic e
      | .ret dv' => .ret (dv', none) := by
  rw [structLoop]; simp [hi]

@[simp] theorem stringEncoder_str (dv : Any) (s : GoString) :
    stringEncoder dv (.concrete (.str s)) = .ret (.str s, none) := by
  have := stringEncoder_base dv (.str s) (by simp)
  simpa [ValueOf, stringOf] using this

/-- One round of the field loop for a field of type string whose entry is a
string or missing. -/
theorem structLoop_string (dv xv : Any) (dt : GoType) (m : List (GoString × Any)) (i : Nat)
    (hi : i < dt.NumField) (hty : (dt.Field i).Type_ = .string)
    (hl : stringOrAbsent m (dt.jsonKey i)) :
    structLoop dv xv dt (.concrete (.map m)) i =
      structLoop dv
        (match m.lookup (dt.jsonKey i) with
         | some _ => xv.SetField i (.str (entryString m (dt.jsonKey i)))
         | none => xv) dt (.concrete (.map m)) (i + 1) := by
  rw [structLoop_step dv xv dt m i hi]
  rcases hl with hl | ⟨s, hl⟩
  · simp [hl]
  · simp [hl, hty, valueEncoder_string, ValueOf, entryString]

/-- One round of the field loop for a field of interface type. -/
theorem structLoop_iface (dv xv : Any) (dt : GoType) (m : List (GoString × Any)) (i : Nat)
    (hi : i < dt.NumField) (hty : (dt.Field i).Type_ = .iface) :
    structLoop dv xv dt (.concrete (.map m)) i =
      match m.lookup (dt.jsonKey i) with
      | none => structLoop dv xv dt (.concrete (.map m)) (i + 1)
      | some j =>
        match storeAny j.strip with
        | .panic e => .panic e
        | .ret (w, _) => structLoop dv (xv.SetField i w) dt (.concrete (.map m)) (i + 1) := by
  rw [structLoop_step dv xv dt m i hi]
  cases hl : m.lookup (dt.jsonKey i) with
  | none => simp
  | some j =>
    simp only [hty, valueEncoder_iface, interfaceEncoder_iface, interfaceEncoder_eq]
    cases hs : j.strip <;> simp [storeAny]

theorem entryString_none {m : List (GoString × Any)} {k : GoString} (h : m.lookup k = none) :
    entryString m k = [] := by
  simp [entryString, h]

/-- Reading of `structEncoder` into a VerificationMethod on a map whose string
fields are strings where present. -/
theorem structEncoder_vm_map (dv : Any) (m : List (GoString × Any))
    (h0 : stringOrAbsent m (gs "id")) (h1 : stringOrAbsent m (gs "type"))
    (h2 : stringOrAbsent m (gs "controller")) (h4 : stringOrAbsent m (gs "publicKeyMultibase")) :
    structEncoder dv .vm (.concrete (.map m)) =
      match m.lookup (gs "publicKeyJwk") with
      | none => .ret (.vm (vmOfMap m .null), none)
      | some j =>
        match storeAny j.strip with
        | .panic e => .panic e
        | .ret (w, _) => .ret (.vm (vmOfMap m w), none) := by
  obtain ⟨k0, k1, k2, k3, k4⟩ := vm_jsonKey
  rw [structEncoder_map,
    structLoop_string dv _ .vm m 0 (by decide) rfl (by rw [k0]; exact h0),
    structLoop_string dv _ .vm m 1 (by decide) rfl (by rw [k1]; exact h1),
    structLoop_string dv _ .vm m 2 (by decide) rfl (by rw [k2]; exact h2),
    structLoop_iface dv _ .vm m 3 (by decide) rfl]
  simp only [k0, k1, k2, k3]
  have tail : ∀ xv : Any, structLoop dv xv .vm (.concrete (.map m)) (3 + 1) =
      match SetValue .vm (.concrete
        (match m.lookup (gs "publicKeyMultibase") with
         | some _ => xv.SetField 4 (.str (entryString m (gs "publicKeyMultibase")))
         | none => xv)) with
      | .panic e => .panic e
      | .ret dv' => .ret (dv', none) := by
    intro xv
    rw [structLoop_string dv _ .vm m 4 (by decide) rfl (by rw [k4]; exact h4),
      structLoop_end _ _ _ _ _ (by decide), k4]
  cases hj : m.lookup (gs "publicKeyJwk") with
  | none =>
    simp only [tail]
    cases e0 : m.lookup (gs "id") <;> cases e1 : m.lookup (gs "type") <;>
    cases e2 : m.lookup (gs "controller") <;> cases e4 : m.lookup (gs "publicKeyMultibase") <;>
    simp [reflectNew, Any.SetField, SetValue, RValue.IsValid, RValue.Type, Any.Type,
      RValue.Interface, vmOfMap, entryString_none, e0, e1, e2, e4]
  | some j =>
    simp only []
    cases hs : storeAny j.strip with
    | panic e => rfl
    | ret p =>
      obtain ⟨w, err⟩ := p
      simp only [tail]
      cases e0 : m.lookup (gs "id") <;> cases e1 : m.lookup (gs "type") <;>
      cases e2 : m.lookup (gs "controller") <;> cases e4 : m.lookup (gs "publicKeyMultibase") <;>
      simp [reflectNew, Any.SetField, SetValue, RValue.IsValid, RValue.Type, Any.Type,
        RValue.Interface, vmOfMap, entryString_none, e0, e1, e2, e4]

/-- Reading of `structEncoder` into a Service on a map whose fields are strings
where present. -/
theorem structEncoder_service_map (dv : Any) (m : List (GoString × Any))
    (h0 : stringOrAbsent m (gs "id")) (h1 : stringOrAbsent m (gs "type"))
    (h2 : stringOrAbsent m (gs "serviceEndpoint")) :
    structEncoder dv .service (.concrete (.map m)) = .ret (.service (serviceOfMap m), none) := by
  obtain ⟨k0, k1, k2⟩ := service_jsonKey
  rw [structEncoder_map,
    structLoop_string dv _ .service m 0 (by decide) rfl (by rw [k0]; exact h0),
    structLoop_string dv _ .service m 1 (by decide) rfl (by rw [k1]; exact h1),
    structLoop_string dv _ .service m 2 (by decide) rfl (by rw [k2]; exact h2),
    structLoop_end _ _ _ _ _ (by decide)]
  simp only [k0, k1, k2]
  cases e0 : m.lookup (gs "id") <;> cases e1 : m.lookup (gs "type") <;>
  cases e2 : m.lookup (gs "serviceEndpoint") <;>
  simp [reflectNew, Any.SetField, SetValue, RValue.IsValid, RValue.Type, Any.Type,
    RValue.Interface, serviceOfMap, entryString_none, e0, e1, e2]

/-! ### Slices -/

/-- A bare value (neither slice nor interface) given to a slice destination:
it is coerced to the element type and appended, the error dropped. -/
theorem arrayEncoder_bare (dv : Any) (dt et : GoType) (sv : RValue) (he : dt.Elem = some et)
    (hk : sv.Kind ≠ .Slice ∧ sv.Kind ≠ .Array ∧ sv.Kind ≠ .Interface) :
    arrayEncoder dv dt sv =
      match valueEncoder (reflectNew et) et sv with
      | .panic e => .panic e
      | .ret (xv, _) =>
        match reflectAppend dv xv with
        | .panic e => .panic e
        | .ret dv' => .ret (dv', none) := by
  obtain ⟨h1, h2, h3⟩ := hk
  rw [arrayEncoder]
  split
  · rename_i h; exact absurd h h2
  · rename_i h; exact absurd h h1
  · rename_i h; exact absurd h h3
  · split
    · rename_i h; rw [he] at h; exact absurd h (by simp)
    · rename_i et' h
      rw [he] at h
      cases h
      rfl

/-- A slice source that is no byte slice, or any slice source when the
destination holds no strings: the element loop. -/
theorem arrayEncoder_slice (dv : Any) (dt et : GoType) (sv : RValue) (he : dt.Elem = some et)
    (hk : sv.Kind = .Slice)
    (hb : (et.Kind == .String && sv.Type.Elem.map GoType.Kind == some .Uint8) = false) :
    arrayEncoder dv dt sv = arrayLoop dv dt sv 0 := by
  rw [arrayEncoder]
  split
  · rename_i h; rw [hk] at h; exact absurd h (by decide)
  · split
    · rename_i h; rw [he] at h; exact absurd h (by simp)
    · rename_i et' h
      rw [he] at h
      cases h
      simp [hb]
  · rename_i h; rw [hk] at h; exact absurd h (by decide)
  · rename_i _ h _; exact absurd hk h

/-- A byte slice given to a slice-of-string destination: one element, the
whole byte sequence. -/
theorem arrayEncoder_bytes (dv : Any) (bs : List UInt8) :
    arrayEncoder dv .strings (.concrete (.bytes bs)) =
      match reflectAppend dv (.str bs) with
      | .panic e => .panic e
      | .ret dv' => .ret (dv', none) := by
  rw [arrayEncoder]
  simp [RValue.Kind, Any.Type, GoType.Kind, GoType.Elem, RValue.Type, valueEncoder_string,
    stringEncoder_base _ (.bytes bs) (by simp), stringOf]
  have := stringEncoder_base (reflectNew .string) (.bytes bs) (by simp)
  simp only [ValueOf, stringOf] at this
  rw [this]

/-- One round of the element loop of `arrayEncoder`. -/
theorem arrayLoop_step (dv : Any) (dt et : GoType) (sv : RValue) (i : Nat)
    (he : dt.Elem = some et) (hi : i < sv.Len) :
    arrayLoop dv dt sv i =
      match valueEncoder (reflectNew et) et (sv.Index i) with
      | .panic e => .panic e
      | .ret (xv, _) =>
        match reflectAppend dv xv with
        | .panic e => .panic e
        | .ret dv' => arrayLoop dv' dt sv (i + 1) := by
  rw [arrayLoop]; simp [hi, he]

theorem arrayLoop_end (dv : Any) (dt : GoType) (sv : RValue) (i : Nat) (hi : ¬ i < sv.Len) :
    arrayLoop dv dt sv i = .ret (dv, none) := by
  rw [arrayLoop]; simp [hi]

/-- The element loop into a slice of strings, when every element of the source
is coerced to the corresponding string of `L`. -/
theorem arrayLoop_strings (sv : RValue) (L : List GoString) (hlen : sv.Len = L.length)
    (hidx : ∀ (i : Nat) (h : i < L.length),
      valueEncoder (reflectNew .string) .string (sv.Index i) = .ret (.str L[i], none)) :
    ∀ (n : Nat) (acc : List GoString) (i : Nat), L.length - i = n →
      arrayLoop (.strings acc) .strings sv i = .ret (.strings (acc ++ L.drop i), none) := by
  intro n
  induction n with
  | zero =>
    intro acc i hn
    have hi : ¬ i < sv.Len := by omega
    rw [arrayLoop_end _ _ _ _ hi, List.drop_eq_nil_of_le (by omega)]
    simp
  | succ n ih =>
    intro acc i hn
    have hi : i < L.length := by omega
    rw [arrayLoop_step _ .strings .string sv i rfl (by omega), hidx i hi]
    simp only [reflectAppend]
    rw [ih (acc ++ [L[i]]) (i + 1) (by omega)]
    rw [List.drop_eq_getElem_cons hi]
    simp

theorem ValueOf_notNil {v : Any} (h : v.notNil = true) : ValueOf v = .concrete v := by
  cases v <;> simp_all [ValueOf, Any.notNil]

theorem IsValid_concrete {v : Any} (h : v.notNil = true) : (RValue.concrete v).IsValid = true := by
  cases v <;> simp_all [RValue.IsValid, Any.notNil]

/-- Reading of `encode` on a non-nil source: the dispatcher runs. -/
theorem encode_notNil (dt : GoType) (dv v : Any) (h : v.notNil = true) :
    encode (some (dt, dv)) v = valueEncoder dv dt (.concrete v) := by
  simp [encode, ValueOf_notNil h, IsValid_concrete h]

/-- Reading of `encode` on a nil source: nothing runs. -/
theorem encode_null (dt : GoType) (dv : Any) :
    encode (some (dt, dv)) .null = .ret (dv, none) := by
  simp [encode, ValueOf, RValue.IsValid]

/-- A typed list of strings is coerced to itself. -/
theorem encode_strings (L : List GoString) :
    encode (some (.strings, reflectNew .strings)) (.strings L) = .ret (.strings L, none) := by
  rw [encode_notNil .strings _ (.strings L) rfl,
    valueEncoder_slice _ .strings (.concrete (.strings L)) rfl,
    arrayEncoder_slice _ .strings .string (.concrete (.strings L)) rfl rfl rfl]
  have := arrayLoop_strings (.concrete (.strings L)) L rfl (by
    intro i h
    simp [RValue.Index, List.getElem?_eq_getElem h, valueEncoder_string]) _ [] 0 rfl
  simpa [reflectNew] using this

/-- A generic list whose elements are all strings is coerced to the typed list. -/
theorem encode_list_of_strings (L : List GoString) :
    encode (some (.strings, reflectNew .strings)) (.list (L.map .str)) =
      .ret (.strings L, none) := by
  rw [encode_notNil .strings _ (.list (L.map .str)) rfl,
    valueEncoder_slice _ .strings (.concrete (.list (L.map .str))) rfl,
    arrayEncoder_slice _ .strings .string (.concrete (.list (L.map .str))) rfl rfl rfl]
  have := arrayLoop_strings (.concrete (.list (L.map .str))) L (by simp [RValue.Len, Any.Len]) (by
    intro i h
    simp [RValue.Index, List.getElem?_eq_getElem, h, valueEncoder_string, ValueOf]) _ [] 0 rfl
  simpa [reflectNew] using this

/-! ## Builder readings -/

theorem property_notNil (b : builder) (key : GoString) (v : Any) (h : v.notNil = true) :
    b.property key v = { properties := b.properties ++ [⟨.str key, v⟩] } := by
  simp [builder.property, h]

theorem Get_singleton (key : GoString) (v : Any) :
    Document.Get ⟨[⟨.str key, v⟩]⟩ key = v := by
  simp [Document.Get, MapSlice.Get, Any.eqString]

theorem Build_singleton (key v : Any) :
    builder.Build ⟨[⟨key, v⟩]⟩ = (⟨[⟨key, v⟩]⟩, none) := by
  simp [builder.Build, buildLoop, Document.Set, NewDocument]

/-- A bare string given to a slice-of-string destination. -/
theorem encode_bare_string (s : GoString) :
    encode (some (.strings, reflectNew .strings)) (.str s) = .ret (.strings [s], none) := by
  rw [encode_notNil .strings _ (.str s) rfl, valueEncoder_slice _ .strings _ rfl,
    arrayEncoder_bare _ .strings .string (.concrete (.str s)) rfl (by simp [RValue.Kind, Any.Type, GoType.Kind]),
    valueEncoder_string, stringEncoder_str]
  rfl

/-- A bare VerificationMethod record given to a slice-of-record destination. -/
theorem encode_bare_vm (r : VerificationMethod) :
    encode (some (.vms, reflectNew .vms)) (.vm r) = .ret (.vms [r], none) := by
  rw [encode_notNil .vms _ (.vm r) rfl, valueEncoder_slice _ .vms _ rfl,
    arrayEncoder_bare _ .vms .vm (.concrete (.vm r)) rfl (by simp [RValue.Kind, Any.Type, GoType.Kind]),
    valueEncoder_struct _ .vm _ rfl, structEncoder_vm]
  rfl

/-- A bare Service record given to a slice-of-record destination. -/
theorem encode_bare_service (r : Service) :
    encode (some (.services, reflectNew .services)) (.service r) = .ret (.services [r], none) := by
  rw [encode_notNil .services _ (.service r) rfl, valueEncoder_slice _ .services _ rfl,
    arrayEncoder_bare _ .services .service (.concrete (.service r)) rfl (by simp [RValue.Kind, Any.Type, GoType.Kind]),
    valueEncoder_struct _ .service _ rfl, structEncoder_service]
  rfl

/-- A bare map given to a slice-of-record destination: its coercion is the one element. -/
theorem encode_bare_map (dt et : GoType) (m : List (GoString × Any)) (he : dt.Elem = some et)
    (hs : et.Kind = .Struct) :
    encode (some (dt, reflectNew dt)) (.map m) =
      match structEncoder (reflectNew et) et (.concrete (.map m)) with
      | .panic e => .panic e
      | .ret (xv, _) =>
        match reflectAppend (reflectNew dt) xv with
        | .panic e => .panic e
        | .ret dv' => .ret (dv', none) := by
  have hk : dt.Kind = .Slice := by cases dt <;> simp_all [GoType.Elem, GoType.Kind]
  rw [encode_notNil dt _ (.map m) rfl, valueEncoder_slice _ dt _ hk,
    arrayEncoder_bare _ dt et (.concrete (.map m)) he (by simp [RValue.Kind, Any.Type, GoType.Kind]),
    valueEncoder_struct _ et _ hs]
  try rfl

/-- The typed builder methods on a source that `encode` coerces to `d` without error. -/
theorem encodeProperty_ok (b : builder) (dt : GoType) (key : GoString) (v d : Any)
    (h : encode (some (dt, reflectNew dt)) v = .ret (d, none)) :
    b.encodeProperty dt key v = .ret (b.property key d) := by
  simp [builder.encodeProperty, h]

theorem stringOf_isSome (w : Any) : (stringOf w).isSome = isStringSource w := by
  cases w <;>
    simp [stringOf, isStringSource, ValueOf, RValue.Kind, Any.Type, GoType.Kind, RValue.Type,
      GoType.Elem]

theorem stringEncoder_wrap (dv : Any) (n : Nat) (v : Any) :
    stringEncoder dv (ValueOf (wrap n v)) = stringEncoder dv (ValueOf v) := by
  rw [stringEncoder_strip dv (wrap n v), strip_wrap, ← stringEncoder_strip]

theorem wrap_notNil (n : Nat) (v : Any) (h : v.notNil = true) : (wrap n v).notNil = true := by
  cases n with
  | zero => exact h
  | succ n => rfl

/-- Reading of `encode` into a string destination on a non-nil source. -/
theorem encode_string (dv v : Any) (h : v.notNil = true) :
    encode (some (.string, dv)) v = stringEncoder dv (ValueOf v) := by
  rw [encode_notNil .string dv v h, valueEncoder_string, ValueOf_notNil h]

theorem encode_string_wrap (dv : Any) (n : Nat) (v : Any) (h : v.notNil = true) :
    encode (some (.string, dv)) (wrap n v) = encode (some (.string, dv)) v := by
  rw [encode_string dv _ (wrap_notNil n v h), encode_string dv v h, stringEncoder_wrap]

/-! ## Claims on the coercion engine -/

theorem sampleMethodMap_coerces :
    structEncoder (reflectNew .vm) .vm (.concrete (.map sampleMethodMap)) =
      .ret (.vm sampleMethod, none) := by
  rw [structEncoder_vm_map _ sampleMethodMap (.inr ⟨_, rfl⟩) (.inr ⟨_, rfl⟩)
    (.inr ⟨_, rfl⟩) (.inl rfl),
    show List.lookup (gs "publicKeyJwk") sampleMethodMap = none from rfl]
  simp only [vmOfMap, entryString, sampleMethod]
  rw [show List.lookup (gs "id") sampleMethodMap = some (.str (gs "did:example:123#key-1")) from rfl,
    show List.lookup (gs "type") sampleMethodMap = some (.str (gs "JsonWebKey2020")) from rfl,
    show List.lookup (gs "controller") sampleMethodMap = some (.str (gs "did:example:123")) from rfl,
    show List.lookup (gs "publicKeyMultibase") sampleMethodMap = none from rfl]

theorem sampleServiceMap_coerces :
    structEncoder (reflectNew .service) .service (.concrete (.map sampleServiceMap)) =
      .ret (.service sampleService, none) := by
  rw [structEncoder_service_map _ sampleServiceMap (.inr ⟨_, rfl⟩) (.inr ⟨_, rfl⟩)
    (.inr ⟨_, rfl⟩)]
  simp only [serviceOfMap, entryString, sampleService]
  rw [show List.lookup (gs "id") sampleServiceMap =
        some (.str (gs "did:example:123#linked-domain")) from rfl,
    show List.lookup (gs "type") sampleServiceMap = some (.str (gs "LinkedDomains")) from rfl,
    show List.lookup (gs "serviceEndpoint") sampleServiceMap =
        some (.str (gs "https://bar.example.com")) from rfl]

/-- C6 (tolerant list coercion). A bare string `s` given to a list-of-string
destination (`Builder.Context`, `AlsoKnownAs`, `Controller`) yields exactly
`[s]`; a single VerificationMethod or Service record `r`, given as the record
itself or as a map that coerces to `r`, yields exactly `[r]` in the
list-of-record destination (`Builder.VerificationMethod`, `Builder.Service`). -/
theorem C6_bare_value_becomes_singleton :
    (∀ s : GoString,
      encode (some (.strings, reflectNew .strings)) (.str s) = .ret (.strings [s], none) ∧
      ∀ b : builder,
        b.Context (.str s) =
          .ret { properties := b.properties ++ [⟨.str contextKey, .strings [s]⟩] } ∧
        b.AlsoKnownAs (.str s) =
          .ret { properties := b.properties ++ [⟨.str alsoKnownAsKey, .strings [s]⟩] } ∧
        b.Controller (.str s) =
          .ret { properties := b.properties ++ [⟨.str controllerKey, .strings [s]⟩] }) ∧
    (∀ r : VerificationMethod,
      encode (some (.vms, reflectNew .vms)) (.vm r) = .ret (.vms [r], none) ∧
      (∀ b : builder, b.VerificationMethod (.vm r) =
        .ret { properties := b.properties ++ [⟨.str verificationMethodKey, .vms [r]⟩] }) ∧
      ∀ m : List (GoString × Any),
        structEncoder (reflectNew .vm) .vm (.concrete (.map m)) = .ret (.vm r, none) →
        encode (some (.vms, reflectNew .vms)) (.map m) = .ret (.vms [r], none) ∧
        ∀ b : builder, b.VerificationMethod (.map m) =
          .ret { properties := b.properties ++ [⟨.str verificationMethodKey, .vms [r]⟩] }) ∧
    (∀ r : Service,
      encode (some (.services, reflectNew .services)) (.service r) =
        .ret (.services [r], none) ∧
      (∀ b : builder, b.Service (.service r) =
        .ret { properties := b.properties ++ [⟨.str serviceKey, .services [r]⟩] }) ∧
      ∀ m : List (GoString × Any),
        structEncoder (reflectNew .service) .service (.concrete (.map m)) =
          .ret (.service r, none) →
        encode (some (.services, reflectNew .services)) (.map m) = .ret (.services [r], none) ∧
        ∀ b : builder, b.Service (.map m) =
          .ret { properties := b.properties ++ [⟨.str serviceKey, .services [r]⟩] }) := by
  refine ⟨fun s => ⟨encode_bare_string s, fun b => ⟨?_, ?_, ?_⟩⟩,
    fun r => ⟨encode_bare_vm r, fun b => ?_, fun m hm => ?_⟩,
    fun r => ⟨encode_bare_service r, fun b => ?_, fun m hm => ?_⟩⟩
  · exact encodeProperty_ok b .strings _ _ _ (encode_bare_string s)
  · exact encodeProperty_ok b .strings _ _ _ (encode_bare_string s)
  · exact encodeProperty_ok b .strings _ _ _ (encode_bare_string s)
  · exact encodeProperty_ok b .vms _ _ _ (encode_bare_vm r)
  · have h : encode (some (.vms, reflectNew .vms)) (.map m) = .ret (.vms [r], none) := by
      rw [encode_bare_map .vms .vm m rfl rfl, hm]; rfl
    exact ⟨h, fun b => encodeProperty_ok b .vms _ _ _ h⟩
  · exact encodeProperty_ok b .services _ _ _ (encode_bare_service r)
  · have h : encode (some (.services, reflectNew .services)) (.map m) =
        .ret (.services [r], none) := by
      rw [encode_bare_map .services .service m rfl rfl, hm]; rfl
    exact ⟨h, fun b => encodeProperty_ok b .services _ _ _ h⟩

/-- C6 at the maps of `testVerificationMethodMap` and `testServiceMap`: each is
coerced to the one-element list of its record. -/
theorem C6_witness :
    encode (some (.vms, reflectNew .vms)) (.map sampleMethodMap) =
      .ret (.vms [sampleMethod], none) ∧
    encode (some (.services, reflectNew .services)) (.map sampleServiceMap) =
      .ret (.services [sampleService], none) :=
  ⟨((C6_bare_value_becomes_singleton.2.1 sampleMethod).2.2 sampleMethodMap
      sampleMethodMap_coerces).1,
   ((C6_bare_value_becomes_singleton.2.2 sampleService).2.2 sampleServiceMap
      sampleServiceMap_coerces).1⟩

/-- C7. A list `L` of strings, given as a typed list of strings or as a generic
list whose elements are all strings, is coerced into a list-of-string
destination to a list equal to `L`; `Builder.Context(L).Build()` gives a
document whose `Context()` is `L`, and coercing the result again changes
nothing. -/
theorem C7_string_list_is_kept (L : List GoString) :
    encode (some (.strings, reflectNew .strings)) (.strings L) = .ret (.strings L, none) ∧
    encode (some (.strings, reflectNew .strings)) (.list (L.map .str)) =
      .ret (.strings L, none) ∧
    NewBuilder.Context (.strings L) = .ret ⟨[⟨.str contextKey, .strings L⟩]⟩ ∧
    NewBuilder.Context (.list (L.map .str)) = .ret ⟨[⟨.str contextKey, .strings L⟩]⟩ ∧
    builder.Build ⟨[⟨.str contextKey, .strings L⟩]⟩ =
      (⟨[⟨.str contextKey, .strings L⟩]⟩, none) ∧
    Document.Context ⟨[⟨.str contextKey, .strings L⟩]⟩ = .strings L ∧
    encode (some (.strings, reflectNew .strings))
        (Document.Context ⟨[⟨.str contextKey, .strings L⟩]⟩) =
      .ret (Document.Context ⟨[⟨.str contextKey, .strings L⟩]⟩, none) := by
  have hget : Document.Context ⟨[⟨.str contextKey, .strings L⟩]⟩ = .strings L :=
    Get_singleton contextKey _
  refine ⟨encode_strings L, encode_list_of_strings L, ?_, ?_, Build_singleton _ _, hget, ?_⟩
  · exact encodeProperty_ok NewBuilder .strings _ _ _ (encode_strings L)
  · exact encodeProperty_ok NewBuilder .strings _ _ _ (encode_list_of_strings L)
  · rw [hget]; exact encode_strings L

/-- C9. Coercion to a string destination (as `Builder.Subject` uses it): a
string is kept, a boolean becomes "true" or "false", a byte sequence becomes
the string with exactly those bytes, and a source behind any number of
indirections (pointers, or the interface wrapper of a list element or map
entry) gives the same result as the source itself. -/
theorem C9_string_destination :
    (∀ (n : Nat) (s : GoString),
      encode (some (.string, reflectNew .string)) (wrap n (.str s)) = .ret (.str s, none)) ∧
    (∀ (n : Nat) (b : Bool),
      encode (some (.string, reflectNew .string)) (wrap n (.bool b)) =
        .ret (.str (if b then gs "true" else gs "false"), none)) ∧
    (∀ (n : Nat) (bs : List UInt8),
      encode (some (.string, reflectNew .string)) (wrap n (.bytes bs)) = .ret (.str bs, none)) ∧
    (∀ (dv : Any) (n : Nat) (v : Any),
      stringEncoder dv (ValueOf (wrap n v)) = stringEncoder dv (ValueOf v) ∧
      stringEncoder dv (.iface (wrap n v)) = stringEncoder dv (ValueOf v)) ∧
    (∀ (b : builder) (s : GoString), b.Subject (.str s) =
      .ret { properties := b.properties ++ [⟨.str subjectKey, .str s⟩] }) := by
  have hs : ∀ (n : Nat) (s : GoString),
      encode (some (.string, reflectNew .string)) (wrap n (.str s)) = .ret (.str s, none) := by
    intro n s
    rw [encode_string_wrap _ n (.str s) rfl, encode_string _ (.str s) rfl]
    exact stringEncoder_str _ s
  refine ⟨hs, ?_, ?_, ?_, ?_⟩
  · intro n b
    rw [encode_string_wrap _ n (.bool b) rfl, encode_string _ (.bool b) rfl,
      stringEncoder_base _ (.bool b) (by simp)]
    rfl
  · intro n bs
    rw [encode_string_wrap _ n (.bytes bs) rfl, encode_string _ (.bytes bs) rfl,
      stringEncoder_base _ (.bytes bs) (by simp)]
    rfl
  · intro dv n v
    exact ⟨stringEncoder_wrap dv n v, by rw [stringEncoder_iface, stringEncoder_wrap]⟩
  · intro b s
    exact encodeProperty_ok b .string _ _ _ (hs 0 s)

/-- The field loop reads a map only through the keys of the destination's fields. -/
theorem structLoop_congr (dv : Any) (dt : GoType) (m m' : List (GoString × Any))
    (h : ∀ i, i < dt.NumField → m'.lookup (dt.jsonKey i) = m.lookup (dt.jsonKey i)) :
    ∀ (n : Nat) (xv : Any) (i : Nat), dt.NumField - i = n →
      structLoop dv xv dt (.concrete (.map m')) i = structLoop dv xv dt (.concrete (.map m)) i := by
  intro n
  induction n with
  | zero =>
    intro xv i hn
    rw [structLoop_end _ _ _ _ _ (by omega), structLoop_end _ _ _ _ _ (by omega)]
  | succ n ih =>
    intro xv i hn
    have hi : i < dt.NumField := by omega
    rw [structLoop_step dv xv dt m' i hi, structLoop_step dv xv dt m i hi, h i hi]
    cases m.lookup (dt.jsonKey i) with
    | none => exact ih xv (i + 1) (by omega)
    | some v =>
      simp only []
      cases valueEncoder (xv.Field i) (dt.Field i).Type_ (.iface v) with
      | panic e => rfl
      | ret p =>
        obtain ⟨fv, err⟩ := p
        cases err with
        | some e => rfl
        | none => exact ih _ (i + 1) (by omega)

theorem storeAny_notNil {w : Any} (h : w.notNil = true) : storeAny w = .ret (w, none) := by
  cases w <;> simp_all [storeAny, Any.notNil]

/-- C8, the claim as stated fails: a `publicKeyJwk` entry that is a pointer is
not stored verbatim, the field receives the value pointed to. -/
theorem C8_pointer_key_material_is_unwrapped :
    List.lookup (gs "publicKeyJwk") pointerKeyMap = some (.ptr (.str (gs "k"))) ∧
    structEncoder (reflectNew .vm) .vm (.concrete (.map pointerKeyMap)) =
      .ret (.vm ⟨[], [], [], .str (gs "k"), []⟩, none) ∧
    Any.str (gs "k") ≠ .ptr (.str (gs "k")) := by
  refine ⟨rfl, ?_, by simp⟩
  rw [structEncoder_vm_map _ pointerKeyMap (.inl rfl) (.inl rfl) (.inl rfl) (.inl rfl),
    show List.lookup (gs "publicKeyJwk") pointerKeyMap = some (.ptr (.str (gs "k"))) from rfl]
  rfl

/-- C8, as amended. For a map `m` whose entries under "id", "type",
"controller" and "publicKeyMultibase" are strings where present and whose
"publicKeyJwk" entry is missing or not nil once its pointer indirections are
removed, coercion into a VerificationMethod yields, with no error, the record
holding those strings (the empty string for a missing key) and, in the
publicKeyJwk field, the entry without its pointer indirections (nil when
missing). The same holds for Service with "id", "type", "serviceEndpoint".
Entries under other keys are ignored: two maps that agree on the keys of the
fields are coerced alike. -/
theorem C8_map_to_record (dv : Any) (m : List (GoString × Any)) :
    (stringOrAbsent m (gs "id") → stringOrAbsent m (gs "type") →
      stringOrAbsent m (gs "controller") → stringOrAbsent m (gs "publicKeyMultibase") →
      keyMaterialStorable m →
      structEncoder dv .vm (.concrete (.map m)) =
        .ret (.vm ⟨entryString m (gs "id"), entryString m (gs "type"),
          entryString m (gs "controller"), keyMaterialOf m,
          entryString m (gs "publicKeyMultibase")⟩, none)) ∧
    (stringOrAbsent m (gs "id") → stringOrAbsent m (gs "type") →
      stringOrAbsent m (gs "serviceEndpoint") →
      structEncoder dv .service (.concrete (.map m)) =
        .ret (.service ⟨entryString m (gs "id"), entryString m (gs "type"),
          entryString m (gs "serviceEndpoint")⟩, none)) ∧
    (∀ m' : List (GoString × Any),
      (∀ k ∈ [gs "id", gs "type", gs "controller", gs "publicKeyJwk", gs "publicKeyMultibase"],
        m'.lookup k = m.lookup k) →
      structEncoder dv .vm (.concrete (.map m')) = structEncoder dv .vm (.concrete (.map m))) ∧
    (∀ m' : List (GoString × Any),
      (∀ k ∈ [gs "id", gs "type", gs "serviceEndpoint"], m'.lookup k = m.lookup k) →
      structEncoder dv .service (.concrete (.map m')) =
        structEncoder dv .service (.concrete (.map m))) := by
  refine ⟨fun h0 h1 h2 h4 hj => ?_, fun h0 h1 h2 => structEncoder_service_map dv m h0 h1 h2,
    fun m' h => ?_, fun m' h => ?_⟩
  · rw [structEncoder_vm_map dv m h0 h1 h2 h4]
    rcases hj with hj | ⟨j, hj, hn⟩
    · simp [hj, keyMaterialOf, vmOfMap]
    · simp [hj, keyMaterialOf, vmOfMap, storeAny_notNil hn]
  · obtain ⟨k0, k1, k2, k3, k4⟩ := vm_jsonKey
    rw [structEncoder_map, structEncoder_map]
    refine structLoop_congr dv .vm m m' (fun i hi => ?_) _ _ 0 rfl
    have hi' : i < 5 := hi
    interval_cases i
    · rw [k0]; exact h _ (by simp)
    · rw [k1]; exact h _ (by simp)
    · rw [k2]; exact h _ (by simp)
    · rw [k3]; exact h _ (by simp)
    · rw [k4]; exact h _ (by simp)
  · obtain ⟨k0, k1, k2⟩ := service_jsonKey
    rw [structEncoder_map, structEncoder_map]
    refine structLoop_congr dv .service m m' (fun i hi => ?_) _ _ 0 rfl
    have hi' : i < 3 := hi
    interval_cases i
    · rw [k0]; exact h _ (by simp)
    · rw [k1]; exact h _ (by simp)
    · rw [k2]; exact h _ (by simp)

/-- C8 at the maps of `testVerificationMethodMap` (without key material) and
`testServiceMap`, and at a map with one more, unknown key. -/
theorem C8_witness :
    structEncoder (reflectNew .vm) .vm (.concrete (.map sampleMethodMap)) =
      .ret (.vm ⟨entryString sampleMethodMap (gs "id"), entryString sampleMethodMap (gs "type"),
        entryString sampleMethodMap (gs "controller"), keyMaterialOf sampleMethodMap,
        entryString sampleMethodMap (gs "publicKeyMultibase")⟩, none) ∧
    structEncoder (reflectNew .service) .service (.concrete (.map sampleServiceMap)) =
      .ret (.service ⟨entryString sampleServiceMap (gs "id"),
        entryString sampleServiceMap (gs "type"),
        entryString sampleServiceMap (gs "serviceEndpoint")⟩, none) ∧
    structEncoder (reflectNew .vm) .vm
        (.concrete (.map ((gs "pubicKeyJWK", .number 1) :: sampleMethodMap))) =
      structEncoder (reflectNew .vm) .vm (.concrete (.map sampleMethodMap)) :=
  ⟨(C8_map_to_record (reflectNew .vm) sampleMethodMap).1 (.inr ⟨_, rfl⟩) (.inr ⟨_, rfl⟩)
      (.inr ⟨_, rfl⟩) (.inl rfl) (.inl rfl),
   (C8_map_to_record (reflectNew .service) sampleServiceMap).2.1 (.inr ⟨_, rfl⟩)
      (.inr ⟨_, rfl⟩) (.inr ⟨_, rfl⟩),
   (C8_map_to_record (reflectNew .vm) sampleMethodMap).2.2.1 _ (by
      intro k hk
      simp only [List.mem_cons, List.mem_singleton, List.not_mem_nil, or_false] at hk
      rcases hk with rfl | rfl | rfl | rfl | rfl <;> rfl)⟩

/-- A nil `publicKeyJwk` entry (JSON `null`) is outside C8 as amended: `Set`
panics on the zero Value, in `structEncoder` and so in `Builder.VerificationMethod`. -/
theorem null_key_material_panics :
    structEncoder (reflectNew .vm) .vm (.concrete (.map nullKeyMap)) = .panic none ∧
    NewBuilder.VerificationMethod (.list [.map nullKeyMap]) = .panic none := by
  have h : structEncoder (reflectNew .vm) .vm (.concrete (.map nullKeyMap)) = .panic none := by
    rw [structEncoder_vm_map _ nullKeyMap (.inl rfl) (.inl rfl) (.inl rfl) (.inl rfl),
      show List.lookup (gs "publicKeyJwk") nullKeyMap = some .null from rfl]
    rfl
  refine ⟨h, ?_⟩
  simp only [builder.VerificationMethod, builder.encodeProperty]
  rw [encode_notNil .vms _ (.list [.map nullKeyMap]) rfl,
    valueEncoder_slice _ .vms (.concrete (.list [.map nullKeyMap])) rfl,
    arrayEncoder_slice _ .vms .vm (.concrete (.list [.map nullKeyMap])) rfl rfl rfl,
    arrayLoop_step _ .vms .vm _ 0 rfl (by simp [RValue.Len, Any.Len])]
  simp only [RValue.Index, List.getElem?_cons_zero]
  rw [valueEncoder_struct _ .vm _ rfl, structEncoder_iface]
  simp only [ValueOf]
  rw [h]

/-- C10, the claim as stated fails: a nil source has none of the three kinds,
yet `encode` into a string destination reports no error; it skips the coercion
and leaves the destination empty. -/
theorem C10_null_source_is_skipped :
    isStringSource Any.null.strip = false ∧
    encode (some (.string, reflectNew .string)) .null = .ret (.str [], none) := by
  refine ⟨by decide, ?_⟩
  rw [encode_null]; rfl

/-- C10, as amended. Coercion into a string destination (`valueEncoder` at
type string) succeeds exactly for the sources whose kind, after unwrapping
pointers, is Bool, String or byte slice, and fails with
`errUnsupportedSourceType`, leaving the destination as it was, for every other
source: a number, a map, a list that is no byte slice, a record, a nil pointer,
a nil element. The entry point `encode` agrees on every source that is not nil,
and skips a nil source with no error. -/
theorem C10_string_destination_failures (dv v : Any) :
    (isStringSource v.strip = false →
      valueEncoder dv .string (ValueOf v) = .ret (dv, some errUnsupportedSourceType) ∧
      valueEncoder dv .string (.iface v) = .ret (dv, some errUnsupportedSourceType) ∧
      (v.notNil = true →
        encode (some (.string, dv)) v = .ret (dv, some errUnsupportedSourceType))) ∧
    (isStringSource v.strip = true →
      ∃ s, valueEncoder dv .string (ValueOf v) = .ret (.str s, none) ∧
        valueEncoder dv .string (.iface v) = .ret (.str s, none) ∧
        encode (some (.string, dv)) v = .ret (.str s, none)) ∧
    encode (some (.string, dv)) .null = .ret (dv, none) := by
  have hv := stringEncoder_eq dv v
  have hk := stringOf_isSome v.strip
  refine ⟨fun h => ?_, fun h => ?_, encode_null _ _⟩
  · rw [h] at hk
    have hn : stringOf v.strip = none := by simpa using hk
    rw [hn] at hv
    refine ⟨by rw [valueEncoder_string]; exact hv,
      by rw [valueEncoder_string, stringEncoder_iface]; exact hv, fun hnn => ?_⟩
    rw [encode_string dv v hnn]; exact hv
  · rw [h] at hk
    obtain ⟨s, hs⟩ := Option.isSome_iff_exists.mp hk
    rw [hs] at hv
    have hnn : v.notNil = true := by
      cases v <;> simp_all [Any.notNil, Any.strip, stringOf]
    exact ⟨s, by rw [valueEncoder_string]; exact hv,
      by rw [valueEncoder_string, stringEncoder_iface]; exact hv,
      by rw [encode_string dv v hnn]; exact hv⟩

/-- C10 at a number, at a list of strings and at a string behind a pointer. -/
theorem C10_witness :
    encode (some (.string, reflectNew .string)) (.number 3) =
      .ret (reflectNew .string, some errUnsupportedSourceType) ∧
    encode (some (.string, reflectNew .string)) (.list [.str (gs "a")]) =
      .ret (reflectNew .string, some errUnsupportedSourceType) ∧
    ∃ s, encode (some (.string, reflectNew .string)) (.ptr (.str (gs "a"))) =
      .ret (.str s, none) :=
  ⟨((C10_string_destination_failures (reflectNew .string) (.number 3)).1 (by decide)).2.2 rfl,
   ((C10_string_destination_failures (reflectNew .string) (.list [.str (gs "a")])).1
      (by decide)).2.2 rfl,
   let ⟨s, h⟩ := (C10_string_destination_failures (reflectNew .string)
      (.ptr (.str (gs "a")))).2.1 (by decide)
   ⟨s, h.2.2⟩⟩

/-! ## Reading the resolver -/

theorem elems_length (sv : RValue) : sv.elems.length = sv.Len := by
  cases sv with
  | invalid => rfl
  | iface v => rfl
  | concrete v => cases v <;> simp [RValue.elems, RValue.Len, Any.Len]

theorem elems_getElem? (sv : RValue) (i : Nat) (h : i < sv.Len) :
    sv.elems[i]? = some (sv.Index i) := by
  cases sv with
  | invalid => simp [RValue.Len] at h
  | iface v => simp [RValue.Len] at h
  | concrete v =>
    cases v <;> simp [RValue.Len, Any.Len] at h <;>
      simp [RValue.elems, RValue.Index, List.getElem?_eq_getElem, h]

theorem elems_drop (sv : RValue) (i : Nat) (h : i < sv.Len) :
    sv.elems.drop i = sv.Index i :: sv.elems.drop (i + 1) := by
  have hl : i < sv.elems.length := by rw [elems_length]; exact h
  rw [List.drop_eq_getElem_cons hl]
  congr 1
  have := elems_getElem? sv i h
  rw [List.getElem?_eq_getElem hl] at this
  exact Option.some.inj this

theorem addLoop_eq_addAll (d : Document) (v : RValue) :
    ∀ (n : Nat) (rv : Any) (i : Nat), v.Len - i = n →
      addLoop d v rv i = addAll d (v.elems.drop i) rv := by
  intro n
  induction n with
  | zero =>
    intro rv i hn
    rw [addLoop, if_neg (by omega), List.drop_eq_nil_of_le (by rw [elems_length]; omega)]
    rfl
  | succ n ih =>
    intro rv i hn
    have hi : i < v.Len := by omega
    rw [addLoop, if_pos hi, elems_drop v i hi]
    simp only [addAll]
    cases addVerificationMethod d (v.Index i) rv with
    | panic e => rfl
    | ret p =>
      obtain ⟨rv', err⟩ := p
      cases err with
      | some e => rfl
      | none => exact ih rv' (i + 1) (by omega)

theorem findLoop_eq_findAll (v : RValue) (keyId : GoString) :
    ∀ (n : Nat) (rv : Any) (i : Nat), v.Len - i = n →
      findLoop v keyId rv i = findAll keyId (v.elems.drop i) rv := by
  intro n
  induction n with
  | zero =>
    intro rv i hn
    rw [findLoop, if_neg (by omega), List.drop_eq_nil_of_le (by rw [elems_length]; omega)]
    rfl
  | succ n ih =>
    intro rv i hn
    have hi : i < v.Len := by omega
    rw [findLoop, if_pos hi, elems_drop v i hi]
    simp only [findAll]
    cases verificationMethodFound (v.Index i) keyId rv with
    | panic e => rfl
    | ret p =>
      obtain ⟨b, fv⟩ := p
      cases b with
      | true => rfl
      | false => exact ih fv (i + 1) (by omega)

theorem elems_of_not_slice (v : RValue) (h : v.Kind ≠ .Slice) : v.elems = [] := by
  cases v with
  | invalid => rfl
  | iface v => rfl
  | concrete v => cases v <;> simp_all [RValue.elems, RValue.Kind, Any.Type, GoType.Kind]

theorem Kind_ne_Array (v : RValue) : v.Kind ≠ .Array := by
  cases v with
  | invalid => simp [RValue.Kind]
  | iface v => simp [RValue.Kind]
  | concrete v => cases v <;> simp [RValue.Kind, Any.Type, GoType.Kind]

/-- Reading of `GetVerificationMethodById`: a scan of the elements of the
stored `verificationMethod` value. -/
theorem GetVerificationMethodById_eq (d : Document) (keyId : GoString) :
    GetVerificationMethodById d keyId =
      findAll keyId (ValueOf (d.Get verificationMethodKey)).elems (reflectNew .vm) := by
  unfold GetVerificationMethodById
  cases hg : d.Get verificationMethodKey with
  | null => simp [Any.notNil, ValueOf, RValue.elems, findAll]
  | _ =>
    simp only [Any.notNil, if_true]
    split
    · rw [findLoop_eq_findAll _ _ _ _ 0 rfl]; rfl
    · rename_i h; exact absurd h (Kind_ne_Array _)
    · rename_i h1 h2
      rw [elems_of_not_slice _ h1]; rfl

/-- Reading of `GetAssociatedVerificationMethod`: the elements of the stored
value are added in order to an empty response. -/
theorem GetAssociatedVerificationMethod_eq (d : Document) (purpose : ProofPurpose) :
    GetAssociatedVerificationMethod d purpose =
      if (d.Get purpose.String).notNil then
        match addAll d (ValueOf (d.Get purpose.String)).elems (reflectNew .vms) with
        | .panic e => .panic e
        | .ret (_, some err) => .ret ([], some err)
        | .ret (rv, none) => .ret (respond rv)
      else .ret ([], some errNotFound) := by
  unfold GetAssociatedVerificationMethod
  cases hg : d.Get purpose.String with
  | null => simp [Any.notNil]
  | _ =>
    simp only [Any.notNil, if_true]
    split
    · rw [addLoop_eq_addAll _ _ _ _ 0 rfl]; rfl
    · rename_i h; exact absurd h (Kind_ne_Array _)
    · rename_i h1 h2
      rw [elems_of_not_slice _ h1]; rfl

@[simp] theorem verificationMethodFound_iface (v : Any) (keyId : GoString) (fv : Any) :
    verificationMethodFound (.iface v) keyId fv = verificationMethodFound (ValueOf v) keyId fv := by
  rw [verificationMethodFound]; simp [RValue.Kind, RValue.Elem]

theorem verificationMethodFound_vm (r : VerificationMethod) (keyId : GoString) (fv : Any) :
    verificationMethodFound (.concrete (.vm r)) keyId fv =
      if r.Id == keyId then .ret (true, .vm r) else .ret (false, fv) := by
  rw [verificationMethodFound]
  simp [RValue.Kind, Any.Type, GoType.Kind, RValue.FieldById, RValue.String, SetValue,
    RValue.IsValid, RValue.Type, RValue.Interface]

theorem verificationMethodFound_service (r : Service) (keyId : GoString) (fv : Any) :
    verificationMethodFound (.concrete (.service r)) keyId fv =
      if r.Id == keyId then .panic none else .ret (false, fv) := by
  rw [verificationMethodFound]
  simp [RValue.Kind, Any.Type, GoType.Kind, RValue.FieldById, RValue.String, SetValue,
    RValue.IsValid, RValue.Type, RValue.Interface]

/-- Reading of `verificationMethodFound` on an element that is no record with
the wanted Id: not found, `foundValue` untouched. -/
theorem verificationMethodFound_miss (x : RValue) (keyId : GoString) (fv : Any)
    (h : recordId x.Interface ≠ some keyId) :
    verificationMethodFound x keyId fv = .ret (false, fv) := by
  have hc : ∀ v : Any, recordId v ≠ some keyId →
      verificationMethodFound (ValueOf v) keyId fv = .ret (false, fv) := by
    intro v hv
    cases v
    case vm r =>
      have : (r.Id == keyId) = false := by simpa [recordId] using hv
      simp [ValueOf, verificationMethodFound_vm, this]
    case service r =>
      have : (r.Id == keyId) = false := by simpa [recordId] using hv
      simp [ValueOf, verificationMethodFound_service, this]
    all_goals
      rw [verificationMethodFound]
      simp [ValueOf, RValue.Kind, Any.Type, GoType.Kind]
  cases x with
  | invalid => rw [verificationMethodFound]; simp [RValue.Kind]
  | iface v => rw [verificationMethodFound_iface]; exact hc v h
  | concrete v =>
    cases v
    case null => rw [verificationMethodFound]; simp [RValue.Kind]
    all_goals exact hc _ h

@[simp] theorem addVerificationMethod_iface (d : Document) (v fv : Any) :
    addVerificationMethod d (.iface v) fv = addVerificationMethod d (ValueOf v) fv := by
  rw [addVerificationMethod]; simp [RValue.Kind, RValue.Elem]

theorem addVerificationMethod_invalid (d : Document) (fv : Any) :
    addVerificationMethod d .invalid fv = .ret (fv, none) := by
  rw [addVerificationMethod]; simp [RValue.Kind]

theorem addVerificationMethod_vm (d : Document) (r : VerificationMethod)
    (acc : List VerificationMethod) :
    addVerificationMethod d (.concrete (.vm r)) (.vms acc) = .ret (.vms (acc ++ [r]), none) := by
  rw [addVerificationMethod]
  simp [RValue.Kind, Any.Type, GoType.Kind, RValue.Interface, reflectAppend]

theorem addVerificationMethod_service (d : Document) (r : Service)
    (acc : List VerificationMethod) :
    addVerificationMethod d (.concrete (.service r)) (.vms acc) = .panic none := by
  rw [addVerificationMethod]
  simp [RValue.Kind, Any.Type, GoType.Kind, RValue.Interface, reflectAppend]

theorem addVerificationMethod_map (d : Document) (m : List (GoString × Any)) (fv : Any) :
    addVerificationMethod d (.concrete (.map m)) fv =
      match structEncoder (reflectNew .vm) .vm (.concrete (.map m)) with
      | .panic e => .panic e
      | .ret (_, some err) => .ret (fv, some err)
      | .ret (verificationMethodValue, none) =>
        match reflectAppend fv verificationMethodValue with
        | .panic e => .panic e
        | .ret fv' => .ret (fv', none) := by
  rw [addVerificationMethod]
  simp only [RValue.Kind, Any.Type, GoType.Kind]
  try rfl

theorem addVerificationMethod_str (d : Document) (s : GoString) (fv : Any) :
    addVerificationMethod d (.concrete (.str s)) fv =
      match GetVerificationMethodById d s with
      | .panic e => .panic e
      | .ret (_, some _) => .ret (fv, none)
      | .ret (verificationMethod, none) =>
        match reflectAppend fv (.vm verificationMethod) with
        | .panic e => .panic e
        | .ret fv' => .ret (fv', none) := by
  rw [addVerificationMethod]
  simp only [RValue.Kind, Any.Type, GoType.Kind, RValue.String]
  try rfl

/-- Reading of `addVerificationMethod` on an element that is no map, string or
record: nothing is added. -/
theorem addVerificationMethod_other (d : Document) (v fv : Any)
    (h : match v with
      | .map _ | .str _ | .vm _ | .service _ => False
      | _ => True) :
    addVerificationMethod d (ValueOf v) fv = .ret (fv, none) := by
  cases v <;> simp at h <;>
    (rw [addVerificationMethod]; simp [ValueOf, RValue.Kind, Any.Type, GoType.Kind])

/-! ## Claims on the resolver -/

theorem Get_absent (props : MapSlice) (key : GoString)
    (h : ∀ p ∈ props, p.Key.eqString key = false) : MapSlice.Get props key = .null := by
  induction props with
  | nil => rfl
  | cons p rest ih =>
    simp only [MapSlice.Get, h p (List.mem_cons_self _ _)]
    exact ih fun q hq => h q (List.mem_cons_of_mem _ hq)

/-- The scan of `GetVerificationMethodById` over elements that are all
VerificationMethod records (directly or behind the interface wrapper). -/
theorem findAll_records (keyId : GoString) (xs : List VerificationMethod) (es : List RValue)
    (hes : es = xs.map (fun r => .concrete (.vm r)) ∨ es = xs.map (fun r => .iface (.vm r)))
    (fv : Any) :
    findAll keyId es fv =
      match xs.find? (fun r => r.Id == keyId) with
      | some r => .ret (r, none)
      | none => .ret (⟨[], [], [], .null, []⟩, some errNotFound) := by
  induction xs generalizing es with
  | nil =>
    rcases hes with rfl | rfl <;> rfl
  | cons r rest ih =>
    have step : ∀ x : RValue, x = .concrete (.vm r) ∨ x = .iface (.vm r) →
        verificationMethodFound x keyId fv =
          if r.Id == keyId then .ret (true, .vm r) else .ret (false, fv) := by
      intro x hx
      rcases hx with rfl | rfl
      · exact verificationMethodFound_vm r keyId fv
      · rw [verificationMethodFound_iface]; exact verificationMethodFound_vm r keyId fv
    have tail : ∀ es' : List RValue,
        es' = rest.map (fun r => .concrete (.vm r)) ∨ es' = rest.map (fun r => .iface (.vm r)) →
        findAll keyId es' fv =
          match rest.find? (fun r => r.Id == keyId) with
          | some r => .ret (r, none)
          | none => .ret (⟨[], [], [], .null, []⟩, some errNotFound) := fun es' h => ih es' h
    rcases hes with rfl | rfl
    · simp only [List.map_cons, findAll, step _ (.inl rfl), List.find?_cons]
      cases hid : r.Id == keyId with
      | true => simp
      | false => simpa using tail _ (.inl rfl)
    · simp only [List.map_cons, findAll, step _ (.inr rfl), List.find?_cons]
      cases hid : r.Id == keyId with
      | true => simp
      | false => simpa using tail _ (.inr rfl)

/-- C2. On a document whose `verificationMethod` property is a list of
VerificationMethod records (the typed slice the Builder stores, or a generic
list holding the records), `GetVerificationMethodById(id)` returns with no
error the first record in list order whose Id equals `id` exactly, and the
zero record with `errNotFound` when there is none; also when the property is
absent. -/
theorem C2_resolve_by_id (d : Document) (id : GoString) :
    (∀ xs : List VerificationMethod,
      d.Get verificationMethodKey = .vms xs ∨
        d.Get verificationMethodKey = .list (xs.map .vm) →
      GetVerificationMethodById d id =
        match xs.find? (fun r => r.Id == id) with
        | some r => .ret (r, none)
        | none => .ret (⟨[], [], [], .null, []⟩, some errNotFound)) ∧
    ((∀ p ∈ d.properties, p.Key.eqString verificationMethodKey = false) →
      GetVerificationMethodById d id = .ret (⟨[], [], [], .null, []⟩, some errNotFound)) := by
  refine ⟨fun xs h => ?_, fun h => ?_⟩
  · rw [GetVerificationMethodById_eq]
    rcases h with h | h
    · rw [h]
      exact findAll_records id xs _ (.inl rfl) _
    · rw [h]
      refine findAll_records id xs _ (.inr ?_) _
      cases xs <;> simp [ValueOf, RValue.elems]
  · rw [GetVerificationMethodById_eq]
    have : d.Get verificationMethodKey = .null := Get_absent _ _ h
    rw [this]
    rfl

/-- C2 on the document of `TestGetVerificationMethodById`: the id of the second
record returns that record, an unknown id returns `errNotFound`. -/
theorem C2_witness :
    GetVerificationMethodById embeddedDocument (gs "did:example:123#key-1") =
      .ret (key1, none) ∧
    GetVerificationMethodById embeddedDocument (gs "did:example:123#key-9") =
      .ret (⟨[], [], [], .null, []⟩, some errNotFound) ∧
    GetVerificationMethodById NewDocument (gs "did:example:123#key-1") =
      .ret (⟨[], [], [], .null, []⟩, some errNotFound) :=
  ⟨(C2_resolve_by_id embeddedDocument (gs "did:example:123#key-1")).1 [key0, key1] (.inl rfl),
   (C2_resolve_by_id embeddedDocument (gs "did:example:123#key-9")).1 [key0, key1] (.inl rfl),
   (C2_resolve_by_id NewDocument (gs "did:example:123#key-1")).2
     (fun _ h => absurd h (List.not_mem_nil _))⟩

theorem addAll_nil (d : Document) (rv : Any) : addAll d [] rv = .ret (rv, none) := rfl

theorem elems_of_Len_zero (v : Any) (h : v.Len = 0) : (ValueOf v).elems = [] := by
  cases v <;> simp_all [ValueOf, RValue.elems, Any.Len]

/-- C4. If the document has no entry under the purpose's key, or the stored
relationship list is empty, `GetAssociatedVerificationMethod` returns
`errNotFound` together with an empty list (so it does for every stored value
of length zero). -/
theorem C4_absent_or_empty_is_not_found (d : Document) (purpose : ProofPurpose) :
    ((∀ p ∈ d.properties, p.Key.eqString purpose.String = false) →
      GetAssociatedVerificationMethod d purpose = .ret ([], some errNotFound)) ∧
    (d.Get purpose.String = .list [] →
      GetAssociatedVerificationMethod d purpose = .ret ([], some errNotFound)) ∧
    ((d.Get purpose.String).Len = 0 →
      GetAssociatedVerificationMethod d purpose = .ret ([], some errNotFound)) := by
  have key : (d.Get purpose.String).Len = 0 →
      GetAssociatedVerificationMethod d purpose = .ret ([], some errNotFound) := by
    intro h
    rw [GetAssociatedVerificationMethod_eq, elems_of_Len_zero _ h, addAll_nil]
    simp [respond, reflectNew]
  refine ⟨fun h => key ?_, fun h => key ?_, key⟩
  · have : d.Get purpose.String = .null := Get_absent _ _ h
    rw [this]; rfl
  · rw [h]; rfl

/-- C4 on the document of `tstVerificationRelationWithEmbedded`, which has no
`keyAgreement` entry, and on a document whose `keyAgreement` list is empty. -/
theorem C4_witness :
    GetAssociatedVerificationMethod embeddedDocument KeyAgreement =
      .ret ([], some errNotFound) ∧
    GetAssociatedVerificationMethod ⟨[⟨.str keyAgreementKey, .list []⟩]⟩ KeyAgreement =
      .ret ([], some errNotFound) :=
  ⟨(C4_absent_or_empty_is_not_found embeddedDocument KeyAgreement).1 (by
      intro p hp
      simp only [embeddedDocument, List.mem_cons, List.mem_singleton, List.not_mem_nil,
        or_false] at hp
      rcases hp with rfl | rfl | rfl | rfl <;> rfl),
   (C4_absent_or_empty_is_not_found ⟨[⟨.str keyAgreementKey, .list []⟩]⟩ KeyAgreement).2.1 rfl⟩

theorem findAll_miss (keyId : GoString) (es : List RValue)
    (h : ∀ x ∈ es, recordId x.Interface ≠ some keyId) (fv : Any) :
    findAll keyId es fv = .ret (⟨[], [], [], .null, []⟩, some errNotFound) := by
  induction es with
  | nil => rfl
  | cons x rest ih =>
    simp only [findAll, verificationMethodFound_miss x keyId fv (h x (List.mem_cons_self _ _))]
    exact ih fun y hy => h y (List.mem_cons_of_mem _ hy)

/-- An id that is the Id of no record is not found. -/
theorem GetVerificationMethodById_miss (d : Document) (s : GoString)
    (h : hasRecordWithId d s = false) :
    GetVerificationMethodById d s = .ret (⟨[], [], [], .null, []⟩, some errNotFound) := by
  rw [GetVerificationMethodById_eq]
  refine findAll_miss s _ (fun x hx => ?_) _
  simp only [hasRecordWithId, List.any_eq_false] at h
  simpa using h x hx

/-- An unresolved reference adds nothing and raises no error. -/
theorem addVerificationMethod_unresolved (d : Document) (x : RValue) (fv : Any)
    (h : isUnresolvedRef d x = true) : addVerificationMethod d x fv = .ret (fv, none) := by
  have hc : ∀ v : Any, isUnresolvedRef d (.iface v) = true →
      addVerificationMethod d (ValueOf v) fv = .ret (fv, none) := by
    intro v hv
    cases v <;> simp [isUnresolvedRef, RValue.Interface] at hv
    case str s =>
      simp only [ValueOf]
      rw [addVerificationMethod_str, GetVerificationMethodById_miss d s hv]
  cases x with
  | invalid => simp [isUnresolvedRef, RValue.Interface] at h
  | iface v => rw [addVerificationMethod_iface]; exact hc v h
  | concrete v =>
    have := hc v (by simpa [isUnresolvedRef, RValue.Interface] using h)
    cases v <;> simp [isUnresolvedRef, RValue.Interface] at h
    case str s => simpa [ValueOf] using this

/-- Removing the unresolved references from the elements changes nothing. -/
theorem addAll_filter (d : Document) (es : List RValue) :
    ∀ fv : Any, addAll d es fv = addAll d (es.filter fun x => !isUnresolvedRef d x) fv := by
  induction es with
  | nil => intro fv; rfl
  | cons x rest ih =>
    intro fv
    cases hx : isUnresolvedRef d x with
    | true =>
      simp only [List.filter_cons, hx, Bool.not_true, addAll,
        addVerificationMethod_unresolved d x fv hx]
      exact ih fv
    | false =>
      simp only [List.filter_cons, hx, Bool.not_false, addAll, if_true]
      cases addVerificationMethod d x fv with
      | panic e => rfl
      | ret p =>
        obtain ⟨rv, err⟩ := p
        cases err with
        | some e => rfl
        | none => exact ih rv

/-- The resolver reads the document only through its `verificationMethod` value. -/
theorem addVerificationMethod_congr (d d' : Document)
    (h : d'.Get verificationMethodKey = d.Get verificationMethodKey) (x : RValue) (fv : Any) :
    addVerificationMethod d' x fv = addVerificationMethod d x fv := by
  have hg : ∀ s, GetVerificationMethodById d' s = GetVerificationMethodById d s := by
    intro s; rw [GetVerificationMethodById_eq, GetVerificationMethodById_eq, h]
  have hc : ∀ v : Any,
      addVerificationMethod d' (.concrete v) fv = addVerificationMethod d (.concrete v) fv := by
    intro v
    cases v
    case str s => rw [addVerificationMethod_str, addVerificationMethod_str, hg]
    all_goals
      rw [addVerificationMethod]
      conv_rhs => rw [addVerificationMethod]
      simp [RValue.Kind, Any.Type, GoType.Kind]
  cases x with
  | invalid => rw [addVerificationMethod_invalid, addVerificationMethod_invalid]
  | concrete v => exact hc v
  | iface v =>
    rw [addVerificationMethod_iface, addVerificationMethod_iface]
    cases v
    case null => simp only [ValueOf]; rw [addVerificationMethod_invalid, addVerificationMethod_invalid]
    all_goals exact hc _

theorem addAll_congr (d d' : Document)
    (h : d'.Get verificationMethodKey = d.Get verificationMethodKey) (es : List RValue) :
    ∀ fv : Any, addAll d' es fv = addAll d es fv := by
  induction es with
  | nil => intro fv; rfl
  | cons x rest ih =>
    intro fv
    simp only [addAll, addVerificationMethod_congr d d' h]
    cases addVerificationMethod d x fv with
    | panic e => rfl
    | ret p =>
      obtain ⟨rv, err⟩ := p
      cases err with
      | some e => rfl
      | none => exact ih rv

theorem addAll_unresolved (d : Document) (es : List RValue)
    (h : ∀ x ∈ es, isUnresolvedRef d x = true) (fv : Any) : addAll d es fv = .ret (fv, none) := by
  rw [addAll_filter, List.filter_eq_nil_iff.mpr (by simpa using h)]
  rfl

/-- C3. A reference string in the relationship list whose id is the Id of no
record of `verificationMethod` is omitted without error: the element adds
nothing and the loop goes on, so the call returns what it returns on the list
without such references (for a generic list and for a typed list of strings);
and when every element is such a reference the call returns `errNotFound`. -/
theorem C3_unresolved_reference_is_skipped (d : Document) (purpose : ProofPurpose) :
    (∀ (x : RValue) (fv : Any), isUnresolvedRef d x = true →
      addVerificationMethod d x fv = .ret (fv, none)) ∧
    (∀ (L : List Any) (d' : Document), d.Get purpose.String = .list L →
      d'.Get purpose.String = .list (L.filter fun v => !isUnresolvedRef d (.iface v)) →
      d'.Get verificationMethodKey = d.Get verificationMethodKey →
      GetAssociatedVerificationMethod d purpose = GetAssociatedVerificationMethod d' purpose) ∧
    (∀ (L : List GoString) (d' : Document), d.Get purpose.String = .strings L →
      d'.Get purpose.String = .strings (L.filter fun s => hasRecordWithId d s) →
      d'.Get verificationMethodKey = d.Get verificationMethodKey →
      GetAssociatedVerificationMethod d purpose = GetAssociatedVerificationMethod d' purpose) ∧
    ((∀ x ∈ (ValueOf (d.Get purpose.String)).elems, isUnresolvedRef d x = true) →
      GetAssociatedVerificationMethod d purpose = .ret ([], some errNotFound)) := by
  refine ⟨fun x fv h => addVerificationMethod_unresolved d x fv h, fun L d' hL hL' hvm => ?_,
    fun L d' hL hL' hvm => ?_, fun h => ?_⟩
  · rw [GetAssociatedVerificationMethod_eq, GetAssociatedVerificationMethod_eq, hL, hL',
      addAll_congr d d' hvm, addAll_filter d (ValueOf (.list L)).elems]
    have : ((ValueOf (.list L)).elems.filter fun x => !isUnresolvedRef d x) =
        (ValueOf (.list (L.filter fun v => !isUnresolvedRef d (.iface v)))).elems := by
      simp only [ValueOf, RValue.elems, List.filter_map]
      rfl
    rw [this]
    rfl
  · rw [GetAssociatedVerificationMethod_eq, GetAssociatedVerificationMethod_eq, hL, hL',
      addAll_congr d d' hvm, addAll_filter d (ValueOf (.strings L)).elems]
    have : ((ValueOf (.strings L)).elems.filter fun x => !isUnresolvedRef d x) =
        (ValueOf (.strings (L.filter fun s => hasRecordWithId d s))).elems := by
      simp only [ValueOf, RValue.elems, List.filter_map]
      congr 1
      apply List.filter_congr
      intro s _
      simp [isUnresolvedRef, RValue.Interface]
    rw [this]
    rfl
  · rw [GetAssociatedVerificationMethod_eq, addAll_unresolved d _ h]
    cases d.Get purpose.String <;> simp [Any.notNil, respond, reflectNew]

/-- C3 on the document of `TestGetVerificationMethodById`: the call returns
what it returns without the unresolved reference, and `errNotFound` when the
reference is the only element. -/
theorem C3_witness :
    GetAssociatedVerificationMethod unresolvedDocument Authentication =
      GetAssociatedVerificationMethod
        ⟨[⟨.str verificationMethodKey, .vms [key0, key1]⟩,
          ⟨.str authenticationKey, .list [.map embeddedKeyMap]⟩]⟩ Authentication ∧
    GetAssociatedVerificationMethod onlyUnresolvedDocument Authentication =
      .ret ([], some errNotFound) :=
  ⟨(C3_unresolved_reference_is_skipped unresolvedDocument Authentication).2.1
      [.str (gs "did:example:123456789abcdefghi#keys-1"), .map embeddedKeyMap] _ rfl rfl rfl,
   (C3_unresolved_reference_is_skipped onlyUnresolvedDocument Authentication).2.2.2 (by
      intro x hx
      have hel : (ValueOf (onlyUnresolvedDocument.Get Authentication.String)).elems =
          [.iface (.str (gs "did:example:123456789abcdefghi#keys-1"))] := rfl
      rw [hel, List.mem_singleton] at hx
      rw [hx]; rfl)⟩

theorem addVerificationMethod_concrete_null (d : Document) (fv : Any) :
    addVerificationMethod d (.concrete .null) fv = .ret (fv, none) := by
  rw [addVerificationMethod]; simp [RValue.Kind]

/-- An element reaches `addVerificationMethod` as its dynamic value. -/
theorem addVerificationMethod_Interface (d : Document) (x : RValue) (fv : Any) :
    addVerificationMethod d x fv = addVerificationMethod d (ValueOf x.Interface) fv := by
  cases x with
  | invalid => rfl
  | iface v => rw [addVerificationMethod_iface]; rfl
  | concrete v =>
    cases v
    case null =>
      rw [addVerificationMethod_concrete_null]
      simp only [RValue.Interface, ValueOf]
      rw [addVerificationMethod_invalid]
    all_goals rfl

/-- On a well-shaped element `addVerificationMethod` appends its contribution. -/
theorem addVerificationMethod_contribution (d : Document) (x : RValue)
    (acc : List VerificationMethod) (hx : wellShaped d x) :
    addVerificationMethod d x (.vms acc) = .ret (.vms (acc ++ contribution d x), none) := by
  obtain ⟨hmap, hsvc, hstr⟩ := hx
  rw [addVerificationMethod_Interface]
  unfold contribution
  cases hv : x.Interface with
  | vm r => simp only [ValueOf]; exact addVerificationMethod_vm d r acc
  | service r => exact absurd hv (hsvc r)
  | map m =>
    obtain ⟨r, hr⟩ := hmap m hv
    simp only [ValueOf]
    rw [addVerificationMethod_map, hr]
    rfl
  | str s =>
    simp only [ValueOf]
    rw [addVerificationMethod_str]
    cases hg : GetVerificationMethodById d s with
    | panic e => exact absurd hg (hstr s hv e)
    | ret p =>
      obtain ⟨r, err⟩ := p
      cases err with
      | some e => simp
      | none => simp [reflectAppend]
  | null => simp only [ValueOf]; rw [addVerificationMethod_invalid]; simp
  | bool b => rw [addVerificationMethod_other d _ _ (by simp)]; simp
  | number n => rw [addVerificationMethod_other d _ _ (by simp)]; simp
  | uint8 b => rw [addVerificationMethod_other d _ _ (by simp)]; simp
  | bytes bs => rw [addVerificationMethod_other d _ _ (by simp)]; simp
  | strings xs => rw [addVerificationMethod_other d _ _ (by simp)]; simp
  | list xs => rw [addVerificationMethod_other d _ _ (by simp)]; simp
  | vms xs => rw [addVerificationMethod_other d _ _ (by simp)]; simp
  | services xs => rw [addVerificationMethod_other d _ _ (by simp)]; simp
  | ptr w => rw [addVerificationMethod_other d _ _ (by simp)]; simp

theorem addAll_contribution (d : Document) (es : List RValue)
    (h : ∀ x ∈ es, wellShaped d x) :
    ∀ acc : List VerificationMethod,
      addAll d es (.vms acc) = .ret (.vms (acc ++ es.flatMap (contribution d)), none) := by
  induction es with
  | nil => intro acc; simp [addAll]
  | cons x rest ih =>
    intro acc
    simp only [addAll, addVerificationMethod_contribution d x acc (h x (List.mem_cons_self _ _))]
    rw [ih (fun y hy => h y (List.mem_cons_of_mem _ hy))]
    simp [List.flatMap_cons, List.append_assoc]

/-- C1 where it holds: on a relationship list whose elements are well shaped,
the call returns the contributions of the elements, in list order, with no
error when there is one at least, and `errNotFound` when there is none; the
result is never longer than the list. -/
theorem resolve_well_shaped (d : Document) (purpose : ProofPurpose) (L : Any)
    (hL : d.Get purpose.String = L) (hn : L.notNil = true)
    (h : ∀ x ∈ (ValueOf L).elems, wellShaped d x) :
    GetAssociatedVerificationMethod d purpose =
      (if ((ValueOf L).elems.flatMap (contribution d)).length > 0 then
        .ret ((ValueOf L).elems.flatMap (contribution d), none)
      else .ret ([], some errNotFound)) ∧
    ((ValueOf L).elems.flatMap (contribution d)).length ≤ L.Len := by
  constructor
  · rw [GetAssociatedVerificationMethod_eq, hL, if_pos hn]
    have := addAll_contribution d _ h []
    simp only [reflectNew, this, List.nil_append, respond]
    split <;> rfl
  · have hlen : ∀ x, (contribution d x).length ≤ 1 := by
      intro x
      unfold contribution
      split
      · simp
      · split <;> simp
      · split <;> simp
      · simp
    have hsum : ∀ es : List RValue, (es.flatMap (contribution d)).length ≤ es.length := by
      intro es
      induction es with
      | nil => simp
      | cons x rest ih =>
        have := hlen x
        simp only [List.flatMap_cons, List.length_append, List.length_cons]
        omega
    have := hsum (ValueOf L).elems
    rw [elems_length] at this
    cases L <;> simp_all [ValueOf, RValue.Len, Any.notNil]

theorem embeddedKeyMap_coerces :
    structEncoder (reflectNew .vm) .vm (.concrete (.map embeddedKeyMap)) =
      .ret (.vm embeddedKey, none) := by
  rw [structEncoder_vm_map _ embeddedKeyMap (.inr ⟨_, rfl⟩) (.inr ⟨_, rfl⟩) (.inr ⟨_, rfl⟩)
    (.inr ⟨_, rfl⟩),
    show List.lookup (gs "publicKeyJwk") embeddedKeyMap = none from rfl]
  rfl

theorem embeddedDocument_key1 :
    GetVerificationMethodById embeddedDocument (gs "did:example:123#key-1") =
      .ret (key1, none) := by
  rw [GetVerificationMethodById_eq]
  exact findAll_records _ [key0, key1] _ (.inl rfl) _

/-- The witness of C1: on the document of `tstVerificationRelationWithEmbedded`,
whose `authentication` list is a reference to key-1 followed by an embedded
map, the call returns the key-1 record followed by the embedded record. -/
theorem resolve_embedded_document :
    GetAssociatedVerificationMethod embeddedDocument Authentication =
      .ret ([key1, embeddedKey], none) := by
  have hel : (ValueOf (.list [.str (gs "did:example:123#key-1"), .map embeddedKeyMap])).elems =
      [.iface (.str (gs "did:example:123#key-1")), .iface (.map embeddedKeyMap)] := rfl
  have h1 : contribution embeddedDocument (.iface (.str (gs "did:example:123#key-1"))) =
      [key1] := by
    simp only [contribution, RValue.Interface, embeddedDocument_key1]
  have h2 : contribution embeddedDocument (.iface (.map embeddedKeyMap)) = [embeddedKey] := by
    simp only [contribution, RValue.Interface, embeddedKeyMap_coerces]
  have h := (resolve_well_shaped embeddedDocument Authentication
    (.list [.str (gs "did:example:123#key-1"), .map embeddedKeyMap]) rfl rfl (by
      rw [hel]
      intro x hx
      simp only [List.mem_cons, List.mem_singleton, List.not_mem_nil, or_false] at hx
      rcases hx with rfl | rfl
      · refine ⟨fun m hm => by simp [RValue.Interface] at hm, fun r => by simp [RValue.Interface],
          fun s hs e => ?_⟩
        simp only [RValue.Interface, Any.str.injEq] at hs
        subst hs
        rw [embeddedDocument_key1]; simp
      · refine ⟨fun m hm => ?_, fun r => by simp [RValue.Interface],
          fun s hs => by simp [RValue.Interface] at hs⟩
        simp only [RValue.Interface, Any.map.injEq] at hm
        subst hm
        exact ⟨_, embeddedKeyMap_coerces⟩)).1
  rw [h, hel]
  simp [List.flatMap_cons, h1, h2]

/-- C1 at a relationship list holding an embedded VerificationMethod and then a
Service record: no element is a map, the contributions as the claim words them
are the one embedded record, yet the call does not return it: `reflect.Append`
panics on the Service record. -/
theorem C1_foreign_record_panics :
    foreignRecordDocument.Get Authentication.String = .list [.vm key1, .service sampleService] ∧
    (ValueOf (.list [.vm key1, .service sampleService])).elems.flatMap
        (contribution foreignRecordDocument) = [key1] ∧
    GetAssociatedVerificationMethod foreignRecordDocument Authentication = .panic none := by
  refine ⟨rfl, rfl, ?_⟩
  rw [GetAssociatedVerificationMethod_eq]
  have hg : foreignRecordDocument.Get Authentication.String =
      .list [.vm key1, .service sampleService] := rfl
  rw [hg]
  have hel : (ValueOf (.list [.vm key1, .service sampleService])).elems =
      [.iface (.vm key1), .iface (.service sampleService)] := rfl
  rw [hel]
  simp only [addAll, addVerificationMethod_iface, ValueOf, reflectNew, addVerificationMethod_vm,
    addVerificationMethod_service, List.nil_append]
  rfl

theorem addAll_append (d : Document) (es₁ es₂ : List RValue) :
    ∀ fv : Any, addAll d (es₁ ++ es₂) fv =
      match addAll d es₁ fv with
      | .panic e => .panic e
      | .ret (rv, some err) => .ret (rv, some err)
      | .ret (rv, none) => addAll d es₂ rv := by
  induction es₁ with
  | nil => intro fv; rfl
  | cons x rest ih =>
    intro fv
    simp only [List.cons_append, addAll]
    cases addVerificationMethod d x fv with
    | panic e => rfl
    | ret p =>
      obtain ⟨rv, err⟩ := p
      cases err with
      | some e => rfl
      | none => exact ih rv

/-- C5 where it holds: a map element that fails to coerce aborts the call with
that error and an empty list, whatever follows it, when the elements before it
are well shaped (and so have been resolved). -/
theorem coercion_error_aborts (d : Document) (purpose : ProofPurpose) (pre post : List Any)
    (m : List (GoString × Any)) (dv : Any) (err : GoError)
    (hL : d.Get purpose.String = .list (pre ++ .map m :: post))
    (hpre : ∀ v ∈ pre, wellShaped d (.iface v))
    (hm : structEncoder (reflectNew .vm) .vm (.concrete (.map m)) = .ret (dv, some err)) :
    GetAssociatedVerificationMethod d purpose = .ret ([], some err) := by
  rw [GetAssociatedVerificationMethod_eq, hL]
  have hel : (ValueOf (.list (pre ++ .map m :: post))).elems =
      pre.map .iface ++ (.iface (.map m) :: post.map .iface) := by
    simp [ValueOf, RValue.elems]
  rw [hel, addAll_append, reflectNew,
    addAll_contribution d (pre.map .iface) (by simpa using hpre) []]
  simp only [addAll, addVerificationMethod_iface, ValueOf, addVerificationMethod_map, hm,
    Any.notNil, if_true]

theorem numberIdMap_fails :
    structEncoder (reflectNew .vm) .vm (.concrete (.map numberIdMap)) =
      .ret (reflectNew .vm, some errUnsupportedSourceType) := by
  rw [structEncoder_map, structLoop_step _ _ .vm numberIdMap 0 (by decide),
    show List.lookup (GoType.vm.jsonKey 0) numberIdMap = some (.number 5) from rfl]
  simp only [show (GoType.vm.Field 0).Type_ = .string from rfl, valueEncoder_string,
    stringEncoder_iface, ValueOf]
  have h := stringEncoder_base ((reflectNew .vm).Field 0) (.number 5) (by simp)
  simp only [ValueOf, stringOf] at h
  rw [h]

/-- C5 at two relationship lists whose second element is a map that cannot be
coerced (its "id" is a number): after a Service record, and after a map whose
`publicKeyJwk` entry is nil. In both the call does not return the coercion
error: it panics on the first element, in `reflect.Append` and in `Set`. -/
theorem C5_earlier_element_panics :
    structEncoder (reflectNew .vm) .vm (.concrete (.map numberIdMap)) =
      .ret (reflectNew .vm, some errUnsupportedSourceType) ∧
    foreignThenBadMapDocument.Get Authentication.String =
      .list [.service sampleService, .map numberIdMap] ∧
    GetAssociatedVerificationMethod foreignThenBadMapDocument Authentication = .panic none ∧
    nullKeyThenBadMapDocument.Get Authentication.String =
      .list [.map nullKeyMap, .map numberIdMap] ∧
    GetAssociatedVerificationMethod nullKeyThenBadMapDocument Authentication = .panic none := by
  refine ⟨numberIdMap_fails, rfl, ?_, rfl, ?_⟩
  · rw [GetAssociatedVerificationMethod_eq]
    have hg : foreignThenBadMapDocument.Get Authentication.String =
        .list [.service sampleService, .map numberIdMap] := rfl
    rw [hg]
    have hel : (ValueOf (.list [.service sampleService, .map numberIdMap])).elems =
        [.iface (.service sampleService), .iface (.map numberIdMap)] := rfl
    rw [hel]
    simp only [addAll, addVerificationMethod_iface, ValueOf, reflectNew,
      addVerificationMethod_service]
    rfl
  · rw [GetAssociatedVerificationMethod_eq]
    have hg : nullKeyThenBadMapDocument.Get Authentication.String =
        .list [.map nullKeyMap, .map numberIdMap] := rfl
    rw [hg]
    have hel : (ValueOf (.list [.map nullKeyMap, .map numberIdMap])).elems =
        [.iface (.map nullKeyMap), .iface (.map numberIdMap)] := rfl
    rw [hel]
    simp only [addAll, addVerificationMethod_iface, ValueOf, addVerificationMethod_map,
      null_key_material_panics.1]
    rfl

/-- C5 on a list whose first element has been resolved: the map with a number
under "id" aborts the call with the coercion error and an empty list. -/
theorem resolved_then_bad_map :
    GetAssociatedVerificationMethod
        ⟨[⟨.str authenticationKey, .list [.vm key1, .map numberIdMap, .vm key0]⟩]⟩
        Authentication =
      .ret ([], some errUnsupportedSourceType) :=
  coercion_error_aborts _ Authentication [.vm key1] [.vm key0] numberIdMap _ _ rfl
    (by
      intro v hv
      rw [List.mem_singleton] at hv
      subst hv
      exact ⟨fun m hm => by simp [RValue.Interface] at hm, fun r => by simp [RValue.Interface],
        fun s hs => by simp [RValue.Interface] at hs⟩)
    numberIdMap_fails

/-! ## Claims on the property bag and the builder -/

/-- Reading of `Get`: the value of the first entry with the key, nil when none. -/
theorem Get_eq_firstEntry (props : MapSlice) (k : GoString) :
    MapSlice.Get props k =
      match firstEntry props k with
      | some p => p.Value
      | none => .null := by
  induction props with
  | nil => rfl
  | cons p rest ih =>
    simp only [MapSlice.Get, firstEntry, List.find?_cons]
    cases h : p.Key.eqString k with
    | true => simp
    | false => simpa [firstEntry] using ih

theorem firstEntry_append (props : MapSlice) (q : MapItem) (k : GoString) :
    firstEntry (props ++ [q]) k =
      match firstEntry props k with
      | some p => some p
      | none => if q.Key.eqString k then some q else none := by
  simp only [firstEntry, List.find?_append, List.find?_cons, List.find?_nil]
  cases List.find? (fun p => p.Key.eqString k) props with
  | some p => rfl
  | none => cases q.Key.eqString k <;> rfl

theorem firstEntry_none_iff (props : MapSlice) (k : GoString) :
    firstEntry props k = none ↔ ∀ p ∈ props, p.Key.eqString k = false := by
  simp [firstEntry, List.find?_eq_none]

/-- C15. `Get(k)` returns the value of the first entry, in insertion order,
whose key equals `k`, and nil (absent) when no entry has key `k`; on a new
empty document every `Get` is absent; and after `Set(k, v1)` followed by
`Set(k, v2)`, on a document with no entry for `k` before, `Get(k)` returns
`v1` (on any document it returns what the first entry for `k` holds). -/
theorem C15_get_returns_first_match :
    (∀ (d : Document) (k : GoString),
      d.Get k = match firstEntry d.properties k with
        | some p => p.Value
        | none => .null) ∧
    (∀ k : GoString, NewDocument.Get k = .null) ∧
    (∀ (k : GoString) (v1 v2 : Any),
      ((NewDocument.Set (.str k) v1).1.Set (.str k) v2).1.Get k = v1) ∧
    (∀ (d : Document) (k : GoString) (v1 v2 : Any),
      ((d.Set (.str k) v1).1.Set (.str k) v2).1.Get k =
        match firstEntry d.properties k with
        | some p => p.Value
        | none => v1) := by
  have h4 : ∀ (d : Document) (k : GoString) (v1 v2 : Any),
      ((d.Set (.str k) v1).1.Set (.str k) v2).1.Get k =
        match firstEntry d.properties k with
        | some p => p.Value
        | none => v1 := by
    intro d k v1 v2
    simp only [Document.Get, Document.Set, Get_eq_firstEntry, firstEntry_append]
    cases firstEntry d.properties k with
    | some p => rfl
    | none => simp [Any.eqString]
  refine ⟨fun d k => Get_eq_firstEntry _ _, fun k => rfl, fun k v1 v2 => ?_, h4⟩
  exact h4 NewDocument k v1 v2

/-- C16. `Set(k, v)` never fails; afterwards the entries are the previous
entries followed by the one new entry `(k, v)`; `Get(k')` is unchanged for
every key `k'` that had an entry (also `k' = k`), and `Get(k) = v` when `k`
had no entry before. -/
theorem C16_set_appends (d : Document) (key v : Any) :
    (d.Set key v).2 = none ∧
    (d.Set key v).1.properties = d.properties ++ [⟨key, v⟩] ∧
    (∀ k' : GoString, (∃ p ∈ d.properties, p.Key.eqString k' = true) →
      (d.Set key v).1.Get k' = d.Get k') ∧
    (∀ k : GoString, key = .str k → (∀ p ∈ d.properties, p.Key.eqString k = false) →
      (d.Set key v).1.Get k = v) := by
  refine ⟨rfl, rfl, fun k' h => ?_, fun k hk h => ?_⟩
  · simp only [Document.Get, Document.Set, Get_eq_firstEntry, firstEntry_append]
    cases hf : firstEntry d.properties k' with
    | some p => rfl
    | none =>
      obtain ⟨p, hp, hpk⟩ := h
      rw [(firstEntry_none_iff _ _).mp hf p hp] at hpk
      exact absurd hpk (by simp)
  · subst hk
    simp only [Document.Get, Document.Set, Get_eq_firstEntry, firstEntry_append,
      (firstEntry_none_iff _ _).mpr h]
    simp [Any.eqString]

/-- C16 on the document of `tstVerificationRelationWithEmbedded`: setting
`id` again leaves `Get("id")` as it was, and setting a new key makes
`Get` return the new value. -/
theorem C16_witness :
    (embeddedDocument.Set (.str subjectKey) (.str (gs "did:example:other"))).1.Get subjectKey =
      embeddedDocument.Get subjectKey ∧
    (embeddedDocument.Set (.str serviceKey) (.services [sampleService])).1.Get serviceKey =
      .services [sampleService] :=
  ⟨(C16_set_appends embeddedDocument (.str subjectKey) (.str (gs "did:example:other"))).2.2.1
      subjectKey ⟨⟨.str subjectKey, .str (gs "did:example:123456789abcdefghi")⟩,
        by simp [embeddedDocument], rfl⟩,
   (C16_set_appends embeddedDocument (.str serviceKey) (.services [sampleService])).2.2.2
      serviceKey rfl (by
        intro p hp
        simp only [embeddedDocument, List.mem_cons, List.mem_singleton, List.not_mem_nil,
          or_false] at hp
        rcases hp with rfl | rfl | rfl | rfl <;> rfl)⟩

theorem buildLoop_eq (ps : BuilderSlice) :
    ∀ doc : Document, buildLoop doc ps =
      (⟨doc.properties ++ ps.map BuilderItem.toMapItem⟩, none) := by
  induction ps with
  | nil => intro doc; simp [buildLoop]
  | cons p rest ih =>
    intro doc
    simp only [buildLoop, Document.Set, ih, List.map_cons, BuilderItem.toMapItem]
    simp

/-- C17. `Build()` never fails and returns the document whose entries are
exactly the pairs the builder accumulated, one entry per pair and in the order
of the calls (each call that records a value appends one pair); so `Get(k)` on
the built document is the value of the first pair recorded under `k`. -/
theorem C17_build_keeps_the_pairs (b : builder) :
    b.Build = (⟨b.properties.map BuilderItem.toMapItem⟩, none) ∧
    (∀ k : GoString, b.Build.1.Get k =
      match b.properties.find? (fun p => p.Key.eqString k) with
      | some p => p.Value
      | none => .null) ∧
    (∀ (k : GoString) (v : Any),
      (b.property k v).properties =
        if v.notNil then b.properties ++ [⟨.str k, v⟩] else b.properties) := by
  have hb : b.Build = (⟨b.properties.map BuilderItem.toMapItem⟩, none) := by
    simp [builder.Build, buildLoop_eq, NewDocument]
  refine ⟨hb, fun k => ?_, fun k v => ?_⟩
  · rw [hb]
    simp only [Document.Get, Get_eq_firstEntry, firstEntry, List.find?_map]
    cases h : List.find? ((fun p => p.Key.eqString k) ∘ BuilderItem.toMapItem) b.properties with
    | none =>
      have : List.find? (fun p : BuilderItem => p.Key.eqString k) b.properties = none := h
      simp [this]
    | some p =>
      have : List.find? (fun p : BuilderItem => p.Key.eqString k) b.properties = some p := h
      simp [this, BuilderItem.toMapItem]
  · simp only [builder.property]
    split <;> rfl

/-- C14. Extension properties are preserved on read: for every key `k` and
every value `v`, the document built by `NewBuilder().CustomProperty(k, v).Build()`
is built without error and `Get(k)` returns `v` itself, uncoerced. -/
theorem C14_custom_property_is_kept (k : GoString) (v : Any) :
    (NewBuilder.CustomProperty k v).Build.2 = none ∧
    (NewBuilder.CustomProperty k v).Build.1.Get k = v := by
  cases v <;>
    simp [builder.CustomProperty, builder.property, Any.notNil, NewBuilder, builder.Build,
      buildLoop, Document.Set, NewDocument, Document.Get, MapSlice.Get, Any.eqString]

/-- The element loop of `arrayEncoder`: when the coercion of element `i`
leaves `xs[i]` in its slot (with or without an error), the loop appends the
slot values in order. -/
theorem arrayLoop_collect (dt et : GoType) (sv : RValue) (he : dt.Elem = some et)
    (xs : List Any) (hlen : sv.Len = xs.length)
    (hidx : ∀ (i : Nat) (h : i < xs.length),
      ∃ err, valueEncoder (reflectNew et) et (sv.Index i) = .ret (xs[i], err)) :
    ∀ (n : Nat) (dv : Any) (i : Nat), xs.length - i = n →
      arrayLoop dv dt sv i = appendAll dv (xs.drop i) := by
  intro n
  induction n with
  | zero =>
    intro dv i hn
    rw [arrayLoop_end _ _ _ _ (by omega), List.drop_eq_nil_of_le (by omega)]
    rfl
  | succ n ih =>
    intro dv i hn
    have hi : i < xs.length := by omega
    obtain ⟨err, hx⟩ := hidx i hi
    rw [arrayLoop_step _ dt et sv i he (by omega), hx, List.drop_eq_getElem_cons hi]
    simp only [appendAll]
    cases reflectAppend dv xs[i] with
    | panic e => rfl
    | ret dv' => exact ih dv' (i + 1) (by omega)

theorem appendAll_list (ys : List Any) :
    ∀ acc : List Any, appendAll (.list acc) ys = .ret (.list (acc ++ ys), none) := by
  induction ys with
  | nil => intro acc; simp [appendAll]
  | cons y rest ih => intro acc; simp [appendAll, reflectAppend, ih]

theorem appendAll_strings (ss : List GoString) :
    ∀ acc : List GoString,
      appendAll (.strings acc) (ss.map .str) = .ret (.strings (acc ++ ss), none) := by
  induction ss with
  | nil => intro acc; simp [appendAll]
  | cons y rest ih => intro acc; simp [appendAll, reflectAppend, ih]

theorem appendAll_vms (rs : List VerificationMethod) :
    ∀ acc : List VerificationMethod,
      appendAll (.vms acc) (rs.map .vm) = .ret (.vms (acc ++ rs), none) := by
  induction rs with
  | nil => intro acc; simp [appendAll]
  | cons y rest ih => intro acc; simp [appendAll, reflectAppend, ih]

theorem appendAll_services (rs : List Service) :
    ∀ acc : List Service,
      appendAll (.services acc) (rs.map .service) = .ret (.services (acc ++ rs), none) := by
  induction rs with
  | nil => intro acc; simp [appendAll]
  | cons y rest ih => intro acc; simp [appendAll, reflectAppend, ih]

/-- Reading of `encode` into a slice destination on a generic list: the slot
values of the elements are appended in order, whatever errors their coercion
returned. -/
theorem encode_list_collect (dt et : GoType) (L xs : List Any) (he : dt.Elem = some et)
    (hlen : xs.length = L.length)
    (hidx : ∀ (i : Nat) (h : i < L.length),
      ∃ err, valueEncoder (reflectNew et) et (.iface L[i]) =
        .ret (xs.get ⟨i, by rw [hlen]; exact h⟩, err)) :
    encode (some (dt, reflectNew dt)) (.list L) = appendAll (reflectNew dt) xs := by
  have hk : dt.Kind = .Slice := by cases dt <;> simp_all [GoType.Elem, GoType.Kind]
  rw [encode_notNil dt _ (.list L) rfl, valueEncoder_slice _ dt _ hk,
    arrayEncoder_slice _ dt et (.concrete (.list L)) he rfl
      (by simp [RValue.Type, Any.Type, GoType.Elem, GoType.Kind])]
  refine arrayLoop_collect dt et _ he xs (by simp [RValue.Len, Any.Len, hlen]) ?_ _ _ 0 rfl
  intro i h
  have hL : i < L.length := by rw [← hlen]; exact h
  obtain ⟨err, hx⟩ := hidx i hL
  refine ⟨err, ?_⟩
  simp only [RValue.Index, List.getElem?_eq_getElem hL]
  simpa only [List.get_eq_getElem] using hx

/-- An element of one of the three relation shapes is stored as it is in an
interface slot. -/
theorem interfaceEncoder_relation (dv v : Any) (h : isRelation v = true) :
    interfaceEncoder dv (.iface v) = .ret (v, none) := by
  rw [interfaceEncoder_iface, interfaceEncoder_eq]
  cases v <;> simp [isRelation] at h <;> rfl

/-- A list of relations is coerced to itself in a `[]VerificationRelation` destination. -/
theorem encode_relations (L : List Any) (h : ∀ v ∈ L, isRelation v = true) :
    encode (some (.relations, reflectNew .relations)) (.list L) = .ret (.list L, none) := by
  rw [encode_list_collect .relations .iface L L rfl rfl (fun i hi =>
    ⟨none, by rw [valueEncoder_iface]; exact interfaceEncoder_relation _ _ (h _ (List.getElem_mem _))⟩)]
  exact appendAll_list L []

/-- C13. For a list `L` of verification relations, each element a reference
string, a generic map or an embedded record, the builder methods of the five
verification relationships store `L` unchanged: map elements stay maps and
reference strings stay strings; `Builder.AssertionMethod(L).Build()` gives a
document whose `AssertionMethod()` is `L`. -/
theorem C13_relations_are_stored_unchanged (L : List Any) (h : ∀ v ∈ L, isRelation v = true) :
    (∀ b : builder,
      b.Authentication (.list L) =
        .ret { properties := b.properties ++ [⟨.str authenticationKey, .list L⟩] } ∧
      b.AssertionMethod (.list L) =
        .ret { properties := b.properties ++ [⟨.str assertionMethodKey, .list L⟩] } ∧
      b.KeyAgreement (.list L) =
        .ret { properties := b.properties ++ [⟨.str keyAgreementKey, .list L⟩] } ∧
      b.CapabilityInvocation (.list L) =
        .ret { properties := b.properties ++ [⟨.str capabilityInvocationKey, .list L⟩] } ∧
      b.CapabilityDelegation (.list L) =
        .ret { properties := b.properties ++ [⟨.str capabilityDelegationKey, .list L⟩] }) ∧
    NewBuilder.AssertionMethod (.list L) = .ret ⟨[⟨.str assertionMethodKey, .list L⟩]⟩ ∧
    builder.Build ⟨[⟨.str assertionMethodKey, .list L⟩]⟩ =
      (⟨[⟨.str assertionMethodKey, .list L⟩]⟩, none) ∧
    Document.AssertionMethod ⟨[⟨.str assertionMethodKey, .list L⟩]⟩ = .list L := by
  have he := encode_relations L h
  have hb : ∀ (b : builder) (key : GoString), b.verificationRelationArray key (.list L) =
      .ret { properties := b.properties ++ [⟨.str key, .list L⟩] } :=
    fun b key => encodeProperty_ok b .relations key _ _ he
  exact ⟨fun b => ⟨hb b _, hb b _, hb b _, hb b _, hb b _⟩, hb NewBuilder _,
    Build_singleton _ _, Get_singleton assertionMethodKey _⟩

/-- C13 on the list of `testVerificationRelation`: a map followed by a
reference string. -/
theorem C13_witness :
    NewBuilder.AssertionMethod
        (.list [.map sampleMethodMap, .str (gs "did:example:123456789abcdefghi#keys-1")]) =
      .ret ⟨[⟨.str assertionMethodKey,
        .list [.map sampleMethodMap, .str (gs "did:example:123456789abcdefghi#keys-1")]⟩]⟩ :=
  (C13_relations_are_stored_unchanged
    [.map sampleMethodMap, .str (gs "did:example:123456789abcdefghi#keys-1")] (by
      intro v hv
      simp only [List.mem_cons, List.mem_singleton, List.not_mem_nil, or_false] at hv
      rcases hv with rfl | rfl <;> rfl)).2.1

/-- Reading of `structEncoder` on a source that is neither a record nor a map:
`errUnsupportedSourceType`, the destination untouched. A pointer is such a
source, whatever it points to. -/
theorem structEncoder_other (dv : Any) (dt : GoType) (v : Any) (h : isRecordOrMap v = false) :
    structEncoder dv dt (ValueOf v) = .ret (dv, some errUnsupportedSourceType) ∧
    structEncoder dv dt (.iface v) = .ret (dv, some errUnsupportedSourceType) := by
  have h1 : structEncoder dv dt (ValueOf v) = .ret (dv, some errUnsupportedSourceType) := by
    cases v <;> simp [isRecordOrMap] at h <;>
      (rw [structEncoder]; simp [ValueOf, RValue.Kind, Any.Type, GoType.Kind])
  exact ⟨h1, by rw [structEncoder_iface]; exact h1⟩

/-- Reading of `structEncoder` on a record of another struct type:
`errStructNotEqual`, the destination untouched. -/
theorem structEncoder_mismatch (dv : Any) (r : VerificationMethod) (s : Service) :
    structEncoder dv .service (.concrete (.vm r)) = .ret (dv, some errStructNotEqual) ∧
    structEncoder dv .vm (.concrete (.service s)) = .ret (dv, some errStructNotEqual) := by
  constructor <;>
    (rw [structEncoder]; simp [RValue.Kind, Any.Type, GoType.Kind, RValue.Type])

/-- C12, the claim as stated fails: a string given to a VerificationMethod
destination fails with `errUnsupportedSourceType`, which is not the struct
mismatch error `errStructNotEqual`. -/
theorem C12_string_source_is_unsupported_source :
    structEncoder (reflectNew .vm) .vm (.concrete (.str (gs "did:example:123#key-1"))) =
      .ret (reflectNew .vm, some errUnsupportedSourceType) ∧
    errUnsupportedSourceType ≠ errStructNotEqual :=
  ⟨(structEncoder_other _ .vm (.str (gs "did:example:123#key-1")) rfl).1, by decide⟩

/-- C12, as amended. Coercion into a record destination (VerificationMethod or
Service) fails, leaving the destination as it was, with
`errUnsupportedSourceType` for every source that, after unwrapping the
interface wrapper, is neither a record nor a map (a string, a number, a
boolean, a list, nil, and any pointer: pointers are not unwrapped here), and
with `errStructNotEqual` for a record of the other struct type. -/
theorem C12_record_destination_failures (dv v : Any) :
    (isRecordOrMap v = false →
      structEncoder dv .vm (ValueOf v) = .ret (dv, some errUnsupportedSourceType) ∧
      structEncoder dv .vm (.iface v) = .ret (dv, some errUnsupportedSourceType) ∧
      structEncoder dv .service (ValueOf v) = .ret (dv, some errUnsupportedSourceType) ∧
      structEncoder dv .service (.iface v) = .ret (dv, some errUnsupportedSourceType) ∧
      valueEncoder dv .vm (ValueOf v) = .ret (dv, some errUnsupportedSourceType) ∧
      valueEncoder dv .service (ValueOf v) = .ret (dv, some errUnsupportedSourceType)) ∧
    (∀ r : VerificationMethod,
      structEncoder dv .service (ValueOf (.vm r)) = .ret (dv, some errStructNotEqual) ∧
      structEncoder dv .service (.iface (.vm r)) = .ret (dv, some errStructNotEqual)) ∧
    (∀ s : Service,
      structEncoder dv .vm (ValueOf (.service s)) = .ret (dv, some errStructNotEqual) ∧
      structEncoder dv .vm (.iface (.service s)) = .ret (dv, some errStructNotEqual)) := by
  refine ⟨fun h => ?_, fun r => ?_, fun s => ?_⟩
  · have a := structEncoder_other dv .vm v h
    have b := structEncoder_other dv .service v h
    exact ⟨a.1, a.2, b.1, b.2, by rw [valueEncoder_struct _ .vm _ rfl]; exact a.1,
      by rw [valueEncoder_struct _ .service _ rfl]; exact b.1⟩
  · have a := (structEncoder_mismatch dv r ⟨[], [], []⟩).1
    exact ⟨a, by rw [structEncoder_iface]; exact a⟩
  · have a := (structEncoder_mismatch dv ⟨[], [], [], .null, []⟩ s).2
    exact ⟨a, by rw [structEncoder_iface]; exact a⟩

/-- C12 at a number, at a list, and at a pointer to a record of the
destination type. -/
theorem C12_witness :
    structEncoder (reflectNew .vm) .vm (ValueOf (.number 5)) =
      .ret (reflectNew .vm, some errUnsupportedSourceType) ∧
    structEncoder (reflectNew .service) .service (ValueOf (.list [.str (gs "a")])) =
      .ret (reflectNew .service, some errUnsupportedSourceType) ∧
    structEncoder (reflectNew .vm) .vm (ValueOf (.ptr (.vm key1))) =
      .ret (reflectNew .vm, some errUnsupportedSourceType) :=
  ⟨((C12_record_destination_failures (reflectNew .vm) (.number 5)).1 rfl).1,
   ((C12_record_destination_failures (reflectNew .service) (.list [.str (gs "a")])).1 rfl).2.2.1,
   ((C12_record_destination_failures (reflectNew .vm) (.ptr (.vm key1))).1 rfl).1⟩

/-- `arrayLoop` returns no error. -/
theorem arrayLoop_no_error (dt : GoType) (sv : RValue) :
    ∀ (n : Nat) (dv : Any) (i : Nat), sv.Len - i = n →
      ∀ (dv' : Any) (err : Option GoError), arrayLoop dv dt sv i = .ret (dv', err) →
        err = none := by
  intro n
  induction n with
  | zero =>
    intro dv i hn dv' err h
    rw [arrayLoop_end _ _ _ _ (by omega)] at h
    cases h; rfl
  | succ n ih =>
    intro dv i hn dv' err h
    have hi : i < sv.Len := by omega
    cases he : dt.Elem with
    | none =>
      rw [arrayLoop] at h
      simp [hi, he] at h
    | some et =>
      rw [arrayLoop_step _ dt et sv i he hi] at h
      cases hx : valueEncoder (reflectNew et) et (sv.Index i) with
      | panic e => rw [hx] at h; cases h
      | ret p =>
        obtain ⟨xv, e⟩ := p
        rw [hx] at h
        simp only [] at h
        cases ha : reflectAppend dv xv with
        | panic e' => rw [ha] at h; cases h
        | ret dv₁ =>
          rw [ha] at h
          exact ih dv₁ (i + 1) (by omega) dv' err h

/-- `arrayEncoder` returns no error, whatever the coercion of the elements
returned: every error of `valueEncoder` is dropped. -/
theorem arrayEncoder_no_error (dv : Any) (dt : GoType) (sv : RValue) (dv' : Any)
    (err : Option GoError) (h : arrayEncoder dv dt sv = .ret (dv', err)) : err = none := by
  rw [arrayEncoder] at h
  split at h
  · split at h
    · cases h
    · split at h
      · split at h
        · cases h
        · split at h
          · cases h
          · cases h; rfl
      · exact arrayLoop_no_error dt sv _ dv 0 rfl dv' err h
  · split at h
    · cases h
    · split at h
      · split at h
        · cases h
        · split at h
          · cases h
          · cases h; rfl
      · exact arrayLoop_no_error dt sv _ dv 0 rfl dv' err h
  · split at h
    · cases h
    · cases h; rfl
  · split at h
    · cases h
    · split at h
      · cases h
      · split at h
        · cases h
        · cases h; rfl

/-- A number given to a string slot: the coercion reports
`errUnsupportedSourceType` and leaves the slot at the empty string. -/
theorem valueEncoder_string_number (n : Int) :
    valueEncoder (reflectNew .string) .string (.iface (.number n)) =
      .ret (.str [], some errUnsupportedSourceType) := by
  rw [valueEncoder_string, stringEncoder_iface]
  have h := stringEncoder_base (reflectNew .string) (.number n) (by simp)
  simp only [stringOf] at h
  exact h

/-- A string given to a string slot. -/
theorem valueEncoder_string_str (s : GoString) :
    valueEncoder (reflectNew .string) .string (.iface (.str s)) = .ret (.str s, none) := by
  rw [valueEncoder_string, stringEncoder_iface]
  have h := stringEncoder_base (reflectNew .string) (.str s) (by simp)
  simp only [stringOf] at h
  exact h

/-- A list with one element whose coercion to a VerificationMethod fails is
coerced, without error, to the list holding one zero record. -/
theorem encode_vms_defaulted (v : Any)
    (h : structEncoder (reflectNew .vm) .vm (.iface v) =
      .ret (reflectNew .vm, some errUnsupportedSourceType)) :
    encode (some (.vms, reflectNew .vms)) (.list [v]) =
      .ret (.vms [⟨[], [], [], .null, []⟩], none) := by
  rw [encode_list_collect .vms .vm [v] [reflectNew .vm] rfl rfl (fun i hi => by
    have hi0 : i = 0 := by simpa using hi
    subst hi0
    exact ⟨some errUnsupportedSourceType, by rw [valueEncoder_struct _ .vm _ rfl]; exact h⟩)]
  exact appendAll_vms [⟨[], [], [], .null, []⟩] []

/-- C11, the code at four sources with an entry that cannot be coerced: a
`@context` list with a number, and `verificationMethod` lists holding a bare
string, a number, and a map whose `id` is a number. No failure is raised and
nothing is reported: the builder stores the empty string in place of the
number, and a record with every field at its zero value in place of the
entry; `Build` then returns that document without error and its accessor
hands the defaulted entries out. -/
theorem C11_uncoercible_entry_is_stored_defaulted :
    NewBuilder.Context (.list [.str (gs "https://www.w3.org/ns/did/v1"), .number 5]) =
      .ret ⟨[⟨.str contextKey, .strings [gs "https://www.w3.org/ns/did/v1", []]⟩]⟩ ∧
    NewBuilder.VerificationMethod (.list [.str (gs "did:example:123#key-1")]) =
      .ret ⟨[⟨.str verificationMethodKey, .vms [⟨[], [], [], .null, []⟩]⟩]⟩ ∧
    NewBuilder.VerificationMethod (.list [.number 5]) =
      .ret ⟨[⟨.str verificationMethodKey, .vms [⟨[], [], [], .null, []⟩]⟩]⟩ ∧
    NewBuilder.VerificationMethod (.list [.map numberIdMap]) =
      .ret ⟨[⟨.str verificationMethodKey, .vms [⟨[], [], [], .null, []⟩]⟩]⟩ ∧
    builder.Build ⟨[⟨.str verificationMethodKey, .vms [⟨[], [], [], .null, []⟩]⟩]⟩ =
      (⟨[⟨.str verificationMethodKey, .vms [⟨[], [], [], .null, []⟩]⟩]⟩, none) ∧
    Document.VerificationMethod ⟨[⟨.str verificationMethodKey, .vms [⟨[], [], [], .null, []⟩]⟩]⟩ =
      .vms [⟨[], [], [], .null, []⟩] ∧
    builder.Build ⟨[⟨.str contextKey, .strings [gs "https://www.w3.org/ns/did/v1", []]⟩]⟩ =
      (⟨[⟨.str contextKey, .strings [gs "https://www.w3.org/ns/did/v1", []]⟩]⟩, none) := by
  refine ⟨?_, ?_, ?_, ?_, Build_singleton _ _, Get_singleton _ _, Build_singleton _ _⟩
  · have h : encode (some (.strings, reflectNew .strings))
        (.list [.str (gs "https://www.w3.org/ns/did/v1"), .number 5]) =
        .ret (.strings [gs "https://www.w3.org/ns/did/v1", []], none) := by
      rw [encode_list_collect .strings .string
        [.str (gs "https://www.w3.org/ns/did/v1"), .number 5]
        [.str (gs "https://www.w3.org/ns/did/v1"), .str []] rfl rfl (fun i hi => by
          have hi2 : i = 0 ∨ i = 1 := by
            simp only [List.length_cons, List.length_nil] at hi; omega
          rcases hi2 with h0 | h1
          · subst h0; exact ⟨none, valueEncoder_string_str _⟩
          · subst h1; exact ⟨some errUnsupportedSourceType, valueEncoder_string_number 5⟩)]
      exact appendAll_strings [gs "https://www.w3.org/ns/did/v1", []] []
    exact encodeProperty_ok NewBuilder .strings contextKey _ _ h
  · exact encodeProperty_ok NewBuilder .vms verificationMethodKey _ _
      (encode_vms_defaulted _ (structEncoder_other _ .vm (.str _) rfl).2)
  · exact encodeProperty_ok NewBuilder .vms verificationMethodKey _ _
      (encode_vms_defaulted _ (structEncoder_other _ .vm (.number 5) rfl).2)
  · exact encodeProperty_ok NewBuilder .vms verificationMethodKey _ _
      (encode_vms_defaulted _ (by rw [structEncoder_iface]; exact numberIdMap_fails))

/-! ## Reading MarshalJSON -/

theorem strLess_irrefl (k : GoString) : strLess k k = false := by
  induction k with
  | nil => rfl
  | cons a as ih => simp [strLess, ih]

theorem lookup_cons_eq {α : Type} (k : GoString) (p : GoString × α) (rest : List (GoString × α)) :
    List.lookup k (p :: rest) = if k = p.1 then some p.2 else List.lookup k rest := by
  by_cases h : k = p.1
  · subst h
    simp [List.lookup]
  · have : (k == p.1) = false := by simpa using h
    simp only [List.lookup, this, h, if_false]

theorem lookup_insertMember (p : GoString × Json) (k : GoString) :
    ∀ ms : List (GoString × Json),
      (insertMember p ms).lookup k = if k = p.1 then some p.2 else ms.lookup k := by
  intro ms
  induction ms with
  | nil => simp only [insertMember, lookup_cons_eq]
  | cons q rest ih =>
    by_cases hs : strLess q.1 p.1 = true
    · have hne : q.1 ≠ p.1 := by
        intro e
        rw [e, strLess_irrefl] at hs
        exact absurd hs (by decide)
      simp only [insertMember, hs, if_true, lookup_cons_eq, ih]
      by_cases hq : k = q.1
      · have hkp : k ≠ p.1 := by rw [hq]; exact hne
        simp only [hq, if_true, hne, if_false]
      · simp only [hq, if_false]
    · have hs' : strLess q.1 p.1 = false := by simpa using hs
      simp only [insertMember, hs', Bool.false_eq_true, if_false, lookup_cons_eq]

theorem lookup_sortMembers (k : GoString) (ms : List (GoString × Json)) :
    (sortMembers ms).lookup k = ms.lookup k := by
  induction ms with
  | nil => rfl
  | cons p rest ih =>
    have h := lookup_insertMember p k (sortMembers rest)
    simp only [sortMembers, List.foldr] at h ih ⊢
    rw [h, ih, lookup_cons_eq]

theorem lookup_filter_ne {α : Type} (k k0 : GoString) (l : List (GoString × α)) :
    (l.filter fun q => q.1 != k0).lookup k = if k = k0 then none else l.lookup k := by
  induction l with
  | nil => simp
  | cons q rest ih =>
    by_cases hq : q.1 = k0
    · rw [List.filter_cons_of_neg (by simp [hq]), ih, lookup_cons_eq]
      by_cases hk : k = k0
      · simp only [hk, if_true]
      · have : k ≠ q.1 := by rw [hq]; exact hk
        simp only [hk, this, if_false]
    · rw [List.filter_cons_of_pos (by simpa using hq), lookup_cons_eq, lookup_cons_eq, ih]
      by_cases hk : k = k0
      · have : k0 ≠ q.1 := fun e => hq e.symm
        simp only [hk, this, if_true, if_false]
      · simp only [hk, if_false]

theorem lookup_distinctKeys {α : Type} (k : GoString) (l : List (GoString × α)) :
    (distinctKeys l).lookup k = l.lookup k := by
  induction l with
  | nil => rfl
  | cons p rest ih =>
    simp only [distinctKeys, lookup_cons_eq, lookup_filter_ne, ih]
    by_cases hk : k = p.1 <;> simp only [hk, if_true, if_false]

theorem lookup_marshalEntries (k : GoString) (m : List (GoString × Any)) :
    (marshalEntries m).lookup k = (m.lookup k).map jsonMarshal := by
  induction m with
  | nil => rfl
  | cons p rest ih =>
    obtain ⟨k0, x⟩ := p
    simp only [marshalEntries, lookup_cons_eq, ih]
    by_cases hk : k = k0 <;> simp [hk]

/-- The member of a marshalled map under a key is the marshalled value the
map holds under that key. -/
theorem member_jsonMarshal_map (k : GoString) (m : List (GoString × Any)) :
    (jsonMarshal (.map m)).member k = (m.lookup k).map jsonMarshal := by
  simp only [jsonMarshal, Json.member, lookup_sortMembers, lookup_distinctKeys,
    lookup_marshalEntries]

theorem lookup_mapAssign (k key : GoString) (v : Any) (m : List (GoString × Any)) :
    (mapAssign m key v).lookup k = if k = key then some v else m.lookup k := by
  induction m with
  | nil => simp only [mapAssign, lookup_cons_eq]
  | cons p rest ih =>
    by_cases hp : p.1 = key
    · simp only [mapAssign, hp, if_true, lookup_cons_eq]
      by_cases hk : k = key <;> simp only [hk, if_true, if_false]
    · simp only [mapAssign, hp, if_false, lookup_cons_eq, ih]
      by_cases hk : k = p.1
      · have hkk : k ≠ key := by rw [hk]; exact hp
        simp only [hk, if_true, hp, if_false]
      · simp only [hk, if_false]

/-- An entry `MarshalJSON` can take leaves the map as it was under every key
other than its own. -/
theorem marshalStep_marshalable (m : List (GoString × Any)) (p : MapItem)
    (h : marshalable p = true) :
    ∃ m', marshalStep m p = .ret m' ∧
      ∀ k, p.Key.eqString k = false → m'.lookup k = m.lookup k := by
  obtain ⟨pk, pv⟩ := p
  cases pk
  case str key =>
    have hkeep : ∀ (v : Any) (k : GoString), Any.eqString (.str key) k = false →
        (mapAssign m key v).lookup k = m.lookup k := by
      intro v k hk
      have : k ≠ key := by
        intro e
        simp [Any.eqString, e] at hk
      rw [lookup_mapAssign, if_neg this]
    simp only [marshalStep]
    split
    · exact ⟨_, rfl, hkeep _⟩
    · split
      · rename_i hc
        cases pv
        case strings L =>
          cases L with
          | nil =>
            rcases hc with hc | hc <;> simp [marshalable, hc] at h
          | cons s rest =>
            simp only []
            split
            · exact ⟨_, rfl, hkeep _⟩
            · exact ⟨_, rfl, hkeep _⟩
        all_goals (rcases hc with hc | hc <;> simp [marshalable, hc] at h)
      · split
        · exact ⟨_, rfl, hkeep _⟩
        · split
          · exact ⟨_, rfl, hkeep _⟩
          · split
            · exact ⟨_, rfl, hkeep _⟩
            · split
              · exact ⟨_, rfl, hkeep _⟩
              · exact ⟨_, rfl, fun _ _ => rfl⟩
  all_goals simp [marshalable] at h

/-- On entries `MarshalJSON` can take, the loop returns, and it leaves the map
as it was under every key that none of the entries has. -/
theorem marshalLoop_marshalable (k : GoString) (ps : MapSlice) :
    ∀ m : List (GoString × Any), (∀ q ∈ ps, marshalable q = true) →
      ∃ m', marshalLoop m ps = .ret m' ∧
        ((∀ q ∈ ps, q.Key.eqString k = false) → m'.lookup k = m.lookup k) := by
  induction ps with
  | nil => intro m _; exact ⟨m, rfl, fun _ => rfl⟩
  | cons p rest ih =>
    intro m hok
    obtain ⟨m₁, h₁, hk₁⟩ := marshalStep_marshalable m p (hok p (List.mem_cons_self _ _))
    obtain ⟨m₂, h₂, hk₂⟩ := ih m₁ (fun q hq => hok q (List.mem_cons_of_mem _ hq))
    refine ⟨m₂, by simp only [marshalLoop, h₁, h₂], fun hno => ?_⟩
    rw [hk₂ (fun q hq => hno q (List.mem_cons_of_mem _ hq)),
      hk₁ k (hno p (List.mem_cons_self _ _))]

theorem marshalLoop_append (xs ys : MapSlice) :
    ∀ m : List (GoString × Any), marshalLoop m (xs ++ ys) =
      match marshalLoop m xs with
      | .panic e => .panic e
      | .ret m' => marshalLoop m' ys := by
  induction xs with
  | nil => intro m; rfl
  | cons p rest ih =>
    intro m
    simp only [List.cons_append, marshalLoop]
    cases marshalStep m p with
    | panic e => rfl
    | ret m₁ => exact ih m₁

/-- The member `MarshalJSON` writes under a key: the value its loop assigned
for the last entry with that key, marshalled. -/
theorem MarshalJSON_member (d : Document) (key : GoString) (v : Any) (p : MapItem)
    (pre post : MapSlice) (hd : d.properties = pre ++ p :: post)
    (hstep : ∀ m, marshalStep m p = .ret (mapAssign m key v))
    (hlast : ∀ q ∈ post, q.Key.eqString key = false)
    (hok : ∀ q ∈ pre ++ post, marshalable q = true) :
    ∃ j, d.MarshalJSON = .ret (j, none) ∧ j.member key = some (jsonMarshal v) := by
  obtain ⟨m₁, h₁, _⟩ := marshalLoop_marshalable key pre []
    (fun q hq => hok q (List.mem_append_left _ hq))
  obtain ⟨m₂, h₂, hk₂⟩ := marshalLoop_marshalable key post (mapAssign m₁ key v)
    (fun q hq => hok q (List.mem_append_right _ hq))
  have hloop : marshalLoop [] d.properties = .ret m₂ := by
    rw [hd, marshalLoop_append, h₁]
    simp only [marshalLoop, hstep, h₂]
  refine ⟨jsonMarshal (.map m₂), by simp only [Document.MarshalJSON, hloop], ?_⟩
  rw [member_jsonMarshal_map, hk₂ hlast, lookup_mapAssign, if_pos rfl]
  rfl

/-- Reading of `Get` on a document whose first entry under the key is known. -/
theorem Get_first (d : Document) (key : GoString) (v : Any) (pre post : MapSlice)
    (hd : d.properties = pre ++ ⟨.str key, v⟩ :: post)
    (hpre : ∀ q ∈ pre, q.Key.eqString key = false) : d.Get key = v := by
  simp only [Document.Get, hd]
  clear hd
  induction pre with
  | nil => simp [MapSlice.Get, Any.eqString]
  | cons q rest ih =>
    have hq := hpre q (List.mem_cons_self _ _)
    simp only [List.cons_append, MapSlice.Get, hq]
    exact ih (fun q hq => hpre q (List.mem_cons_of_mem _ hq))

/-- The base64 of the model on the three padding cases. -/
theorem base64_samples :
    base64 (gs "Man") = gs "TWFu" ∧ base64 (gs "Ma") = gs "TWE=" ∧ base64 (gs "M") = gs "TQ==" ∧
    base64 (gs "light work.") = gs "bGlnaHQgd29yay4=" := by
  decide

/-- `MarshalJSON` on the document of `tstVerificationRelationWithEmbedded`:
the keys come out sorted, the embedded record with its fields in declaration
order. -/
theorem MarshalJSON_embeddedDocument :
    ∃ ms, embeddedDocument.MarshalJSON = .ret (.object ms, none) ∧
      ms.map Prod.fst = [contextKey, authenticationKey, subjectKey, verificationMethodKey] := by
  exact ⟨_, rfl, rfl⟩

/-! ## Claims on MarshalJSON -/

/-- C18, the claim as stated fails: a document may keep `@context` twice.
The stored value, the one `Get` and `Context` read, is the first; `MarshalJSON`
writes the last. Here the stored list has exactly one element and the member
written is an array of two. -/
theorem C18_later_entry_is_written :
    twoContextsDocument.Context = .strings [gs "https://www.w3.org/ns/did/v1"] ∧
    twoContextsDocument.MarshalJSON =
      .ret (.object [(contextKey, .array [.string (gs "https://www.w3.org/ns/did/v1"),
        .string (gs "https://w3id.org/security/suites/jws-2020/v1")])], none) ∧
    builder.Build ⟨[⟨.str contextKey, .strings [gs "https://www.w3.org/ns/did/v1"]⟩,
      ⟨.str contextKey, .strings [gs "https://www.w3.org/ns/did/v1",
        gs "https://w3id.org/security/suites/jws-2020/v1"]⟩]⟩ = (twoContextsDocument, none) := by
  refine ⟨rfl, rfl, rfl⟩

/-- C18, as amended. Take a document in which every entry has a string key
and every `@context` and `controller` entry holds a list of strings with at
least one element, and let `L` be the list of its last entry under `@context`
(respectively `controller`). Then `MarshalJSON` returns without error, and
under that key it writes the bare string when `L` has exactly one element and
the array of all elements of `L` when it has two or more. When no earlier
entry has the key, `L` is the stored value that `Get` reads. -/
theorem C18_singleton_normalization (d : Document) (key : GoString) (pre post : MapSlice)
    (L : List GoString) (hkey : key = contextKey ∨ key = controllerKey)
    (hd : d.properties = pre ++ ⟨.str key, .strings L⟩ :: post)
    (hlast : ∀ q ∈ post, q.Key.eqString key = false)
    (hok : ∀ q ∈ pre ++ post, marshalable q = true) :
    (∀ s, L = [s] →
      ∃ j, d.MarshalJSON = .ret (j, none) ∧ j.member key = some (.string s)) ∧
    (2 ≤ L.length →
      ∃ j, d.MarshalJSON = .ret (j, none) ∧ j.member key = some (.array (L.map .string))) ∧
    ((∀ q ∈ pre, q.Key.eqString key = false) → d.Get key = .strings L) := by
  have hns : key ≠ subjectKey := by rcases hkey with h | h <;> rw [h] <;> decide
  refine ⟨fun s hs => ?_, fun h2 => ?_, Get_first d key _ pre post hd⟩
  · subst hs
    exact MarshalJSON_member d key (.str s) _ pre post hd
      (fun m => by simp [marshalStep, hns, hkey]) hlast hok
  · obtain ⟨j, hj, hm⟩ := MarshalJSON_member d key (.strings L) _ pre post hd
      (fun m => by
        have : L.length > 1 := h2
        simp [marshalStep, hns, hkey, this]) hlast hok
    refine ⟨j, hj, ?_⟩
    rw [hm]
    cases L with
    | nil => simp at h2
    | cons a rest => simp [jsonMarshal]

/-- C18 at a document with a `@context` of one element. -/
theorem C18_witness :
    ∃ j, serializedDocument.MarshalJSON = .ret (j, none) ∧
      j.member contextKey = some (.string (gs "https://www.w3.org/ns/did/v1")) :=
  (C18_singleton_normalization serializedDocument contextKey []
    [⟨.str subjectKey, .str (gs "did:example:123456789abcdefghi")⟩,
      ⟨.str controllerKey, .strings [gs "did:example:bcehfew7h32f32h7af3",
        gs "did:example:123456789abcdefghi"]⟩]
    [gs "https://www.w3.org/ns/did/v1"] (Or.inl rfl) rfl (by decide) (by decide)).1 _ rfl

/-- C19, the code at the empty list. `Builder.Context` on a null source and on
an empty list, and `Builder.Controller` on an empty list of strings, record an
entry holding the empty list, and `Build` returns the document without error.
On that document `MarshalJSON` does not return: the list is not longer than
one element, so the code takes `value[0]`, and the index is out of range. -/
theorem C19_empty_list_panics :
    NewBuilder.Context .null = .ret ⟨[⟨.str contextKey, .strings []⟩]⟩ ∧
    NewBuilder.Context (.list []) = .ret ⟨[⟨.str contextKey, .strings []⟩]⟩ ∧
    NewBuilder.Controller (.strings []) = .ret ⟨[⟨.str controllerKey, .strings []⟩]⟩ ∧
    builder.Build ⟨[⟨.str contextKey, .strings []⟩]⟩ =
      (⟨[⟨.str contextKey, .strings []⟩]⟩, none) ∧
    builder.Build ⟨[⟨.str controllerKey, .strings []⟩]⟩ =
      (⟨[⟨.str controllerKey, .strings []⟩]⟩, none) ∧
    Document.MarshalJSON ⟨[⟨.str contextKey, .strings []⟩]⟩ = .panic none ∧
    Document.MarshalJSON ⟨[⟨.str controllerKey, .strings []⟩]⟩ = .panic none := by
  refine ⟨?_, ?_, ?_, Build_singleton _ _, Build_singleton _ _, rfl, rfl⟩
  · exact encodeProperty_ok NewBuilder .strings contextKey _ _ (encode_null .strings _)
  · have h : encode (some (.strings, reflectNew .strings)) (.list []) =
        .ret (.strings [], none) := by
      rw [encode_list_collect .strings .string [] [] rfl rfl (fun i hi => by simp at hi)]
      rfl
    exact encodeProperty_ok NewBuilder .strings contextKey _ _ h
  · exact encodeProperty_ok NewBuilder .strings controllerKey _ _ (encode_strings [])

/-- C20, the claim as stated fails: a stored `alsoKnownAs` list of exactly one
element is written as an array of one element, not as the bare string. -/
theorem C20_single_alias_is_written_as_array :
    oneAliasDocument.AlsoKnownAs = .strings [gs "https://example.com/alice"] ∧
    oneAliasDocument.MarshalJSON =
      .ret (.object [(alsoKnownAsKey, .array [.string (gs "https://example.com/alice")]),
        (subjectKey, .string (gs "did:example:123456789abcdefghi"))], none) ∧
    (jsonMarshal (.map [(subjectKey, .str (gs "did:example:123456789abcdefghi")),
      (alsoKnownAsKey, .strings [gs "https://example.com/alice"])])).member alsoKnownAsKey ≠
        some (.string (gs "https://example.com/alice")) := by
  refine ⟨rfl, rfl, ?_⟩
  rw [member_jsonMarshal_map]
  intro h
  cases h

/-- C20, as amended. Take a document in which every entry has a string key
and every `@context` and `controller` entry holds a list of strings with at
least one element, and let `L`, of one or more elements, be the list of its
last entry under `alsoKnownAs`. Then `MarshalJSON` returns without error and
writes `alsoKnownAs` as the array of the elements of `L`, also when `L` has
exactly one element. When no earlier entry has the key, `L` is the stored
value that `Get` reads. -/
theorem C20_also_known_as_is_written_as_array (d : Document) (pre post : MapSlice)
    (L : List GoString) (hL : L ≠ [])
    (hd : d.properties = pre ++ ⟨.str alsoKnownAsKey, .strings L⟩ :: post)
    (hlast : ∀ q ∈ post, q.Key.eqString alsoKnownAsKey = false)
    (hok : ∀ q ∈ pre ++ post, marshalable q = true) :
    (∃ j, d.MarshalJSON = .ret (j, none) ∧
      j.member alsoKnownAsKey = some (.array (L.map .string))) ∧
    ((∀ q ∈ pre, q.Key.eqString alsoKnownAsKey = false) →
      d.AlsoKnownAs = .strings L) := by
  refine ⟨?_, Get_first d alsoKnownAsKey _ pre post hd⟩
  obtain ⟨j, hj, hm⟩ := MarshalJSON_member d alsoKnownAsKey (.strings L) _ pre post hd
    (fun m => by
      simp only [marshalStep]
      rw [if_neg (by decide), if_neg (by decide)]
      simp only [if_true]) hlast hok
  refine ⟨j, hj, ?_⟩
  rw [hm]
  cases L with
  | nil => exact absurd rfl hL
  | cons a rest => simp [jsonMarshal]

/-- C20 at a document whose `alsoKnownAs` list has one element. -/
theorem C20_witness :
    ∃ j, oneAliasDocument.MarshalJSON = .ret (j, none) ∧
      j.member alsoKnownAsKey = some (.array [.string (gs "https://example.com/alice")]) :=
  (C20_also_known_as_is_written_as_array oneAliasDocument
    [⟨.str subjectKey, .str (gs "did:example:123456789abcdefghi")⟩] []
    [gs "https://example.com/alice"] (by simp) rfl (by simp) (by decide)).1

/-! ## Claims on null, byte sequences and list lengths -/

/-- C30. `CustomProperty(k, null)` records nothing: the builder's pairs are
unchanged, so the document built has no entry for `k` unless an earlier call
recorded one, and the document of `NewBuilder().CustomProperty(k, null)` has
no entry at all; in `NewBuilder().CustomProperty(k, null).CustomProperty(k, v).Build()`
the entry read by `Get(k)` is `v`. -/
theorem C30_null_custom_property_records_nothing (k : GoString) :
    (∀ b : builder, b.CustomProperty k .null = b) ∧
    (NewBuilder.CustomProperty k .null).Build = (⟨[]⟩, none) ∧
    (∀ k' : GoString, (NewBuilder.CustomProperty k .null).Build.1.Get k' = .null) ∧
    (∀ v : Any, ((NewBuilder.CustomProperty k .null).CustomProperty k v).Build =
      ((NewBuilder.CustomProperty k v).Build)) ∧
    (∀ v : Any, ((NewBuilder.CustomProperty k .null).CustomProperty k v).Build.1.Get k = v) := by
  have h0 : ∀ b : builder, b.CustomProperty k .null = b := fun b => rfl
  refine ⟨h0, rfl, fun k' => rfl, fun v => by rw [h0], fun v => ?_⟩
  rw [h0]
  cases v <;>
    simp [builder.CustomProperty, builder.property, Any.notNil, NewBuilder, builder.Build,
      buildLoop, Document.Set, NewDocument, Document.Get, MapSlice.Get, Any.eqString]

/-- A byte sequence given to a list-of-string destination. -/
theorem encode_bytes (bs : List UInt8) :
    encode (some (.strings, reflectNew .strings)) (.bytes bs) = .ret (.strings [bs], none) := by
  rw [encode_notNil .strings _ (.bytes bs) rfl, valueEncoder_slice _ .strings _ rfl,
    arrayEncoder_bytes]
  rfl

/-- C24. A byte sequence `bs` coerced into a list-of-string destination gives
the list of one element, the string with the bytes of `bs`: it is not split
into one element per byte. `Builder.Context`, `AlsoKnownAs` and `Controller`
record that list, and `Context()` on the built document returns it. -/
theorem C24_bytes_become_one_string (bs : List UInt8) :
    encode (some (.strings, reflectNew .strings)) (.bytes bs) = .ret (.strings [bs], none) ∧
    (∀ b : builder,
      b.Context (.bytes bs) =
        .ret {properties := b.properties ++ [⟨.str contextKey, .strings [bs]⟩]} ∧
      b.AlsoKnownAs (.bytes bs) =
        .ret {properties := b.properties ++ [⟨.str alsoKnownAsKey, .strings [bs]⟩]} ∧
      b.Controller (.bytes bs) =
        .ret {properties := b.properties ++ [⟨.str controllerKey, .strings [bs]⟩]}) ∧
    builder.Build ⟨[⟨.str contextKey, .strings [bs]⟩]⟩ =
      (⟨[⟨.str contextKey, .strings [bs]⟩]⟩, none) ∧
    Document.Context ⟨[⟨.str contextKey, .strings [bs]⟩]⟩ = .strings [bs] := by
  refine ⟨encode_bytes bs, fun b => ⟨?_, ?_, ?_⟩, Build_singleton _ _, Get_singleton _ _⟩ <;>
    exact encodeProperty_ok b .strings _ _ _ (encode_bytes bs)

/-- The type switch that ends `GetAssociatedVerificationMethod` hands out a
list with no error exactly when the list is not empty. -/
theorem respond_cases (rv : Any) :
    (∃ L, L ≠ [] ∧ respond rv = (L, none)) ∨ (∃ err, respond rv = ([], some err)) := by
  cases rv
  case vms resp =>
    cases resp with
    | nil => exact .inr ⟨errNotFound, rfl⟩
    | cons r rest => exact .inl ⟨r :: rest, by simp, by simp [respond]⟩
  all_goals exact .inr ⟨errInvalidType, rfl⟩

/-- C27. Whenever `GetAssociatedVerificationMethod` returns, it returns either
a list of at least one element with no error, or the empty list with an error:
a successful result is never empty and a failed one is never partial. Both
occur: the document of `tstVerificationRelationWithEmbedded` gives two records
for `authentication`, and a document with no entry for the purpose gives
`errNotFound`. (The call can also end in a panic, and then returns nothing.) -/
theorem C27_result_is_non_empty_iff_no_error :
    (∀ (d : Document) (purpose : ProofPurpose),
      (∃ e, GetAssociatedVerificationMethod d purpose = .panic e) ∨
      (∃ L, L ≠ [] ∧ GetAssociatedVerificationMethod d purpose = .ret (L, none)) ∨
      (∃ err, GetAssociatedVerificationMethod d purpose = .ret ([], some err))) ∧
    (∀ (d : Document) (purpose : ProofPurpose) (L : List VerificationMethod)
        (err : Option GoError),
      GetAssociatedVerificationMethod d purpose = .ret (L, err) → (L ≠ [] ↔ err = none)) ∧
    GetAssociatedVerificationMethod embeddedDocument Authentication =
      .ret ([key1, embeddedKey], none) ∧
    (∀ purpose : ProofPurpose,
      GetAssociatedVerificationMethod NewDocument purpose = .ret ([], some errNotFound)) := by
  have h1 : ∀ (d : Document) (purpose : ProofPurpose),
      (∃ e, GetAssociatedVerificationMethod d purpose = .panic e) ∨
      (∃ L, L ≠ [] ∧ GetAssociatedVerificationMethod d purpose = .ret (L, none)) ∨
      (∃ err, GetAssociatedVerificationMethod d purpose = .ret ([], some err)) := by
    intro d purpose
    rw [GetAssociatedVerificationMethod_eq]
    split
    · cases addAll d (ValueOf (d.Get purpose.String)).elems (reflectNew .vms) with
      | panic e => exact .inl ⟨e, rfl⟩
      | ret p =>
        obtain ⟨rv, err⟩ := p
        cases err with
        | some err => exact .inr (.inr ⟨err, rfl⟩)
        | none =>
          rcases respond_cases rv with ⟨L, hL, h⟩ | ⟨err, h⟩
          · exact .inr (.inl ⟨L, hL, by simp only [h]⟩)
          · exact .inr (.inr ⟨err, by simp only [h]⟩)
    · exact .inr (.inr ⟨errNotFound, rfl⟩)
  refine ⟨h1, fun d purpose L err h => ?_, resolve_embedded_document, fun purpose => ?_⟩
  · rcases h1 d purpose with ⟨e, he⟩ | ⟨L', hL', he⟩ | ⟨err', he⟩
    · rw [he] at h; cases h
    · rw [he] at h; cases h; simp [hL']
    · rw [he] at h; cases h; simp
  · rw [GetAssociatedVerificationMethod_eq]
    rfl

/-- A nil element given to an interface slot: `interfaceEncoder` unwraps the
element and calls `Set` with the zero Value, which panics. -/
theorem valueEncoder_iface_null :
    valueEncoder (reflectNew .iface) .iface (.iface .null) = .panic none := by
  rw [valueEncoder_iface, interfaceEncoder_iface]
  exact interfaceEncoder_invalid _

/-- A list whose first element makes the coercion panic. -/
theorem encode_list_panics (dt et : GoType) (x : Any) (rest : List Any) (e : Option GoError)
    (he : dt.Elem = some et)
    (hx : valueEncoder (reflectNew et) et (.iface x) = .panic e) :
    encode (some (dt, reflectNew dt)) (.list (x :: rest)) = .panic e := by
  have hk : dt.Kind = .Slice := by cases dt <;> simp_all [GoType.Elem, GoType.Kind]
  rw [encode_notNil dt _ (.list (x :: rest)) rfl, valueEncoder_slice _ dt _ hk,
    arrayEncoder_slice _ dt et (.concrete (.list (x :: rest))) he rfl
      (by simp [RValue.Type, Any.Type, GoType.Elem, GoType.Kind]),
    arrayLoop_step _ dt et _ 0 he (by simp [RValue.Len, Any.Len])]
  simp only [RValue.Index, List.getElem?_cons_zero]
  rw [hx]

/-- C28, the code at a list with a nil element. Coercing `[nil]` into a list
of VerificationRelation, and coercing a list holding a map whose
`publicKeyJwk` is nil into a list of VerificationMethod, does not yield a
list of one element: the call panics, in `encode` and in the builder methods
alike. -/
theorem C28_nil_element_panics :
    encode (some (.relations, reflectNew .relations)) (.list [.null]) = .panic none ∧
    encode (some (.relations, reflectNew .relations))
      (.list [.null, .str (gs "did:example:123#key-1")]) = .panic none ∧
    encode (some (.vms, reflectNew .vms)) (.list [.map nullKeyMap]) = .panic none ∧
    NewBuilder.Authentication (.list [.null]) = .panic none := by
  have h1 := encode_list_panics .relations .iface .null [] none rfl valueEncoder_iface_null
  have h2 := encode_list_panics .relations .iface .null [.str (gs "did:example:123#key-1")]
    none rfl valueEncoder_iface_null
  have h3 := encode_list_panics .vms .vm (.map nullKeyMap) [] none rfl (by
    rw [valueEncoder_struct _ .vm _ rfl, structEncoder_iface]
    exact null_key_material_panics.1)
  refine ⟨h1, h2, h3, ?_⟩
  simp only [builder.Authentication, builder.verificationRelationArray, builder.encodeProperty,
    h1]

theorem reflectAppend_Len (dv x dv' : Any) (h : reflectAppend dv x = .ret dv') :
    dv'.Len = dv.Len + 1 := by
  cases dv <;> cases x <;> simp [reflectAppend] at h <;> subst h <;> simp [Any.Len]

/-- Each round of the element loop of `arrayEncoder` that returns appends one
element. -/
theorem arrayLoop_Len (dt : GoType) (sv : RValue) :
    ∀ (n : Nat) (dv : Any) (i : Nat), sv.Len - i = n →
      ∀ (r : Any) (err : Option GoError), arrayLoop dv dt sv i = .ret (r, err) →
        r.Len = dv.Len + n := by
  intro n
  induction n with
  | zero =>
    intro dv i hn r err h
    rw [arrayLoop_end _ _ _ _ (by omega)] at h
    cases h; rfl
  | succ n ih =>
    intro dv i hn r err h
    have hi : i < sv.Len := by omega
    cases he : dt.Elem with
    | none =>
      rw [arrayLoop] at h
      simp [hi, he] at h
    | some et =>
      rw [arrayLoop_step _ dt et sv i he hi] at h
      cases hx : valueEncoder (reflectNew et) et (sv.Index i) with
      | panic e => rw [hx] at h; cases h
      | ret p =>
        obtain ⟨xv, e⟩ := p
        rw [hx] at h
        simp only [] at h
        cases ha : reflectAppend dv xv with
        | panic e' => rw [ha] at h; cases h
        | ret dv₁ =>
          rw [ha] at h
          rw [ih dv₁ (i + 1) (by omega) r err h, reflectAppend_Len dv xv dv₁ ha]
          omega

/-- C28 where it holds: whenever the coercion of a list `L` into an empty
list destination returns, it returns no error and a list with exactly as many
elements as `L`. -/
theorem coercion_keeps_length (dt et : GoType) (L : List Any) (he : dt.Elem = some et)
    (r : Any) (err : Option GoError)
    (h : encode (some (dt, reflectNew dt)) (.list L) = .ret (r, err)) :
    r.Len = L.length ∧ err = none := by
  have hk : dt.Kind = .Slice := by cases dt <;> simp_all [GoType.Elem, GoType.Kind]
  rw [encode_notNil dt _ (.list L) rfl, valueEncoder_slice _ dt _ hk,
    arrayEncoder_slice _ dt et (.concrete (.list L)) he rfl
      (by simp [RValue.Type, Any.Type, GoType.Elem, GoType.Kind])] at h
  have h1 := arrayLoop_Len dt (.concrete (.list L)) _ (reflectNew dt) 0 rfl r err h
  have h2 := arrayLoop_no_error dt (.concrete (.list L)) _ (reflectNew dt) 0 rfl r err h
  refine ⟨?_, h2⟩
  rw [h1]
  cases dt <;> simp_all [GoType.Elem, reflectNew, Any.Len, RValue.Len]

/-! ## Claims on what MarshalJSON writes -/

/-- One round of the loop of `MarshalJSON` assigns under a well-known key or
not at all. -/
theorem marshalStep_extension (key : GoString) (hkey : key ∉ wellKnownKeys)
    (m m' : List (GoString × Any)) (p : MapItem) (h : marshalStep m p = .ret m') :
    m'.lookup key = m.lookup key := by
  simp only [wellKnownKeys, List.mem_cons, List.mem_singleton, List.not_mem_nil, or_false,
    not_or] at hkey
  obtain ⟨h1, h2, h3, h4, h5, h6, h7, h8, h9, h10, h11⟩ := hkey
  obtain ⟨pk, pv⟩ := p
  cases pk
  case str k =>
    simp only [marshalStep] at h
    have hassign : ∀ v, k ∈ wellKnownKeys → (mapAssign m k v).lookup key = m.lookup key := by
      intro v hk
      rw [lookup_mapAssign, if_neg]
      intro e
      subst e
      simp only [wellKnownKeys, List.mem_cons, List.mem_singleton, List.not_mem_nil,
        or_false] at hk
      rcases hk with e | e | e | e | e | e | e | e | e | e | e <;> contradiction
    split at h
    · rename_i hk; cases h; exact hassign _ (by subst hk; decide)
    · split at h
      · rename_i hk
        have hw : k ∈ wellKnownKeys := by rcases hk with e | e <;> subst e <;> decide
        cases pv
        case strings L =>
          simp only [] at h
          split at h
          · cases h; exact hassign _ hw
          · cases L with
            | nil => cases h
            | cons s rest => cases h; exact hassign _ hw
        all_goals cases h
      · split at h
        · rename_i hk; cases h; exact hassign _ (by subst hk; decide)
        · split at h
          · rename_i hk; cases h; exact hassign _ (by subst hk; decide)
          · split at h
            · rename_i hk
              cases h
              exact hassign _ (by rcases hk with e | e | e | e | e <;> subst e <;> decide)
            · split at h
              · rename_i hk; cases h; exact hassign _ (by subst hk; decide)
              · cases h; rfl
  all_goals (simp only [marshalStep] at h; cases h)

theorem marshalLoop_extension (key : GoString) (hkey : key ∉ wellKnownKeys) (ps : MapSlice) :
    ∀ m m' : List (GoString × Any), marshalLoop m ps = .ret m' →
      m'.lookup key = m.lookup key := by
  induction ps with
  | nil => intro m m' h; cases h; rfl
  | cons p rest ih =>
    intro m m' h
    simp only [marshalLoop] at h
    cases hs : marshalStep m p with
    | panic e => rw [hs] at h; cases h
    | ret m₁ =>
      rw [hs] at h
      rw [ih m₁ m' h, marshalStep_extension key hkey m m₁ p hs]

/-- No document has an extension property written by `MarshalJSON`: under a
key that is not one of the eleven well-known keys the output has no member. -/
theorem extension_key_is_never_written (d : Document) (key : GoString)
    (hkey : key ∉ wellKnownKeys) (j : Json) (err : Option GoError)
    (h : d.MarshalJSON = .ret (j, err)) : j.member key = none := by
  simp only [Document.MarshalJSON] at h
  cases hl : marshalLoop [] d.properties with
  | panic e => rw [hl] at h; cases h
  | ret m =>
    rw [hl] at h
    cases h
    rw [member_jsonMarshal_map, marshalLoop_extension key hkey _ _ _ hl]
    rfl

/-- C22, the code at a document with an extension property. The builder keeps
the pair and `Get` reads it back, but the output of `MarshalJSON` holds the
subject only: the `switch` of `MarshalJSON` has no case for a key that is not
well known, so the property `created` is not written. -/
theorem C22_extension_property_is_not_written :
    (builder.CustomProperty ⟨[⟨.str subjectKey, .str (gs "did:example:123456789abcdefghi")⟩]⟩
      (gs "created") (.str (gs "2023-01-01T00:00:00Z"))).Build = (extensionDocument, none) ∧
    extensionDocument.Get (gs "created") = .str (gs "2023-01-01T00:00:00Z") ∧
    extensionDocument.MarshalJSON =
      .ret (.object [(subjectKey, .string (gs "did:example:123456789abcdefghi"))], none) ∧
    (jsonMarshal (.map [(subjectKey, .str (gs "did:example:123456789abcdefghi"))])).member
      (gs "created") = none := by
  exact ⟨rfl, rfl, rfl, rfl⟩

/-! ## The order in which members are written -/

theorem uint8_eq_of_toNat (a b : UInt8) (h1 : ¬ a.toNat < b.toNat) (h2 : ¬ b.toNat < a.toNat) :
    a = b :=
  UInt8.ext (by omega)

theorem strLess_asymm : ∀ a b : GoString, strLess a b = true → strLess b a = false
  | [], [], h => by simp [strLess] at h
  | [], _ :: _, _ => by simp [strLess]
  | _ :: _, [], h => by simp [strLess] at h
  | a :: as, b :: bs, h => by
    simp only [strLess] at h ⊢
    by_cases h1 : a.toNat < b.toNat
    · have h2 : ¬ b.toNat < a.toNat := by omega
      simp [h1, h2]
    · by_cases h2 : b.toNat < a.toNat
      · simp [h1, h2] at h
      · simp only [h1, h2, if_false] at h ⊢
        exact strLess_asymm as bs h

theorem strLess_trans : ∀ a b c : GoString,
    strLess a b = true → strLess b c = true → strLess a c = true
  | [], [], _, h, _ => by simp [strLess] at h
  | [], _ :: _, [], _, h => by simp [strLess] at h
  | [], _ :: _, _ :: _, _, _ => by simp [strLess]
  | _ :: _, [], _, h, _ => by simp [strLess] at h
  | _ :: _, _ :: _, [], _, h => by simp [strLess] at h
  | a :: as, b :: bs, c :: cs, hab, hbc => by
    simp only [strLess] at hab hbc ⊢
    by_cases h1 : a.toNat < b.toNat
    · by_cases h2 : b.toNat < c.toNat
      · have : a.toNat < c.toNat := by omega
        simp [this]
      · by_cases h3 : c.toNat < b.toNat
        · simp [h2, h3] at hbc
        · have : a.toNat < c.toNat := by omega
          simp [this]
    · by_cases h1' : b.toNat < a.toNat
      · simp [h1, h1'] at hab
      · simp only [h1, h1', if_false] at hab
        by_cases h2 : b.toNat < c.toNat
        · have : a.toNat < c.toNat := by omega
          simp [this]
        · by_cases h3 : c.toNat < b.toNat
          · simp [h2, h3] at hbc
          · simp only [h2, h3, if_false] at hbc
            have e1 : ¬ a.toNat < c.toNat := by omega
            have e2 : ¬ c.toNat < a.toNat := by omega
            simp only [e1, e2, if_false]
            exact strLess_trans as bs cs hab hbc

theorem strLess_total : ∀ a b : GoString, a = b ∨ strLess a b = true ∨ strLess b a = true
  | [], [] => .inl rfl
  | [], _ :: _ => .inr (.inl (by simp [strLess]))
  | _ :: _, [] => .inr (.inr (by simp [strLess]))
  | a :: as, b :: bs => by
    simp only [strLess]
    by_cases h1 : a.toNat < b.toNat
    · exact .inr (.inl (by simp [h1]))
    · by_cases h2 : b.toNat < a.toNat
      · exact .inr (.inr (by simp [h2]))
      · have e := uint8_eq_of_toNat a b h1 h2
        subst e
        simp only [h1, if_false]
        rcases strLess_total as bs with h | h | h
        · exact .inl (by rw [h])
        · exact .inr (.inl h)
        · exact .inr (.inr h)
theorem insertMember_perm (p : GoString × Json) :
    ∀ l : List (GoString × Json), (insertMember p l).Perm (p :: l)
  | [] => List.Perm.refl _
  | q :: rest => by
    simp only [insertMember]
    split
    · exact ((insertMember_perm p rest).cons q).trans (List.Perm.swap p q rest)
    · exact List.Perm.refl _

theorem sortMembers_perm : ∀ l : List (GoString × Json), (sortMembers l).Perm l
  | [] => List.Perm.refl _
  | p :: rest => by
    have h : sortMembers (p :: rest) = insertMember p (sortMembers rest) := rfl
    rw [h]
    exact (insertMember_perm p _).trans ((sortMembers_perm rest).cons p)

/-- Inserting a member with a new key keeps the keys increasing. -/
theorem insertMember_increasing (p : GoString × Json) :
    ∀ l : List (GoString × Json), l.Pairwise (fun a b => strLess a.1 b.1 = true) →
      (∀ q ∈ l, q.1 ≠ p.1) →
      (insertMember p l).Pairwise (fun a b => strLess a.1 b.1 = true)
  | [], _, _ => by simp [insertMember]
  | q :: rest, hs, hp => by
    obtain ⟨hq, hrest⟩ := List.pairwise_cons.mp hs
    simp only [insertMember]
    split
    · rename_i hlt
      refine List.pairwise_cons.mpr ⟨fun r hr => ?_, insertMember_increasing p rest hrest
        (fun r hr => hp r (List.mem_cons_of_mem _ hr))⟩
      rcases List.mem_cons.mp ((insertMember_perm p rest).mem_iff.mp hr) with e | e
      · rw [e]; exact hlt
      · exact hq r e
    · rename_i hlt
      have hpq : strLess p.1 q.1 = true := by
        rcases strLess_total p.1 q.1 with e | e | e
        · exact absurd e.symm (hp q (List.mem_cons_self _ _))
        · exact e
        · exact absurd e hlt
      refine List.pairwise_cons.mpr ⟨fun r hr => ?_, hs⟩
      rcases List.mem_cons.mp hr with e | e
      · rw [e]; exact hpq
      · exact strLess_trans _ _ _ hpq (hq r e)

/-- Members with distinct keys are written with their keys increasing. -/
theorem sortMembers_increasing : ∀ l : List (GoString × Json), (l.map Prod.fst).Nodup →
    (sortMembers l).Pairwise (fun a b => strLess a.1 b.1 = true)
  | [], _ => by simp [sortMembers]
  | p :: rest, h => by
    have hs : sortMembers (p :: rest) = insertMember p (sortMembers rest) := rfl
    rw [hs]
    simp only [List.map_cons, List.nodup_cons] at h
    refine insertMember_increasing p _ (sortMembers_increasing rest h.2) (fun q hq e => ?_)
    have hq' : q ∈ rest := (sortMembers_perm rest).mem_iff.mp hq
    exact h.1 (by rw [← e]; exact List.mem_map_of_mem _ hq')

/-- Two lists of members with increasing keys that hold the same members are equal. -/
theorem increasing_unique (l₁ l₂ : List (GoString × Json)) (hp : l₁.Perm l₂)
    (h₁ : l₁.Pairwise (fun a b => strLess a.1 b.1 = true))
    (h₂ : l₂.Pairwise (fun a b => strLess a.1 b.1 = true)) : l₁ = l₂ := by
  haveI : IsAntisymm (GoString × Json) (fun a b => strLess a.1 b.1 = true) :=
    ⟨fun a b hab hba => by
      rw [strLess_asymm _ _ hab] at hba
      exact absurd hba (by decide)⟩
  exact List.eq_of_perm_of_sorted hp h₁ h₂

theorem increasing_nodup (l : List (GoString × Json))
    (h : l.Pairwise (fun a b => strLess a.1 b.1 = true)) : (l.map Prod.fst).Nodup := by
  rw [List.Nodup, List.pairwise_map]
  refine h.imp (fun {a b} hab e => ?_)
  rw [e, strLess_irrefl] at hab
  exact absurd hab (by decide)

theorem distinctKeys_keys_subset {α : Type} :
    ∀ (l : List (GoString × α)) (q : GoString × α), q ∈ distinctKeys l → q ∈ l
  | [], q, h => by simp [distinctKeys] at h
  | p :: rest, q, h => by
    simp only [distinctKeys, List.mem_cons, List.mem_filter] at h
    rcases h with e | ⟨h1, _⟩
    · exact e ▸ List.mem_cons_self _ _
    · exact List.mem_cons_of_mem _ (distinctKeys_keys_subset rest q h1)

theorem distinctKeys_nodup {α : Type} :
    ∀ l : List (GoString × α), ((distinctKeys l).map Prod.fst).Nodup
  | [] => by simp [distinctKeys]
  | p :: rest => by
    simp only [distinctKeys, List.map_cons, List.nodup_cons, List.mem_map, List.mem_filter,
      not_exists, not_and]
    refine ⟨fun q hq e => ?_, ?_⟩
    · simp [e] at hq
    · exact ((distinctKeys_nodup rest).sublist (List.Sublist.map _ (List.filter_sublist _)))

theorem distinctKeys_of_nodup {α : Type} :
    ∀ l : List (GoString × α), (l.map Prod.fst).Nodup → distinctKeys l = l
  | [], _ => rfl
  | p :: rest, h => by
    simp only [List.map_cons, List.nodup_cons] at h
    simp only [distinctKeys, distinctKeys_of_nodup rest h.2]
    congr 1
    rw [List.filter_eq_self]
    intro q hq
    simp only [bne_iff_ne, ne_eq]
    intro e
    exact h.1 (by rw [← e]; exact List.mem_map_of_mem _ hq)

theorem marshalEntries_eq_map (m : List (GoString × Any)) :
    marshalEntries m = m.map fun p => (p.1, jsonMarshal p.2) := by
  induction m with
  | nil => rfl
  | cons p rest ih =>
    obtain ⟨k, x⟩ := p
    simp only [marshalEntries, ih, List.map_cons]

theorem marshalList_eq_map (xs : List Any) : marshalList xs = xs.map jsonMarshal := by
  induction xs with
  | nil => rfl
  | cons x rest ih => simp only [marshalList, ih, List.map_cons]

theorem marshalRecords_eq_map (xs : List VerificationMethod) :
    marshalRecords xs = xs.map marshalRecord := by
  induction xs with
  | nil => rfl
  | cons x rest ih => simp only [marshalRecords, ih, List.map_cons]

/-- Go `json.Marshal` writes the members of a map with their keys increasing. -/
theorem jsonMarshal_map_increasing (m : List (GoString × Any)) :
    ∃ ms, jsonMarshal (.map m) = .object ms ∧
      ms.Pairwise (fun a b => strLess a.1 b.1 = true) :=
  ⟨sortMembers (distinctKeys (marshalEntries m)), by simp only [jsonMarshal],
    sortMembers_increasing _ (distinctKeys_nodup _)⟩

/-- Go `json.Marshal` writes the same bytes for two maps with the same entries. -/
theorem jsonMarshal_map_perm (m₁ m₂ : List (GoString × Any)) (hp : m₁.Perm m₂)
    (hn : (m₁.map Prod.fst).Nodup) : jsonMarshal (.map m₁) = jsonMarshal (.map m₂) := by
  have hn₂ : (m₂.map Prod.fst).Nodup := (hp.map Prod.fst).nodup_iff.mp hn
  have k₁ : ((marshalEntries m₁).map Prod.fst).Nodup := by
    simpa [marshalEntries_eq_map, Function.comp_def] using hn
  have k₂ : ((marshalEntries m₂).map Prod.fst).Nodup := by
    simpa [marshalEntries_eq_map, Function.comp_def] using hn₂
  simp only [jsonMarshal, distinctKeys_of_nodup _ k₁, distinctKeys_of_nodup _ k₂]
  congr 1
  refine increasing_unique _ _ ?_ (sortMembers_increasing _ k₁) (sortMembers_increasing _ k₂)
  refine (sortMembers_perm _).trans (List.Perm.trans ?_ (sortMembers_perm _).symm)
  rw [marshalEntries_eq_map, marshalEntries_eq_map]
  exact hp.map _

/-- One round of the loop of `MarshalJSON` on an entry with a string key that
it can take. -/
theorem marshalStep_written (m : List (GoString × Any)) (e : GoString × Any)
    (hm : marshalable ⟨.str e.1, e.2⟩ = true) :
    marshalStep m ⟨.str e.1, e.2⟩ =
      .ret (match writtenEntry e with
        | some (k, v) => mapAssign m k v
        | none => m) := by
  obtain ⟨key, v⟩ := e
  simp only [marshalStep, writtenEntry, writtenValue]
  by_cases h1 : key = subjectKey
  · subst h1
    simp only [if_true]
    rw [if_pos (by decide), if_neg (by decide)]
  · simp only [h1, if_false]
    by_cases h2 : key = contextKey ∨ key = controllerKey
    · have hw : key ∈ wellKnownKeys := by rcases h2 with e | e <;> subst e <;> decide
      simp only [h2, if_true, hw]
      cases v with
      | strings L =>
        cases L with
        | nil => rcases h2 with e | e <;> simp [marshalable, e] at hm
        | cons s rest =>
          cases rest with
          | nil => simp
          | cons t rest' => simp
      | _ => rcases h2 with e | e <;> simp [marshalable, e] at hm
    · simp only [h2, if_false]
      have h2' := not_or.mp h2
      by_cases hw : key ∈ wellKnownKeys
      · simp only [hw, if_true]
        simp only [wellKnownKeys, List.mem_cons, List.mem_singleton, List.not_mem_nil,
          or_false] at hw
        rcases hw with e | e | e | e | e | e | e | e | e | e | e
        · exact absurd e h1
        · exact absurd e h2'.1
        · exact absurd e h2'.2
        all_goals (subst e; rfl)
      · simp only [hw, if_false]
        simp only [wellKnownKeys, List.mem_cons, List.mem_singleton, List.not_mem_nil,
          or_false, not_or] at hw
        obtain ⟨_, _, _, k4, k5, k6, k7, k8, k9, k10, k11⟩ := hw
        simp [k4, k5, k6, k7, k8, k9, k10, k11]

theorem mapAssign_new (m : List (GoString × Any)) (k : GoString) (v : Any)
    (h : k ∉ m.map Prod.fst) : mapAssign m k v = m ++ [(k, v)] := by
  induction m with
  | nil => rfl
  | cons p rest ih =>
    simp only [List.map_cons, List.mem_cons, not_or] at h
    have hne : ¬ p.1 = k := fun e => h.1 e.symm
    simp only [mapAssign, hne, if_false, ih h.2, List.cons_append]

theorem writtenEntry_key (e p : GoString × Any) (h : writtenEntry e = some p) : p.1 = e.1 := by
  simp only [writtenEntry] at h
  split at h
  · cases h; rfl
  · cases h

/-- The map the loop of `MarshalJSON` builds from entries with distinct string
keys: what it assigns for each, in order. -/
theorem marshalLoop_documentOf : ∀ (es : List (GoString × Any)) (m : List (GoString × Any)),
    (es.map Prod.fst).Nodup → (∀ e ∈ es, e.1 ∉ m.map Prod.fst) →
    (∀ e ∈ es, marshalable ⟨.str e.1, e.2⟩ = true) →
    marshalLoop m (documentOf es).properties = .ret (m ++ es.filterMap writtenEntry)
  | [], m, _, _, _ => by simp [documentOf, marshalLoop]
  | e :: rest, m, hn, hm, hok => by
    simp only [List.map_cons, List.nodup_cons] at hn
    have ih := fun m' h => marshalLoop_documentOf rest m' hn.2 h
      (fun e' he' => hok e' (List.mem_cons_of_mem _ he'))
    simp only [documentOf, List.map_cons, marshalLoop] at ih ⊢
    rw [marshalStep_written m e (hok e (List.mem_cons_self _ _))]
    cases hw : writtenEntry e with
    | none =>
      simp only [List.filterMap_cons, hw]
      exact ih m (fun e' he' => hm e' (List.mem_cons_of_mem _ he'))
    | some p =>
      obtain ⟨k, v⟩ := p
      have hk : k = e.1 := writtenEntry_key e (k, v) hw
      simp only [List.filterMap_cons, hw]
      rw [mapAssign_new m k v (by rw [hk]; exact hm e (List.mem_cons_self _ _)),
        ih (m ++ [(k, v)]) (fun e' he' => by
          simp only [List.map_append, List.map_cons, List.map_nil, List.mem_append,
            List.mem_singleton, not_or]
          refine ⟨hm e' (List.mem_cons_of_mem _ he'), fun h => hn.1 ?_⟩
          rw [← hk, ← h]
          exact List.mem_map_of_mem _ he')]
      simp

theorem filterMap_writtenEntry_keys (es : List (GoString × Any)) (hn : (es.map Prod.fst).Nodup) :
    ((es.filterMap writtenEntry).map Prod.fst).Nodup := by
  induction es with
  | nil => simp
  | cons e rest ih =>
    simp only [List.map_cons, List.nodup_cons] at hn
    cases hw : writtenEntry e with
    | none => simpa only [List.filterMap_cons, hw] using ih hn.2
    | some p =>
      simp only [List.filterMap_cons, hw, List.map_cons, List.nodup_cons]
      refine ⟨fun h => hn.1 ?_, ih hn.2⟩
      obtain ⟨q, hq, hqe⟩ := List.mem_map.mp h
      obtain ⟨e', he', hwe'⟩ := List.mem_filterMap.mp hq
      rw [← writtenEntry_key e p hw, ← hqe, writtenEntry_key e' q hwe']
      exact List.mem_map_of_mem _ he'

/-- `MarshalJSON` on a document whose entries have distinct string keys. -/
theorem MarshalJSON_documentOf (es : List (GoString × Any)) (hn : (es.map Prod.fst).Nodup)
    (hok : ∀ e ∈ es, marshalable ⟨.str e.1, e.2⟩ = true) :
    (documentOf es).MarshalJSON = .ret (jsonMarshal (.map (es.filterMap writtenEntry)), none) := by
  simp only [Document.MarshalJSON, marshalLoop_documentOf es [] hn (fun _ _ => by simp) hok,
    List.nil_append]

/-- Whenever `MarshalJSON` returns, it returns no error and an object whose
members have increasing keys. -/
theorem MarshalJSON_object (d : Document) (j : Json) (err : Option GoError)
    (h : d.MarshalJSON = .ret (j, err)) :
    err = none ∧ ∃ ms, j = .object ms ∧ ms.Pairwise (fun a b => strLess a.1 b.1 = true) := by
  simp only [Document.MarshalJSON] at h
  cases hl : marshalLoop [] d.properties with
  | panic e => rw [hl] at h; cases h
  | ret m =>
    rw [hl] at h
    cases h
    obtain ⟨ms, h1, h2⟩ := jsonMarshal_map_increasing m
    exact ⟨rfl, ms, h1, h2⟩

/-- C26, the claim as stated fails: a document with its subject set first and
its `@context` second is written with `@context` first, exactly as the
document with the two entries set in the other order. -/
theorem C26_insertion_order_is_not_kept :
    subjectFirstDocument.MarshalJSON =
      .ret (.object [(contextKey, .array [.string (gs "https://www.w3.org/ns/did/v1"),
          .string (gs "https://w3id.org/security/suites/jws-2020/v1")]),
        (subjectKey, .string (gs "did:example:123456789abcdefghi"))], none) ∧
    contextFirstDocument.MarshalJSON = subjectFirstDocument.MarshalJSON :=
  ⟨rfl, rfl⟩

/-- C26, as amended. Whenever `MarshalJSON` returns, the properties are
written in increasing bytewise order of their keys, whatever the insertion
order. Two documents that hold the same entries, with distinct string keys
and every `@context` and `controller` value a list of at least one string,
inserted in different orders, serialize to the same output. -/
theorem C26_members_are_written_in_key_order :
    (∀ (d : Document) (j : Json) (err : Option GoError), d.MarshalJSON = .ret (j, err) →
      ∃ ms, j = .object ms ∧ ms.Pairwise (fun a b => strLess a.1 b.1 = true)) ∧
    (∀ es₁ es₂ : List (GoString × Any), es₁.Perm es₂ → (es₁.map Prod.fst).Nodup →
      (∀ e ∈ es₁, marshalable ⟨.str e.1, e.2⟩ = true) →
      ∃ j, (documentOf es₁).MarshalJSON = .ret (j, none) ∧
        (documentOf es₂).MarshalJSON = .ret (j, none)) := by
  refine ⟨fun d j err h => (MarshalJSON_object d j err h).2, fun es₁ es₂ hp hn hok => ?_⟩
  have hn₂ : (es₂.map Prod.fst).Nodup := (hp.map Prod.fst).nodup_iff.mp hn
  have hok₂ : ∀ e ∈ es₂, marshalable ⟨.str e.1, e.2⟩ = true :=
    fun e he => hok e (hp.mem_iff.mpr he)
  refine ⟨_, MarshalJSON_documentOf es₁ hn hok, ?_⟩
  rw [MarshalJSON_documentOf es₂ hn₂ hok₂,
    jsonMarshal_map_perm _ _ (hp.filterMap writtenEntry) (filterMap_writtenEntry_keys es₁ hn)]

/-- C26 at the subject and `@context` of `tstVerificationRelationWithEmbedded`,
set in the two orders. -/
theorem C26_witness :
    ∃ j,
      (documentOf [(subjectKey, .str (gs "did:example:123456789abcdefghi")),
        (contextKey, .strings [gs "https://www.w3.org/ns/did/v1",
          gs "https://w3id.org/security/suites/jws-2020/v1"])]).MarshalJSON = .ret (j, none) ∧
      (documentOf [(contextKey, .strings [gs "https://www.w3.org/ns/did/v1",
          gs "https://w3id.org/security/suites/jws-2020/v1"]),
        (subjectKey, .str (gs "did:example:123456789abcdefghi"))]).MarshalJSON = .ret (j, none) :=
  C26_members_are_written_in_key_order.2 _ _ (List.Perm.swap _ _ _) (by decide) (by decide)

/-- C25, the claim as stated fails: after `Set("id", v1)` and `Set("id", v2)`
the output of `MarshalJSON` has one member, holding `v2`; `v1`, the value
`Get` reads, is not written. -/
theorem C25_only_the_later_value_is_written :
    twiceSetDocument.Get subjectKey = .str (gs "did:example:first") ∧
    twiceSetDocument.MarshalJSON =
      .ret (.object [(subjectKey, .string (gs "did:example:second"))], none) :=
  ⟨rfl, rfl⟩

/-- C25, as amended. Take a document in which every entry has a string key
and every `@context` and `controller` entry holds a list of at least one
string, and in which a well-known key has been set with `v1` first and with
`v2` last. Then `Get` returns `v1`, and `MarshalJSON` returns an object whose
members have distinct keys, the one under the key holding what is written for
`v2`. -/
theorem C25_first_is_read_last_is_written (d : Document) (key : GoString) (v1 v2 : Any)
    (pre mid post : MapSlice) (hkey : key ∈ wellKnownKeys)
    (hd : d.properties = pre ++ ⟨.str key, v1⟩ :: (mid ++ ⟨.str key, v2⟩ :: post))
    (hpre : ∀ q ∈ pre, q.Key.eqString key = false)
    (hpost : ∀ q ∈ post, q.Key.eqString key = false)
    (hok : ∀ q ∈ d.properties, marshalable q = true) :
    d.Get key = v1 ∧
    ∃ ms, d.MarshalJSON = .ret (.object ms, none) ∧
      ms.lookup key = some (jsonMarshal (writtenValue key v2)) ∧
      (ms.map Prod.fst).Nodup := by
  refine ⟨Get_first d key v1 pre _ hd hpre, ?_⟩
  have hd' : d.properties = (pre ++ ⟨.str key, v1⟩ :: mid) ++ ⟨.str key, v2⟩ :: post := by
    rw [hd]; simp
  have hm2 : marshalable ⟨.str key, v2⟩ = true := hok _ (by rw [hd']; simp)
  obtain ⟨j, hj, hmem⟩ := MarshalJSON_member d key (writtenValue key v2) ⟨.str key, v2⟩
    (pre ++ ⟨.str key, v1⟩ :: mid) post hd'
    (fun m => by
      have := marshalStep_written m (key, v2) hm2
      simpa only [writtenEntry, hkey, if_true] using this)
    hpost (fun q hq => hok q (by
      rw [hd']
      rcases List.mem_append.mp hq with h | h
      · exact List.mem_append_left _ h
      · exact List.mem_append_right _ (List.mem_cons_of_mem _ h)))
  obtain ⟨_, ms, hms, hinc⟩ := MarshalJSON_object d j none hj
  subst hms
  exact ⟨ms, hj, hmem, increasing_nodup ms hinc⟩

/-- C25 at a document whose subject has been set twice. -/
theorem C25_witness :
    twiceSetDocument.Get subjectKey = .str (gs "did:example:first") ∧
    ∃ ms, twiceSetDocument.MarshalJSON = .ret (.object ms, none) ∧
      ms.lookup subjectKey = some (.string (gs "did:example:second")) ∧
      (ms.map Prod.fst).Nodup :=
  C25_first_is_read_last_is_written twiceSetDocument subjectKey (.str (gs "did:example:first"))
    (.str (gs "did:example:second")) [] [] [] (by decide) rfl (by simp) (by simp) (by decide)

/-- A list with no element is coerced to the empty list of relations. -/
theorem encode_empty_relations :
    encode (some (.relations, reflectNew .relations)) (.list []) = .ret (.list [], none) := by
  rw [encode_list_collect .relations .iface [] [] rfl rfl (fun i hi => by simp at hi)]
  rfl

/-- C21, the claim as stated fails. `Builder.Authentication` on the empty list
builds a document whose `authentication` is the empty list, and `MarshalJSON`
writes it as `null`, not as an array. And on a document that keeps
`alsoKnownAs` twice, the list read is the first and the array written is the
second. -/
theorem C21_empty_list_is_written_as_null :
    NewBuilder.Authentication (.list []) = .ret ⟨[⟨.str authenticationKey, .list []⟩]⟩ ∧
    builder.Build ⟨[⟨.str authenticationKey, .list []⟩]⟩ =
      (⟨[⟨.str authenticationKey, .list []⟩]⟩, none) ∧
    Document.MarshalJSON ⟨[⟨.str authenticationKey, .list []⟩]⟩ =
      .ret (.object [(authenticationKey, .null)], none) ∧
    twoAliasesDocument.AlsoKnownAs = .strings [gs "https://example.com/alice"] ∧
    twoAliasesDocument.MarshalJSON =
      .ret (.object [(alsoKnownAsKey, .array [.string (gs "https://example.com/bob"),
        .string (gs "https://example.com/carol")])], none) := by
  refine ⟨?_, Build_singleton _ _, rfl, rfl, rfl⟩
  exact encodeProperty_ok NewBuilder .relations authenticationKey _ _ encode_empty_relations

/-- C21, as amended. Take a document in which every entry has a string key
and every `@context` and `controller` entry holds a list of at least one
string, and let `v` be the value of its last entry under a well-known key
other than `@context` and `controller`. Then `MarshalJSON` returns without
error and writes under that key the value `v` as `json.Marshal` writes it: a
string as that string, and a list of one or more elements (strings,
VerificationMethod records, Service records, or relations) as the array
of its elements in order, also when the list has a single element. When no
earlier entry has the key, `v` is the stored value that `Get` reads. -/
theorem C21_lists_are_written_as_arrays (d : Document) (key : GoString) (v : Any)
    (pre post : MapSlice) (hkey : key ∈ wellKnownKeys)
    (hnot : key ≠ contextKey ∧ key ≠ controllerKey)
    (hd : d.properties = pre ++ ⟨.str key, v⟩ :: post)
    (hlast : ∀ q ∈ post, q.Key.eqString key = false)
    (hok : ∀ q ∈ pre ++ post, marshalable q = true) :
    (∃ j, d.MarshalJSON = .ret (j, none) ∧ j.member key = some (jsonMarshal v)) ∧
    ((∀ q ∈ pre, q.Key.eqString key = false) → d.Get key = v) ∧
    (∀ s : GoString, jsonMarshal (.str s) = .string s) ∧
    (∀ L : List GoString, L ≠ [] → jsonMarshal (.strings L) = .array (L.map .string)) ∧
    (∀ L : List VerificationMethod, L ≠ [] →
      jsonMarshal (.vms L) = .array (L.map fun r => jsonMarshal (.vm r))) ∧
    (∀ L : List Service, L ≠ [] →
      jsonMarshal (.services L) = .array (L.map fun r => jsonMarshal (.service r))) ∧
    (∀ L : List Any, L ≠ [] → jsonMarshal (.list L) = .array (L.map jsonMarshal)) := by
  have hm : marshalable ⟨.str key, v⟩ = true := by
    cases v <;> simp [marshalable, hnot.1, hnot.2]
    rename_i L
    cases L <;> simp [hnot.1, hnot.2]
  refine ⟨?_, Get_first d key v pre post hd, fun s => by simp [jsonMarshal], ?_, ?_, ?_, ?_⟩
  · refine MarshalJSON_member d key v ⟨.str key, v⟩ pre post hd (fun m => ?_) hlast hok
    have := marshalStep_written m (key, v) hm
    simpa only [writtenEntry, hkey, if_true, writtenValue, hnot.1, hnot.2, or_self,
      if_false] using this
  · intro L hL
    cases L with
    | nil => exact absurd rfl hL
    | cons a rest => simp [jsonMarshal]
  · intro L hL
    cases L with
    | nil => exact absurd rfl hL
    | cons a rest => simp [jsonMarshal, marshalRecords_eq_map]
  · intro L hL
    cases L with
    | nil => exact absurd rfl hL
    | cons a rest => simp [jsonMarshal]
  · intro L hL
    cases L with
    | nil => exact absurd rfl hL
    | cons a rest => simp [jsonMarshal, marshalList_eq_map]

/-- C21 at the document of `tstVerificationRelationWithEmbedded`: its
`authentication` list, a reference string and a map, is written as it is. -/
theorem C21_witness :
    ∃ j, embeddedDocument.MarshalJSON = .ret (j, none) ∧
      j.member authenticationKey =
        some (jsonMarshal (.list [.str (gs "did:example:123#key-1"), .map embeddedKeyMap])) :=
  (C21_lists_are_written_as_arrays embeddedDocument authenticationKey
    (.list [.str (gs "did:example:123#key-1"), .map embeddedKeyMap])
    [⟨.str contextKey, .strings [gs "https://www.w3.org/ns/did/v1",
        gs "https://w3id.org/security/suites/jws-2020/v1"]⟩,
      ⟨.str subjectKey, .str (gs "did:example:123456789abcdefghi")⟩,
      ⟨.str verificationMethodKey, .vms [key0, key1]⟩] []
    (by decide) (by decide) rfl (by simp) (by decide)).1

/-! ## Reading UnmarshalJSON -/

/-- One round of the loop of `UnmarshalJSON`: the value is coerced for its
key, and recorded unless it is nil. -/
theorem unmarshalStep_eq (b : builder) (key : GoString) (value : Any) :
    unmarshalStep b key value =
      match recordedValue key value with
      | .panic e => .panic e
      | .ret w => .ret (b.property key w) := by
  simp only [unmarshalStep, recordedValue, destinationOf]
  split
  · simp only [builder.stringArray, builder.encodeProperty]
    cases encode (some (GoType.strings, reflectNew .strings)) value with
    | panic e => rfl
    | ret p => obtain ⟨w, err⟩ := p; cases err <;> rfl
  · split
    · simp only [builder.Subject, builder.encodeProperty]
      rename_i hk
      rw [hk]
      cases encode (some (GoType.string, reflectNew .string)) value with
      | panic e => rfl
      | ret p => obtain ⟨w, err⟩ := p; cases err <;> rfl
    · split
      · simp only [builder.VerificationMethod, builder.encodeProperty]
        rename_i hk
        rw [hk]
        cases encode (some (GoType.vms, reflectNew .vms)) value with
        | panic e => rfl
        | ret p => obtain ⟨w, err⟩ := p; cases err <;> rfl
      · split
        · simp only [builder.verificationRelationArray, builder.encodeProperty]
          cases encode (some (GoType.relations, reflectNew .relations)) value with
          | panic e => rfl
          | ret p => obtain ⟨w, err⟩ := p; cases err <;> rfl
        · split
          · simp only [builder.Service, builder.encodeProperty]
            rename_i hk
            rw [hk]
            cases encode (some (GoType.services, reflectNew .services)) value with
            | panic e => rfl
            | ret p => obtain ⟨w, err⟩ := p; cases err <;> rfl
          · rfl

/-- The loop of `UnmarshalJSON` on entries whose coercions all return: the
recorded entries are appended in visiting order. -/
theorem unmarshalLoop_coercible : ∀ (m : List (GoString × Any)) (b : builder),
    (∀ e ∈ m, coercible e = true) →
    unmarshalLoop b m =
      .ret ⟨b.properties ++ (m.filterMap recordedEntry).map fun e => ⟨.str e.1, e.2⟩⟩
  | [], b, _ => by simp [unmarshalLoop]
  | (key, value) :: rest, b, h => by
    have hc := h (key, value) (List.mem_cons_self _ _)
    have ih := fun b' => unmarshalLoop_coercible rest b'
      (fun e he => h e (List.mem_cons_of_mem _ he))
    simp only [unmarshalLoop, unmarshalStep_eq, List.filterMap_cons, recordedEntry]
    simp only [coercible] at hc
    cases hr : recordedValue key value with
    | panic e => rw [hr] at hc; cases hc
    | ret w =>
      simp only [ih, builder.property]
      cases hw : w.notNil <;> simp

/-- The loop of `UnmarshalJSON` on entries of which one has a coercion that
does not return: the loop panics. -/
theorem unmarshalLoop_panics : ∀ (m : List (GoString × Any)) (b : builder),
    (∃ e ∈ m, coercible e = false) → ∃ x, unmarshalLoop b m = .panic x
  | [], b, h => by simp at h
  | (key, value) :: rest, b, h => by
    simp only [unmarshalLoop, unmarshalStep_eq]
    cases hr : recordedValue key value with
    | panic e => exact ⟨e, rfl⟩
    | ret w =>
      simp only []
      refine unmarshalLoop_panics rest _ ?_
      obtain ⟨e, he, hce⟩ := h
      rcases List.mem_cons.mp he with h0 | h0
      · subst h0
        simp [coercible, hr] at hce
      · exact ⟨e, h0, hce⟩

theorem Build_documentOf (es : List (GoString × Any)) :
    builder.Build ⟨es.map fun e => ⟨.str e.1, e.2⟩⟩ = (documentOf es, none) := by
  simp [builder.Build, buildLoop_eq, NewDocument, documentOf, BuilderItem.toMapItem,
    Function.comp_def]

theorem Get_documentOf (k : GoString) : ∀ es : List (GoString × Any),
    (documentOf es).Get k = (es.lookup k).getD .null
  | [] => rfl
  | e :: rest => by
    have ih := Get_documentOf k rest
    simp only [Document.Get, documentOf, List.map_cons, MapSlice.Get, Any.eqString,
      lookup_cons_eq] at ih ⊢
    by_cases hk : k = e.1
    · subst hk; simp
    · have : (e.1 == k) = false := by simpa using fun h => hk h.symm
      simp only [this, hk, if_false, ih]
      rfl

theorem lookup_eq_some_iff {α : Type} (k : GoString) (v : α) :
    ∀ l : List (GoString × α), (l.map Prod.fst).Nodup → (l.lookup k = some v ↔ (k, v) ∈ l)
  | [], _ => by simp
  | p :: rest, hn => by
    simp only [List.map_cons, List.nodup_cons] at hn
    rw [lookup_cons_eq, List.mem_cons]
    by_cases hk : k = p.1
    · simp only [hk, if_true]
      constructor
      · intro h; left; cases h; rfl
      · rintro (h | h)
        · rw [← h]
        · exact absurd (List.mem_map_of_mem Prod.fst h) hn.1
    · simp only [hk, if_false, lookup_eq_some_iff k v rest hn.2]
      constructor
      · exact fun h => .inr h
      · rintro (h | h)
        · exact absurd (by rw [← h]) hk
        · exact h

/-- Two lists with the same entries and distinct keys hold the same value
under every key. -/
theorem lookup_perm {α : Type} (k : GoString) (l₁ l₂ : List (GoString × α)) (hp : l₁.Perm l₂)
    (hn : (l₁.map Prod.fst).Nodup) : l₁.lookup k = l₂.lookup k := by
  have hn₂ : (l₂.map Prod.fst).Nodup := (hp.map Prod.fst).nodup_iff.mp hn
  apply Option.ext
  intro v
  simp only [Option.mem_def]
  rw [lookup_eq_some_iff k v l₁ hn, lookup_eq_some_iff k v l₂ hn₂]
  exact hp.mem_iff

theorem recordedEntry_key (e p : GoString × Any) (h : recordedEntry e = some p) : p.1 = e.1 := by
  simp only [recordedEntry] at h
  split at h
  · split at h
    · cases h; rfl
    · cases h
  · cases h

theorem filterMap_keys_nodup {α β : Type} (f : GoString × α → Option (GoString × β))
    (hf : ∀ e p, f e = some p → p.1 = e.1) :
    ∀ es : List (GoString × α), (es.map Prod.fst).Nodup →
      ((es.filterMap f).map Prod.fst).Nodup
  | [], _ => by simp
  | e :: rest, hn => by
    simp only [List.map_cons, List.nodup_cons] at hn
    have ih := filterMap_keys_nodup f hf rest hn.2
    cases hw : f e with
    | none => simpa only [List.filterMap_cons, hw] using ih
    | some p =>
      simp only [List.filterMap_cons, hw, List.map_cons, List.nodup_cons]
      refine ⟨fun h => hn.1 ?_, ih⟩
      obtain ⟨q, hq, hqe⟩ := List.mem_map.mp h
      obtain ⟨e', he', hwe'⟩ := List.mem_filterMap.mp hq
      rw [← hf e p hw, ← hqe, hf e' q hwe']
      exact List.mem_map_of_mem _ he'

/-- `UnmarshalJSON` when the coercion of every entry of the decoded map
returns: the document holds the recorded entries in visiting order. -/
theorem UnmarshalJSON_coercible (d : Document) (data : Json)
    (visit : List (GoString × Any) → List (GoString × Any)) (m : List (GoString × Any))
    (hm : jsonUnmarshal data = some m) (hc : ∀ e ∈ visit m, coercible e = true) :
    d.UnmarshalJSON data visit =
      .ret (documentOf ((visit m).filterMap recordedEntry), none) := by
  have hl := unmarshalLoop_coercible _ NewBuilder hc
  simp only [NewBuilder, List.nil_append] at hl
  simp only [Document.UnmarshalJSON, hm, NewBuilder, hl, Build_documentOf]

/-- `UnmarshalJSON` when the coercion of an entry of the decoded map does not
return: the call panics. -/
theorem UnmarshalJSON_panics (d : Document) (data : Json)
    (visit : List (GoString × Any) → List (GoString × Any)) (m : List (GoString × Any))
    (hm : jsonUnmarshal data = some m) (hc : ∃ e ∈ visit m, coercible e = false) :
    ∃ x, d.UnmarshalJSON data visit = .panic x := by
  obtain ⟨x, hx⟩ := unmarshalLoop_panics _ NewBuilder hc
  exact ⟨x, by simp only [Document.UnmarshalJSON, hm, hx]⟩

theorem jsonUnmarshal_nodup (data : Json) (m : List (GoString × Any))
    (hm : jsonUnmarshal data = some m) : (m.map Prod.fst).Nodup := by
  cases data <;> simp only [jsonUnmarshal] at hm
  case null => cases hm; simp
  case object ms =>
    split at hm
    · cases hm; exact distinctKeys_nodup _
    · cases hm
  all_goals cases hm

/-- The resolver reads a document only through `Get`. -/
theorem resolver_congr (d₁ d₂ : Document) (h : ∀ k, d₁.Get k = d₂.Get k) :
    (∀ purpose : ProofPurpose,
      GetAssociatedVerificationMethod d₁ purpose = GetAssociatedVerificationMethod d₂ purpose) ∧
    (∀ keyId : GoString,
      GetVerificationMethodById d₁ keyId = GetVerificationMethodById d₂ keyId) := by
  refine ⟨fun purpose => ?_, fun keyId => ?_⟩
  · rw [GetAssociatedVerificationMethod_eq, GetAssociatedVerificationMethod_eq, h,
      addAll_congr d₂ d₁ (h _)]
  · rw [GetVerificationMethodById_eq, GetVerificationMethodById_eq, h]

/-- C29. `UnmarshalJSON` is insensitive to the order in which it visits the
keys of the decoded object (one entry per key, as a Go map holds them): for
any two visiting orders, either both calls panic, or both return, with the
same error, documents that agree on `Get(k)` for every key `k`, hence on
every typed accessor, and on the results of `GetAssociatedVerificationMethod`
and `GetVerificationMethodById`. -/
theorem C29_visiting_order_does_not_matter (d : Document) (data : Json)
    (visit₁ visit₂ : List (GoString × Any) → List (GoString × Any))
    (h₁ : ∀ m, (visit₁ m).Perm m) (h₂ : ∀ m, (visit₂ m).Perm m) :
    ((∃ x, d.UnmarshalJSON data visit₁ = .panic x) ∧
      (∃ x, d.UnmarshalJSON data visit₂ = .panic x)) ∨
    (∃ (d₁ d₂ : Document) (err : Option GoError),
      d.UnmarshalJSON data visit₁ = .ret (d₁, err) ∧
      d.UnmarshalJSON data visit₂ = .ret (d₂, err) ∧
      (∀ k : GoString, d₁.Get k = d₂.Get k) ∧
      (∀ purpose : ProofPurpose,
        GetAssociatedVerificationMethod d₁ purpose =
          GetAssociatedVerificationMethod d₂ purpose) ∧
      (∀ keyId : GoString,
        GetVerificationMethodById d₁ keyId = GetVerificationMethodById d₂ keyId)) := by
  cases hm : jsonUnmarshal data with
  | none =>
    refine .inr ⟨d, d, some .jsonError, by simp only [Document.UnmarshalJSON, hm],
      by simp only [Document.UnmarshalJSON, hm], fun _ => rfl, fun _ => rfl, fun _ => rfl⟩
  | some m =>
    by_cases hc : ∀ e ∈ m, coercible e = true
    · have hc₁ : ∀ e ∈ visit₁ m, coercible e = true := fun e he => hc e ((h₁ m).mem_iff.mp he)
      have hc₂ : ∀ e ∈ visit₂ m, coercible e = true := fun e he => hc e ((h₂ m).mem_iff.mp he)
      have hn₁ : ((visit₁ m).map Prod.fst).Nodup :=
        (((h₁ m).map Prod.fst).nodup_iff).mpr (jsonUnmarshal_nodup data m hm)
      have hget : ∀ k : GoString,
          (documentOf ((visit₁ m).filterMap recordedEntry)).Get k =
            (documentOf ((visit₂ m).filterMap recordedEntry)).Get k := by
        intro k
        rw [Get_documentOf, Get_documentOf,
          lookup_perm k _ _ (((h₁ m).trans (h₂ m).symm).filterMap recordedEntry)
            (filterMap_keys_nodup recordedEntry recordedEntry_key _ hn₁)]
      exact .inr ⟨_, _, none, UnmarshalJSON_coercible d data visit₁ m hm hc₁,
        UnmarshalJSON_coercible d data visit₂ m hm hc₂, hget,
        (resolver_congr _ _ hget).1, (resolver_congr _ _ hget).2⟩
    · have hex : ∃ e ∈ m, coercible e = false := by
        by_contra hne
        exact hc (fun e he => by
          cases hce : coercible e with
          | true => rfl
          | false => exact absurd ⟨e, he, hce⟩ hne)
      obtain ⟨e, he, hce⟩ := hex
      exact .inl ⟨UnmarshalJSON_panics d data visit₁ m hm ⟨e, (h₁ m).mem_iff.mpr he, hce⟩,
        UnmarshalJSON_panics d data visit₂ m hm ⟨e, (h₂ m).mem_iff.mpr he, hce⟩⟩

/-- C29 at an object with a subject and an extension property, visited in
written order and in the reverse order. -/
theorem C29_witness :
    ((∃ x, NewDocument.UnmarshalJSON (.object [(gs "created", .string (gs "2023-01-01T00:00:00Z")),
        (subjectKey, .string (gs "did:example:123456789abcdefghi"))]) id = .panic x) ∧
      (∃ x, NewDocument.UnmarshalJSON (.object [(gs "created", .string (gs "2023-01-01T00:00:00Z")),
        (subjectKey, .string (gs "did:example:123456789abcdefghi"))]) List.reverse = .panic x)) ∨
    (∃ (d₁ d₂ : Document) (err : Option GoError),
      NewDocument.UnmarshalJSON (.object [(gs "created", .string (gs "2023-01-01T00:00:00Z")),
        (subjectKey, .string (gs "did:example:123456789abcdefghi"))]) id = .ret (d₁, err) ∧
      NewDocument.UnmarshalJSON (.object [(gs "created", .string (gs "2023-01-01T00:00:00Z")),
        (subjectKey, .string (gs "did:example:123456789abcdefghi"))]) List.reverse =
          .ret (d₂, err) ∧
      (∀ k : GoString, d₁.Get k = d₂.Get k) ∧
      (∀ purpose : ProofPurpose,
        GetAssociatedVerificationMethod d₁ purpose =
          GetAssociatedVerificationMethod d₂ purpose) ∧
      (∀ keyId : GoString,
        GetVerificationMethodById d₁ keyId = GetVerificationMethodById d₂ keyId)) :=
  C29_visiting_order_does_not_matter NewDocument _ id List.reverse
    (fun m => List.Perm.refl m) (fun m => List.reverse_perm m)

/-! ## The round trip -/

theorem decodeMembers_keys : ∀ ms : List (GoString × Json),
    (decodeMembers ms).map Prod.fst = (ms.map Prod.fst).reverse
  | [] => rfl
  | (k, x) :: ms => by
    simp only [decodeMembers, List.map_append, decodeMembers_keys ms, List.map_cons,
      List.map_nil, List.reverse_cons]

theorem marshalEntries_append (a b : List (GoString × Any)) :
    marshalEntries (a ++ b) = marshalEntries a ++ marshalEntries b := by
  simp only [marshalEntries_eq_map, List.map_append]

/-- Members with increasing keys are written as they are. -/
theorem sortMembers_of_increasing (l ms : List (GoString × Json)) (hp : l.Perm ms)
    (h : ms.Pairwise fun a b => strLess a.1 b.1 = true) : sortMembers l = ms := by
  have hn : (l.map Prod.fst).Nodup := ((hp.map Prod.fst).nodup_iff).mpr (increasing_nodup ms h)
  exact increasing_unique _ _ ((sortMembers_perm l).trans hp) (sortMembers_increasing l hn) h

/-- An integer of magnitude at most 2^53 is decoded to itself. -/
theorem float64OfInt_exact (n : Int) (h : n.natAbs ≤ 2 ^ 53) : float64OfInt n = n := by
  simp only [float64OfInt, roundFloat64, h, if_true]
  split <;> omega

/-- An integer of magnitude at most 2^53 is in the range of float64. -/
theorem float64Overflows_exact (n : Int) (h : n.natAbs ≤ 2 ^ 53) :
    float64Overflows n = false := by
  have hlt : (2 : Nat) ^ 53 < 2 ^ 1024 := Nat.pow_lt_pow_right (by decide) (by decide)
  have hr : roundFloat64 n.natAbs = n.natAbs := by simp only [roundFloat64, h, if_true]
  unfold float64Overflows
  rw [hr]
  exact decide_eq_false (Nat.not_le.mpr (Nat.lt_of_le_of_lt h hlt))

mutual
/-- Every number of a stable JSON value can be decoded. -/
theorem stable_representable : ∀ j : Json, stable j = true → j.representable = true
  | .null, _ => rfl
  | .bool _, _ => rfl
  | .number n, h => by
    simp only [stable, decide_eq_true_eq] at h
    have h' : float64Overflows n = false := float64Overflows_exact n h
    show (!float64Overflows n) = true
    rw [h']
    rfl
  | .string _, _ => rfl
  | .array xs, h => by
    simp only [stable, Bool.and_eq_true] at h
    simp only [Json.representable, stableList_representable xs h.2]
  | .object ms, h => by
    simp only [stable, Bool.and_eq_true] at h
    simp only [Json.representable, stableMembers_representable ms h.2]
theorem stableList_representable : ∀ xs : List Json, stableList xs = true →
    representableList xs = true
  | [], _ => rfl
  | x :: xs, h => by
    simp only [stableList, Bool.and_eq_true] at h
    simp only [representableList, stable_representable x h.1,
      stableList_representable xs h.2, Bool.and_self]
theorem stableMembers_representable : ∀ ms : List (GoString × Json), stableMembers ms = true →
    representableMembers ms = true
  | [], _ => rfl
  | (_, x) :: ms, h => by
    simp only [stableMembers, Bool.and_eq_true] at h
    simp only [representableMembers, stable_representable x h.1,
      stableMembers_representable ms h.2, Bool.and_self]
end

mutual
/-- Decoding a stable JSON value and marshalling the result gives the value back. -/
theorem stable_round_trip : ∀ j : Json, stable j = true → jsonMarshal j.decode = j
  | .null, _ => rfl
  | .bool _, _ => rfl
  | .number n, h => by
    simp only [stable, decide_eq_true_eq] at h
    simp only [Json.decode, jsonMarshal, float64OfInt_exact n h]
  | .string _, _ => rfl
  | .array xs, h => by
    simp only [stable, Bool.and_eq_true, Bool.not_eq_true', List.isEmpty_eq_false] at h
    have ih := stableList_round_trip xs h.2
    cases xs with
    | nil => exact absurd rfl h.1
    | cons x rest =>
      simp only [Json.decode, jsonMarshal, decodeList, List.isEmpty_cons, Bool.false_eq_true,
        if_false] at ih ⊢
      rw [ih]
  | .object ms, h => by
    simp only [stable, Bool.and_eq_true, decide_eq_true_eq] at h
    have ih := stableMembers_round_trip ms h.2
    have hinc : ms.Pairwise fun a b => strLess a.1 b.1 = true := by
      have := h.1
      rwa [List.pairwise_map] at this
    have hn : (ms.reverse.map Prod.fst).Nodup := by
      rw [List.map_reverse, List.nodup_reverse]
      exact increasing_nodup ms hinc
    simp only [Json.decode, jsonMarshal, ih, distinctKeys_of_nodup _ hn]
    rw [sortMembers_of_increasing ms.reverse ms (List.reverse_perm ms) hinc]
theorem stableList_round_trip : ∀ xs : List Json, stableList xs = true →
    marshalList (decodeList xs) = xs
  | [], _ => rfl
  | x :: xs, h => by
    simp only [stableList, Bool.and_eq_true] at h
    simp only [decodeList, marshalList, stable_round_trip x h.1, stableList_round_trip xs h.2]
theorem stableMembers_round_trip : ∀ ms : List (GoString × Json), stableMembers ms = true →
    marshalEntries (decodeMembers ms) = ms.reverse
  | [], _ => rfl
  | (k, x) :: ms, h => by
    simp only [stableMembers, Bool.and_eq_true] at h
    simp only [decodeMembers, marshalEntries_append, marshalEntries,
      stable_round_trip x h.1, stableMembers_round_trip ms h.2, List.reverse_cons]
end

theorem lookup_append_eq {α : Type} (k : GoString) (l₁ l₂ : List (GoString × α)) :
    (l₁ ++ l₂).lookup k =
      match l₁.lookup k with
      | some v => some v
      | none => l₂.lookup k := by
  induction l₁ with
  | nil => rfl
  | cons p rest ih =>
    simp only [List.cons_append, lookup_cons_eq, ih]
    split <;> rfl

theorem lookup_omitEmpty (k t s : GoString) :
    (omitEmpty t s).lookup k = if k = t ∧ s ≠ [] then some (.string s) else none := by
  cases s with
  | nil => simp [omitEmpty]
  | cons a rest => simp [omitEmpty, lookup_cons_eq]

theorem decodeMembers_eq_map : ∀ ms : List (GoString × Json),
    decodeMembers ms = (ms.map fun p => (p.1, p.2.decode)).reverse
  | [] => rfl
  | (k, x) :: ms => by
    simp only [decodeMembers, decodeMembers_eq_map ms, List.map_cons, List.reverse_cons]

theorem lookup_map_decode (k : GoString) : ∀ ms : List (GoString × Json),
    (ms.map fun p => (p.1, p.2.decode)).lookup k = (ms.lookup k).map Json.decode
  | [] => rfl
  | p :: ms => by
    simp only [List.map_cons, lookup_cons_eq, lookup_map_decode k ms]
    split <;> rfl

/-- The decoded map of an object with distinct keys holds, under every key,
the decoded member. -/
theorem lookup_decodeMembers (k : GoString) (ms : List (GoString × Json))
    (hn : (ms.map Prod.fst).Nodup) :
    (decodeMembers ms).lookup k = (ms.lookup k).map Json.decode := by
  rw [decodeMembers_eq_map, ← lookup_map_decode]
  refine lookup_perm k _ _ (List.reverse_perm _) ?_
  rw [List.map_reverse, List.nodup_reverse, List.map_map]
  exact hn

theorem decode_strip : ∀ j : Json, j.decode.strip = j.decode
  | .null | .bool _ | .number _ | .string _ | .array _ | .object _ => by
    simp [Json.decode, Any.strip]

theorem decodeList_strings (L : List GoString) :
    decodeList (L.map .string) = L.map .str := by
  induction L with
  | nil => rfl
  | cons s rest ih => simp only [List.map_cons, decodeList, Json.decode, ih]

theorem lookup_keyMember (k : GoString) (key : Option Json) :
    (keyMember key).lookup k = if k = gs "publicKeyJwk" then key else none := by
  cases key with
  | none => simp [keyMember]
  | some c => simp only [keyMember, lookup_cons_eq]; rfl

theorem methodTree_keys (r : MethodTree) : (r.members.map Prod.fst).Nodup := by
  have hsub : (r.members.map Prod.fst).Sublist
      [gs "id", gs "type", gs "controller", gs "publicKeyJwk", gs "publicKeyMultibase"] := by
    have ho : ∀ t s : GoString, ((omitEmpty t s).map Prod.fst).Sublist [t] := by
      intro t s
      cases s with
      | nil => simp [omitEmpty]
      | cons a rest => simp [omitEmpty]
    have hk : ((keyMember r.key).map Prod.fst).Sublist [gs "publicKeyJwk"] := by
      cases r.key <;> simp [keyMember]
    simp only [MethodTree.members, List.map_append]
    exact ((((ho _ _).append (ho _ _)).append (ho _ _)).append hk).append (ho _ _)
  exact List.Nodup.sublist hsub (by decide)

theorem methodTree_lookup (r : MethodTree) :
    r.members.lookup (gs "id") = (if r.Id = [] then none else some (.string r.Id)) ∧
    r.members.lookup (gs "type") = (if r.Type_ = [] then none else some (.string r.Type_)) ∧
    r.members.lookup (gs "controller") =
      (if r.Controller = [] then none else some (.string r.Controller)) ∧
    r.members.lookup (gs "publicKeyJwk") = r.key ∧
    r.members.lookup (gs "publicKeyMultibase") =
      (if r.PublicKeyMultibase = [] then none else some (.string r.PublicKeyMultibase)) := by
  have n1 : gs "id" ≠ gs "type" := by decide
  have n2 : gs "id" ≠ gs "controller" := by decide
  have n3 : gs "id" ≠ gs "publicKeyJwk" := by decide
  have n4 : gs "id" ≠ gs "publicKeyMultibase" := by decide
  have n5 : gs "type" ≠ gs "controller" := by decide
  have n6 : gs "type" ≠ gs "publicKeyJwk" := by decide
  have n7 : gs "type" ≠ gs "publicKeyMultibase" := by decide
  have n8 : gs "controller" ≠ gs "publicKeyJwk" := by decide
  have n9 : gs "controller" ≠ gs "publicKeyMultibase" := by decide
  have n10 : gs "publicKeyJwk" ≠ gs "publicKeyMultibase" := by decide
  refine ⟨?_, ?_, ?_, ?_, ?_⟩ <;>
    simp only [MethodTree.members, lookup_append_eq, lookup_omitEmpty, lookup_keyMember, n1, n2,
      n3, n4, n5, n6, n7, n8, n9, n10, n1.symm, n2.symm, n3.symm, n4.symm, n5.symm, n6.symm,
      n7.symm, n8.symm, n9.symm, n10.symm, true_and, false_and, if_false, if_true, ne_eq]
  · by_cases h : r.Id = [] <;> simp [h]
  · by_cases h : r.Id = [] <;> by_cases h' : r.Type_ = [] <;> simp [h, h']
  · by_cases h : r.Id = [] <;> by_cases h' : r.Type_ = [] <;>
      by_cases h'' : r.Controller = [] <;> simp [h, h', h'']
  · by_cases h : r.Id = [] <;> by_cases h' : r.Type_ = [] <;>
      by_cases h'' : r.Controller = [] <;> cases r.key <;> simp [h, h', h'']
  · by_cases h : r.Id = [] <;> by_cases h' : r.Type_ = [] <;>
      by_cases h'' : r.Controller = [] <;> by_cases h3 : r.PublicKeyMultibase = [] <;>
      cases r.key <;> simp [h, h', h'', h3]

theorem decodeList_map {α : Type} (f : α → Json) (L : List α) :
    decodeList (L.map f) = L.map fun a => (f a).decode := by
  induction L with
  | nil => rfl
  | cons a rest ih => simp only [List.map_cons, decodeList, ih]

theorem entryString_of_lookup (m : List (GoString × Any)) (t s : GoString)
    (h : m.lookup t = if s = [] then none else some (.str s)) : entryString m t = s := by
  by_cases hs : s = []
  · simp only [hs, if_true] at h
    simp only [entryString, h, hs]
  · simp only [hs, if_false] at h
    simp only [entryString, h]

theorem stringOrAbsent_of_lookup (m : List (GoString × Any)) (t s : GoString)
    (h : m.lookup t = if s = [] then none else some (.str s)) : stringOrAbsent m t := by
  by_cases hs : s = []
  · simp only [hs, if_true] at h
    exact .inl h
  · simp only [hs, if_false] at h
    exact .inr ⟨s, h⟩

theorem methodTree_decoded_lookup (r : MethodTree) :
    (decodeMembers r.members).lookup (gs "id") =
      (if r.Id = [] then none else some (.str r.Id)) ∧
    (decodeMembers r.members).lookup (gs "type") =
      (if r.Type_ = [] then none else some (.str r.Type_)) ∧
    (decodeMembers r.members).lookup (gs "controller") =
      (if r.Controller = [] then none else some (.str r.Controller)) ∧
    (decodeMembers r.members).lookup (gs "publicKeyJwk") = r.key.map Json.decode ∧
    (decodeMembers r.members).lookup (gs "publicKeyMultibase") =
      (if r.PublicKeyMultibase = [] then none else some (.str r.PublicKeyMultibase)) := by
  obtain ⟨h0, h1, h2, h3, h4⟩ := methodTree_lookup r
  refine ⟨?_, ?_, ?_, ?_, ?_⟩
  · rw [lookup_decodeMembers _ _ (methodTree_keys r), h0]; split <;> rfl
  · rw [lookup_decodeMembers _ _ (methodTree_keys r), h1]; split <;> rfl
  · rw [lookup_decodeMembers _ _ (methodTree_keys r), h2]; split <;> rfl
  · rw [lookup_decodeMembers _ _ (methodTree_keys r), h3]
  · rw [lookup_decodeMembers _ _ (methodTree_keys r), h4]; split <;> rfl

/-- A verification method object, decoded, is coerced to its record. -/
theorem methodTree_coerces (r : MethodTree) (hok : r.ok = true) :
    structEncoder (reflectNew .vm) .vm (.concrete r.tree.decode) = .ret (.vm r.record, none) := by
  obtain ⟨h0, h1, h2, h3, h4⟩ := methodTree_decoded_lookup r
  have e : r.tree.decode = .map (decodeMembers r.members) := rfl
  rw [e, structEncoder_vm_map _ _ (stringOrAbsent_of_lookup _ _ _ h0)
    (stringOrAbsent_of_lookup _ _ _ h1) (stringOrAbsent_of_lookup _ _ _ h2)
    (stringOrAbsent_of_lookup _ _ _ h4), h3]
  have hv : ∀ w, vmOfMap (decodeMembers r.members) w =
      ⟨r.Id, r.Type_, r.Controller, w, r.PublicKeyMultibase⟩ := by
    intro w
    simp only [vmOfMap, entryString_of_lookup _ _ _ h0, entryString_of_lookup _ _ _ h1,
      entryString_of_lookup _ _ _ h2, entryString_of_lookup _ _ _ h4]
  cases hk : r.key with
  | none => simp only [Option.map_none', hv, MethodTree.record, hk]
  | some c =>
    simp only [Option.map_some', decode_strip, hv, MethodTree.record, hk]
    cases c <;> simp [MethodTree.ok, hk] at hok <;> rfl

/-- The record of a verification method object is marshalled to the object. -/
theorem methodTree_marshal (r : MethodTree) (hok : r.ok = true) :
    jsonMarshal (.vm r.record) = r.tree := by
  simp only [jsonMarshal, marshalRecord, MethodTree.record, MethodTree.tree, MethodTree.members]
  cases hk : r.key with
  | none => simp [Any.notNil, keyMember]
  | some c =>
    have hs : stable c = true := by
      cases c <;> simp [MethodTree.ok, hk] at hok ⊢ <;> first | rfl | exact hok
    have hn : c.decode.notNil = true := by
      cases c <;> simp [MethodTree.ok, hk] at hok <;> rfl
    simp only [hn, if_true, stable_round_trip c hs, keyMember]

/-- A service object, decoded, is coerced to its record. -/
theorem service_coerces (s : Service) :
    structEncoder (reflectNew .service) .service (.concrete (marshalService s).decode) =
      .ret (.service s, none) := by
  have e : (marshalService s).decode =
      .map [(gs "serviceEndpoint", .str s.ServiceEndpoint), (gs "type", .str s.Type_),
        (gs "id", .str s.Id)] := rfl
  have n1 : gs "id" ≠ gs "serviceEndpoint" := by decide
  have n2 : gs "id" ≠ gs "type" := by decide
  have n3 : gs "type" ≠ gs "serviceEndpoint" := by decide
  have l0 : List.lookup (gs "id") [(gs "serviceEndpoint", Any.str s.ServiceEndpoint),
      (gs "type", .str s.Type_), (gs "id", .str s.Id)] = some (.str s.Id) := by
    simp [lookup_cons_eq, n1, n2]
  have l1 : List.lookup (gs "type") [(gs "serviceEndpoint", Any.str s.ServiceEndpoint),
      (gs "type", .str s.Type_), (gs "id", .str s.Id)] = some (.str s.Type_) := by
    simp [lookup_cons_eq, n3]
  have l2 : List.lookup (gs "serviceEndpoint") [(gs "serviceEndpoint", Any.str s.ServiceEndpoint),
      (gs "type", .str s.Type_), (gs "id", .str s.Id)] = some (.str s.ServiceEndpoint) := by
    simp [lookup_cons_eq]
  rw [e, structEncoder_service_map _ _ (.inr ⟨_, l0⟩) (.inr ⟨_, l1⟩) (.inr ⟨_, l2⟩)]
  simp only [serviceOfMap, entryString, l0, l1, l2]

/-- An array of verification method objects, decoded, is coerced to the list
of their records. -/
theorem encode_methodTrees (rs : List MethodTree) (hok : ∀ r ∈ rs, r.ok = true) :
    encode (some (.vms, reflectNew .vms)) (Json.array (rs.map MethodTree.tree)).decode =
      .ret (.vms (rs.map MethodTree.record), none) := by
  have e : (Json.array (rs.map MethodTree.tree)).decode =
      .list (rs.map fun r => r.tree.decode) := by
    simp only [Json.decode, decodeList_map]
  rw [e, encode_list_collect .vms .vm _ ((rs.map MethodTree.record).map .vm) rfl (by simp)
    (fun i hi => ⟨none, by
      have hi' : i < rs.length := by simpa using hi
      simp only [List.getElem_map, List.get_eq_getElem]
      rw [valueEncoder_struct _ .vm _ rfl, structEncoder_iface]
      exact methodTree_coerces _ (hok _ (List.getElem_mem _))⟩)]
  exact appendAll_vms _ []

/-- An array of service objects, decoded, is coerced to the list of the records. -/
theorem encode_services (ss : List Service) :
    encode (some (.services, reflectNew .services)) (Json.array (ss.map marshalService)).decode =
      .ret (.services ss, none) := by
  have e : (Json.array (ss.map marshalService)).decode =
      .list (ss.map fun s => (marshalService s).decode) := by
    simp only [Json.decode, decodeList_map]
  rw [e, encode_list_collect .services .service _ (ss.map .service) rfl (by simp)
    (fun i hi => ⟨none, by
      have hi' : i < ss.length := by simpa using hi
      simp only [List.getElem_map, List.get_eq_getElem]
      rw [valueEncoder_struct _ .service _ rfl, structEncoder_iface]
      exact service_coerces _⟩)]
  exact appendAll_services _ []

theorem relationTree_stable (e : Json) (h : relationTree e = true) : stable e = true := by
  cases e <;> simp [relationTree] at h ⊢ <;> first | rfl | exact h

theorem stableList_of_forall : ∀ es : List Json, (∀ e ∈ es, stable e = true) →
    stableList es = true
  | [], _ => rfl
  | e :: rest, h => by
    simp only [stableList, Bool.and_eq_true]
    exact ⟨h e (List.mem_cons_self _ _),
      stableList_of_forall rest (fun e' he' => h e' (List.mem_cons_of_mem _ he'))⟩

/-- An array of relation elements, decoded, is coerced to the list of the
decoded elements. -/
theorem encode_relationTrees (es : List Json) (h : ∀ e ∈ es, relationTree e = true) :
    encode (some (.relations, reflectNew .relations)) (Json.array es).decode =
      .ret (.list (decodeList es), none) := by
  have e : (Json.array es).decode = .list (decodeList es) := rfl
  rw [e]
  refine encode_relations _ (fun v hv => ?_)
  have hm : decodeList es = es.map Json.decode := by
    have := decodeList_map id es
    simpa using this
  rw [hm] at hv
  obtain ⟨x, hx, rfl⟩ := List.mem_map.mp hv
  have := h x hx
  cases x <;> simp [relationTree] at this <;> rfl

theorem representableList_of_forall : ∀ xs : List Json,
    (∀ x ∈ xs, x.representable = true) → representableList xs = true
  | [], _ => rfl
  | x :: rest, h => by
    simp only [representableList, Bool.and_eq_true]
    exact ⟨h x (List.mem_cons_self _ _),
      representableList_of_forall rest (fun y hy => h y (List.mem_cons_of_mem _ hy))⟩

theorem representableMembers_of_forall : ∀ ms : List (GoString × Json),
    (∀ p ∈ ms, p.2.representable = true) → representableMembers ms = true
  | [], _ => rfl
  | (k, x) :: rest, h => by
    simp only [representableMembers, Bool.and_eq_true]
    exact ⟨h (k, x) (List.mem_cons_self _ _),
      representableMembers_of_forall rest (fun y hy => h y (List.mem_cons_of_mem _ hy))⟩

theorem omitEmpty_representable (t s : GoString) (p : GoString × Json)
    (hp : p ∈ omitEmpty t s) : p.2.representable = true := by
  cases s with
  | nil => simp [omitEmpty] at hp
  | cons a rest =>
    simp only [omitEmpty, List.isEmpty_cons, Bool.false_eq_true, if_false,
      List.mem_singleton] at hp
    rw [hp]
    rfl

theorem methodTree_representable (r : MethodTree) (hok : r.ok = true) :
    r.tree.representable = true := by
  simp only [MethodTree.tree, Json.representable]
  refine representableMembers_of_forall _ (fun p hp => ?_)
  simp only [MethodTree.members, List.mem_append] at hp
  rcases hp with (((hp | hp) | hp) | hp) | hp
  · exact omitEmpty_representable _ _ p hp
  · exact omitEmpty_representable _ _ p hp
  · exact omitEmpty_representable _ _ p hp
  · cases hk : r.key with
    | none => simp [hk, keyMember] at hp
    | some c =>
      simp only [hk, keyMember, List.mem_singleton] at hp
      rw [hp]
      refine stable_representable c ?_
      cases c <;> simp [MethodTree.ok, hk] at hok ⊢ <;> first | rfl | exact hok
  · exact omitEmpty_representable _ _ p hp

/-- Every number in a value of the shape for its key can be decoded. -/
theorem canonicalValue_representable (key : GoString) (v : Json) (h : canonicalValue key v) :
    v.representable = true := by
  have hstr : ∀ L : List GoString, (Json.array (L.map .string)).representable = true := by
    intro L
    simp only [Json.representable]
    refine representableList_of_forall _ (fun x hx => ?_)
    obtain ⟨s, _, rfl⟩ := List.mem_map.mp hx
    rfl
  simp only [canonicalValue] at h
  split at h
  · rcases h with ⟨s, rfl⟩ | ⟨L, _, rfl⟩
    · rfl
    · exact hstr L
  · split at h
    · obtain ⟨s, rfl⟩ := h
      rfl
    · split at h
      · obtain ⟨L, _, rfl⟩ := h
        exact hstr L
      · split at h
        · obtain ⟨rs, _, hok, rfl⟩ := h
          simp only [Json.representable]
          refine representableList_of_forall _ (fun x hx => ?_)
          obtain ⟨r, hr, rfl⟩ := List.mem_map.mp hx
          exact methodTree_representable r (hok r hr)
        · split at h
          · obtain ⟨es, _, hrel, rfl⟩ := h
            simp only [Json.representable]
            exact representableList_of_forall _
              (fun e he => stable_representable e (relationTree_stable e (hrel e he)))
          · split at h
            · obtain ⟨ss, _, rfl⟩ := h
              simp only [Json.representable]
              refine representableList_of_forall _ (fun x hx => ?_)
              obtain ⟨sv, _, rfl⟩ := List.mem_map.mp hx
              rfl
            · exact absurd h id

/-- What `UnmarshalJSON` records for a member of a canonical document, and
what `MarshalJSON` writes for it: the member's value. -/
theorem canonicalValue_round_trip (key : GoString) (v : Json) (h : canonicalValue key v) :
    key ∈ wellKnownKeys ∧
    ∃ w, recordedValue key v.decode = .ret w ∧ w.notNil = true ∧
      marshalable ⟨.str key, w⟩ = true ∧ jsonMarshal (writtenValue key w) = v := by
  simp only [canonicalValue] at h
  by_cases h1 : key = contextKey ∨ key = controllerKey
  · have hw : key ∈ wellKnownKeys := by rcases h1 with e | e <;> subst e <;> decide
    have hd : destinationOf key = some .strings := by
      rcases h1 with e | e <;> subst e <;> rfl
    simp only [h1, if_true] at h
    refine ⟨hw, ?_⟩
    rcases h with ⟨s, rfl⟩ | ⟨L, hL, rfl⟩
    · refine ⟨.strings [s], ?_, rfl, rfl, ?_⟩
      · simp only [recordedValue, hd, Json.decode, encode_bare_string]
      · simp only [writtenValue, h1, if_true, jsonMarshal]
    · refine ⟨.strings L, ?_, rfl, ?_, ?_⟩
      · simp only [recordedValue, hd, Json.decode, decodeList_strings, encode_list_of_strings]
      · cases L with
        | nil => simp at hL
        | cons a rest => rfl
      · cases L with
        | nil => simp at hL
        | cons a rest =>
          cases rest with
          | nil => simp at hL
          | cons b rest' => simp [writtenValue, h1, jsonMarshal]
  · simp only [h1, if_false] at h
    have h1' := not_or.mp h1
    have hwv : ∀ w, writtenValue key w = w := by
      intro w; simp only [writtenValue, h1, if_false]
    have hma : ∀ w, marshalable ⟨.str key, w⟩ = true := by
      intro w
      cases w <;> simp [marshalable, h1'.1, h1'.2]
      rename_i L
      cases L <;> simp [h1'.1, h1'.2]
    by_cases h2 : key = subjectKey
    · subst h2
      simp only [if_true] at h
      obtain ⟨s, rfl⟩ := h
      refine ⟨by decide, .str s, ?_, rfl, hma _, by simp only [hwv, jsonMarshal, Json.decode]⟩
      have hd : destinationOf subjectKey = some .string := rfl
      simp only [recordedValue, hd, Json.decode, encode_string _ (.str s) rfl, ValueOf,
        stringEncoder_str]
    · simp only [h2, if_false] at h
      by_cases h3 : key = alsoKnownAsKey
      · subst h3
        simp only [if_true] at h
        obtain ⟨L, hL, rfl⟩ := h
        have hd : destinationOf alsoKnownAsKey = some .strings := rfl
        refine ⟨by decide, .strings L, ?_, rfl, hma _, ?_⟩
        · simp only [recordedValue, hd, Json.decode, decodeList_strings, encode_list_of_strings]
        · cases L with
          | nil => exact absurd rfl hL
          | cons a rest => simp [hwv, jsonMarshal]
      · simp only [h3, if_false] at h
        by_cases h4 : key = verificationMethodKey
        · subst h4
          simp only [if_true] at h
          obtain ⟨rs, hrs, hok, rfl⟩ := h
          have hd : destinationOf verificationMethodKey = some .vms := rfl
          refine ⟨by decide, .vms (rs.map MethodTree.record), ?_, rfl, hma _, ?_⟩
          · simp only [recordedValue, hd, encode_methodTrees rs hok]
          · cases rs with
            | nil => exact absurd rfl hrs
            | cons r rest =>
              have hm : ∀ L : List MethodTree, (∀ r ∈ L, r.ok = true) →
                  marshalRecords (L.map MethodTree.record) = L.map MethodTree.tree := by
                intro L hL
                induction L with
                | nil => rfl
                | cons a L' ih =>
                  have ha := methodTree_marshal a (hL a (List.mem_cons_self _ _))
                  simp only [jsonMarshal] at ha
                  simp only [List.map_cons, marshalRecords, ha,
                    ih (fun r hr => hL r (List.mem_cons_of_mem _ hr))]
              have := hm (r :: rest) hok
              simp only [hwv, jsonMarshal, List.map_cons, List.isEmpty_cons, Bool.false_eq_true,
                if_false] at this ⊢
              rw [this]
        · simp only [h4, if_false] at h
          by_cases h5 : key = authenticationKey ∨ key = assertionMethodKey ∨
              key = keyAgreementKey ∨ key = capabilityInvocationKey ∨
              key = capabilityDelegationKey
          · simp only [h5, if_true] at h
            obtain ⟨es, hes, hrel, rfl⟩ := h
            have hw : key ∈ wellKnownKeys := by
              rcases h5 with e | e | e | e | e <;> subst e <;> decide
            have hd : destinationOf key = some .relations := by
              rcases h5 with e | e | e | e | e <;> subst e <;> rfl
            refine ⟨hw, .list (decodeList es), ?_, rfl, hma _, ?_⟩
            · simp only [recordedValue, hd, encode_relationTrees es hrel]
            · have hst := stableList_round_trip es
                (stableList_of_forall es (fun e he => relationTree_stable e (hrel e he)))
              cases es with
              | nil => exact absurd rfl hes
              | cons a rest =>
                simp only [hwv, jsonMarshal, decodeList, List.isEmpty_cons, Bool.false_eq_true,
                  if_false] at hst ⊢
                rw [hst]
          · simp only [h5, if_false] at h
            by_cases h6 : key = serviceKey
            · subst h6
              simp only [if_true] at h
              obtain ⟨ss, hss, rfl⟩ := h
              have hd : destinationOf serviceKey = some .services := rfl
              refine ⟨by decide, .services ss, ?_, rfl, hma _, ?_⟩
              · simp only [recordedValue, hd, encode_services ss]
              · cases ss with
                | nil => exact absurd rfl hss
                | cons a rest => simp [hwv, jsonMarshal]
            · simp only [h6, if_false] at h

/-- A member of a canonical document is recorded and then assigned by the loop
of `MarshalJSON`, and the value assigned is marshalled to the member's value. -/
theorem canonical_member (p : GoString × Json) (h : canonicalValue p.1 p.2) :
    coercible (p.1, p.2.decode) = true ∧
    (∀ e, recordedEntry (p.1, p.2.decode) = some e → marshalable ⟨.str e.1, e.2⟩ = true) ∧
    ∃ w, (recordedEntry (p.1, p.2.decode)).bind writtenEntry = some (p.1, w) ∧
      jsonMarshal w = p.2 := by
  obtain ⟨hw, w, hr, hn, hm, hj⟩ := canonicalValue_round_trip p.1 p.2 h
  have he : recordedEntry (p.1, p.2.decode) = some (p.1, w) := by
    simp only [recordedEntry, hr, hn, if_true]
  refine ⟨by simp only [coercible, hr], fun e hee => ?_, writtenValue p.1 w, ?_, hj⟩
  · rw [he] at hee
    cases hee
    exact hm
  · rw [he]
    simp only [Option.bind, writtenEntry, hw, if_true]

theorem canonical_entries : ∀ ms : List (GoString × Json), (∀ p ∈ ms, canonicalValue p.1 p.2) →
    marshalEntries ((ms.map fun p => (p.1, p.2.decode)).filterMap
      fun e => (recordedEntry e).bind writtenEntry) = ms
  | [], _ => rfl
  | p :: rest, h => by
    obtain ⟨_, _, w, hw, hj⟩ := canonical_member p (h p (List.mem_cons_self _ _))
    have ih := canonical_entries rest (fun q hq => h q (List.mem_cons_of_mem _ hq))
    simp only [List.map_cons, List.filterMap_cons, hw, marshalEntries, ih, hj]

/-- `UnmarshalJSON` followed by `MarshalJSON`, on an object with distinct keys
whose numbers can be decoded and whose members can all be coerced and then
marshalled: whatever the visiting
order, the output is the marshalled map of what is recorded and then assigned
for the members. -/
theorem UnmarshalJSON_then_MarshalJSON (ms : List (GoString × Json))
    (hnms : (ms.map Prod.fst).Nodup) (hrep : representableMembers ms = true)
    (hall : ∀ p ∈ ms, coercible (p.1, p.2.decode) = true ∧
      ∀ e, recordedEntry (p.1, p.2.decode) = some e → marshalable ⟨.str e.1, e.2⟩ = true)
    (visit : List (GoString × Any) → List (GoString × Any)) (hv : ∀ m, (visit m).Perm m)
    (d : Document) :
    ∃ d', d.UnmarshalJSON (.object ms) visit = .ret (d', none) ∧
      d'.MarshalJSON = .ret (jsonMarshal (.map ((ms.map fun p => (p.1, p.2.decode)).filterMap
        fun e => (recordedEntry e).bind writtenEntry)), none) := by
  have hnm : ((decodeMembers ms).map Prod.fst).Nodup := by
    rw [decodeMembers_keys, List.nodup_reverse]; exact hnms
  have hm : jsonUnmarshal (.object ms) = some (decodeMembers ms) := by
    simp only [jsonUnmarshal, hrep, if_true, distinctKeys_of_nodup _ hnm]
  have hmem : ∀ e ∈ visit (decodeMembers ms), ∃ p ∈ ms, e = (p.1, p.2.decode) := by
    intro e he
    have he' := (hv _).mem_iff.mp he
    rw [decodeMembers_eq_map, List.mem_reverse] at he'
    obtain ⟨p, hp, hpe⟩ := List.mem_map.mp he'
    exact ⟨p, hp, hpe.symm⟩
  have hc : ∀ e ∈ visit (decodeMembers ms), coercible e = true := by
    intro e he
    obtain ⟨p, hp, rfl⟩ := hmem e he
    exact (hall p hp).1
  have hnv : ((visit (decodeMembers ms)).map Prod.fst).Nodup :=
    (((hv _).map Prod.fst).nodup_iff).mpr hnm
  have hne := filterMap_keys_nodup recordedEntry recordedEntry_key _ hnv
  have hok : ∀ e ∈ (visit (decodeMembers ms)).filterMap recordedEntry,
      marshalable ⟨.str e.1, e.2⟩ = true := by
    intro e he
    obtain ⟨e0, he0, hre⟩ := List.mem_filterMap.mp he
    obtain ⟨p, hp, rfl⟩ := hmem e0 he0
    exact (hall p hp).2 e hre
  refine ⟨_, UnmarshalJSON_coercible d _ visit _ hm hc, ?_⟩
  rw [MarshalJSON_documentOf _ hne hok, List.filterMap_filterMap]
  have hperm : ((visit (decodeMembers ms)).filterMap
      fun e => (recordedEntry e).bind writtenEntry).Perm
      ((ms.map fun p => (p.1, p.2.decode)).filterMap
        fun e => (recordedEntry e).bind writtenEntry) := by
    refine List.Perm.filterMap _ ((hv _).trans ?_)
    rw [decodeMembers_eq_map]
    exact List.reverse_perm _
  have hnx : (((visit (decodeMembers ms)).filterMap
      fun e => (recordedEntry e).bind writtenEntry).map Prod.fst).Nodup := by
    rw [← List.filterMap_filterMap]
    exact filterMap_keys_nodup writtenEntry writtenEntry_key _ hne
  rw [jsonMarshal_map_perm _ _ hperm hnx]

/-- C23, as amended. For every JSON document in canonical form - an object
whose strings and keys are valid UTF-8 and whose keys are well known and
increasing, with `@context` and `controller` a string or an array of two or
more strings, `id` a string, `alsoKnownAs` an array of one or more strings,
`verificationMethod` an array of one or more objects holding, in the order
`id`, `type`, `controller`, `publicKeyJwk`, `publicKeyMultibase`, non-empty
strings and stable key material that is not null, `service` an array of one
or more objects with the members `id`, `type`, `serviceEndpoint`, and every
verification relationship an array of one or more reference strings and
stable objects, where in a stable value every number is an integer of
magnitude at most 2^53, every array has an element and the keys of every
object are increasing - and for every order in which the decoded keys are
visited, `UnmarshalJSON` returns a document with no error and `MarshalJSON` on
that document returns the same JSON document. -/
theorem C23_round_trip (t : Json) (ht : canonical t)
    (visit : List (GoString × Any) → List (GoString × Any)) (hv : ∀ m, (visit m).Perm m)
    (d : Document) :
    ∃ d', d.UnmarshalJSON t visit = .ret (d', none) ∧ d'.MarshalJSON = .ret (t, none) := by
  obtain ⟨ms, rfl, _, hinc, hcan⟩ := ht
  have hnms : (ms.map Prod.fst).Nodup := increasing_nodup ms hinc
  obtain ⟨d', h1, h2⟩ := UnmarshalJSON_then_MarshalJSON ms hnms
    (representableMembers_of_forall ms
      (fun p hp => canonicalValue_representable p.1 p.2 (hcan p hp)))
    (fun p hp => ⟨(canonical_member p (hcan p hp)).1, (canonical_member p (hcan p hp)).2.1⟩)
    visit hv d
  refine ⟨d', h1, ?_⟩
  rw [h2]
  simp only [jsonMarshal, canonical_entries ms hcan, distinctKeys_of_nodup _ hnms,
    sortMembers_of_increasing ms ms (List.Perm.refl _) hinc]

theorem recordedValue_subject (s : GoString) :
    recordedValue subjectKey (.str s) = .ret (.str s) := by
  have hd : destinationOf subjectKey = some .string := rfl
  simp only [recordedValue, hd, encode_string _ (.str s) rfl, ValueOf, stringEncoder_str]

theorem recordedValue_empty_service :
    recordedValue serviceKey (.list []) = .ret (.services []) := by
  have hd : destinationOf serviceKey = some .services := rfl
  have := encode_services []
  simp only [List.map_nil, Json.decode, decodeList] at this
  simp only [recordedValue, hd, this]

theorem recordedValue_bare_service (x : GoString) :
    recordedValue serviceKey (.list [.map [(gs "id", .str x)]]) =
      .ret (.services [⟨x, [], []⟩]) := by
  have hd : destinationOf serviceKey = some .services := rfl
  have hs : structEncoder (reflectNew .service) .service
      (.concrete (.map [(gs "id", .str x)])) = .ret (.service ⟨x, [], []⟩, none) := by
    have l0 : List.lookup (gs "id") [(gs "id", Any.str x)] = some (.str x) := by
      simp [lookup_cons_eq]
    have l1 : List.lookup (gs "type") [(gs "id", Any.str x)] = none := by
      have : gs "type" ≠ gs "id" := by decide
      simp [lookup_cons_eq, this]
    have l2 : List.lookup (gs "serviceEndpoint") [(gs "id", Any.str x)] = none := by
      have : gs "serviceEndpoint" ≠ gs "id" := by decide
      simp [lookup_cons_eq, this]
    rw [structEncoder_service_map _ _ (.inr ⟨_, l0⟩) (.inl l1) (.inl l2)]
    simp only [serviceOfMap, entryString, l0, l1, l2]
  have he : encode (some (.services, reflectNew .services)) (.list [.map [(gs "id", .str x)]]) =
      .ret (.services [⟨x, [], []⟩], none) := by
    rw [encode_list_collect .services .service [.map [(gs "id", .str x)]]
      [.service ⟨x, [], []⟩] rfl rfl (fun i hi => ⟨none, by
        have hi0 : i = 0 := by simpa using hi
        subst hi0
        simp only [List.getElem_cons_zero, List.get_eq_getElem]
        rw [valueEncoder_struct _ .service _ rfl, structEncoder_iface]
        exact hs⟩)]
    exact appendAll_services [⟨x, [], []⟩] []
  simp only [recordedValue, hd, he]

/-- C23, the claim as stated fails, in whatever order the keys are visited. A
document whose `service` is the empty list comes back with `service` null;
a document whose service has an `id` only comes back with the members `type`
and `serviceEndpoint` added. -/
theorem C23_round_trip_changes_the_document :
    (∀ visit : List (GoString × Any) → List (GoString × Any), (∀ m, (visit m).Perm m) →
      ∃ d', NewDocument.UnmarshalJSON emptyServiceTree visit = .ret (d', none) ∧
        d'.MarshalJSON =
          .ret (.object [(subjectKey, .string (gs "did:example:456")), (serviceKey, .null)],
            none)) ∧
    (∀ visit : List (GoString × Any) → List (GoString × Any), (∀ m, (visit m).Perm m) →
      ∃ d', NewDocument.UnmarshalJSON bareServiceTree visit = .ret (d', none) ∧
        d'.MarshalJSON =
          .ret (.object [(subjectKey, .string (gs "did:example:456")),
            (serviceKey, .array [.object [(gs "id", .string (gs "did:example:123#linked-domain")),
              (gs "type", .string []), (gs "serviceEndpoint", .string [])]])], none)) := by
  have r1 : recordedEntry (subjectKey, .str (gs "did:example:456")) =
      some (subjectKey, .str (gs "did:example:456")) := by
    simp only [recordedEntry, recordedValue_subject]; rfl
  have r2 : recordedEntry (serviceKey, .list []) = some (serviceKey, .services []) := by
    simp only [recordedEntry, recordedValue_empty_service]; rfl
  have r3 : recordedEntry (serviceKey,
      .list [.map [(gs "id", .str (gs "did:example:123#linked-domain"))]]) =
      some (serviceKey, .services [⟨gs "did:example:123#linked-domain", [], []⟩]) := by
    simp only [recordedEntry, recordedValue_bare_service]; rfl
  have c1 : coercible (subjectKey, .str (gs "did:example:456")) = true := by
    simp only [coercible, recordedValue_subject]
  have c2 : coercible (serviceKey, .list []) = true := by
    simp only [coercible, recordedValue_empty_service]
  have c3 : coercible (serviceKey,
      .list [.map [(gs "id", .str (gs "did:example:123#linked-domain"))]]) = true := by
    simp only [coercible, recordedValue_bare_service]
  constructor
  · intro visit hv
    obtain ⟨d', h1, h2⟩ := UnmarshalJSON_then_MarshalJSON
      [(subjectKey, .string (gs "did:example:456")), (serviceKey, .array [])] (by decide) rfl
      (fun p hp => by
        simp only [List.mem_cons, List.mem_singleton, List.not_mem_nil, or_false] at hp
        rcases hp with rfl | rfl
        · exact ⟨c1, fun e he => by
            have he' : some (subjectKey, Any.str (gs "did:example:456")) = some e := r1 ▸ he
            cases he'; rfl⟩
        · exact ⟨c2, fun e he => by
            have he' : some (serviceKey, Any.services []) = some e := r2 ▸ he
            cases he'; rfl⟩) visit hv NewDocument
    refine ⟨d', h1, ?_⟩
    rw [h2]
    have e : ([(subjectKey, Json.string (gs "did:example:456")), (serviceKey, Json.array [])].map
        fun p => (p.1, p.2.decode)) =
        [(subjectKey, .str (gs "did:example:456")), (serviceKey, .list [])] := rfl
    simp only [e, List.filterMap_cons, List.filterMap_nil, r1, r2, Option.bind]
    rfl
  · intro visit hv
    obtain ⟨d', h1, h2⟩ := UnmarshalJSON_then_MarshalJSON
      [(subjectKey, .string (gs "did:example:456")),
        (serviceKey, .array [.object [(gs "id", .string (gs "did:example:123#linked-domain"))]])]
      (by decide) rfl
      (fun p hp => by
        simp only [List.mem_cons, List.mem_singleton, List.not_mem_nil, or_false] at hp
        rcases hp with rfl | rfl
        · exact ⟨c1, fun e he => by
            have he' : some (subjectKey, Any.str (gs "did:example:456")) = some e := r1 ▸ he
            cases he'; rfl⟩
        · exact ⟨c3, fun e he => by
            have he' : some (serviceKey,
                Any.services [⟨gs "did:example:123#linked-domain", [], []⟩]) = some e := r3 ▸ he
            cases he'; rfl⟩) visit hv NewDocument
    refine ⟨d', h1, ?_⟩
    rw [h2]
    have e : ([(subjectKey, Json.string (gs "did:example:456")),
        (serviceKey, Json.array [.object [(gs "id",
          .string (gs "did:example:123#linked-domain"))]])].map
        fun p => (p.1, p.2.decode)) =
        [(subjectKey, .str (gs "did:example:456")),
          (serviceKey, .list [.map [(gs "id", .str (gs "did:example:123#linked-domain"))]])] :=
      rfl
    simp only [e, List.filterMap_cons, List.filterMap_nil, r1, r3, Option.bind]
    rfl

/-- The document of `testMarshal` is in canonical form. -/
theorem testMarshalTree_canonical : canonical testMarshalTree := by
  refine ⟨_, rfl, by decide, by decide, fun p hp => ?_⟩
  simp only [List.mem_cons, List.mem_singleton, List.not_mem_nil, or_false] at hp
  have hrel : ∀ a b : String, ∃ es : List Json, es ≠ [] ∧ (∀ e ∈ es, relationTree e = true) ∧
      Json.array [relationObject a b] = .array es := by
    intro a b
    refine ⟨[relationObject a b], by simp, fun e he => ?_, rfl⟩
    rw [List.mem_singleton.mp he]
    simp only [relationObject, relationTree, stable, stableMembers, Bool.and_true,
      decide_eq_true_eq, List.map_cons, List.map_nil]
    decide
  rcases hp with rfl | rfl | rfl | rfl | rfl | rfl | rfl | rfl | rfl | rfl
  · simp only [canonicalValue]
    rw [if_pos (by decide)]
    exact .inr ⟨[gs "https://www.w3.org/ns/did/v1",
      gs "https://w3id.org/security/suites/ed25519-2020/v1"], by decide, rfl⟩
  · simp only [canonicalValue]
    rw [if_neg (by decide), if_neg (by decide), if_neg (by decide), if_neg (by decide),
      if_pos (by decide)]
    exact hrel _ _
  · simp only [canonicalValue]
    rw [if_neg (by decide), if_neg (by decide), if_neg (by decide), if_neg (by decide),
      if_pos (by decide)]
    exact hrel _ _
  · simp only [canonicalValue]
    rw [if_neg (by decide), if_neg (by decide), if_neg (by decide), if_neg (by decide),
      if_pos (by decide)]
    exact hrel _ _
  · simp only [canonicalValue]
    rw [if_neg (by decide), if_neg (by decide), if_neg (by decide), if_neg (by decide),
      if_pos (by decide)]
    exact hrel _ _
  · simp only [canonicalValue]
    rw [if_pos (by decide)]
    exact .inl ⟨_, rfl⟩
  · simp only [canonicalValue]
    rw [if_neg (by decide), if_pos (by decide)]
    exact ⟨_, rfl⟩
  · simp only [canonicalValue]
    rw [if_neg (by decide), if_neg (by decide), if_neg (by decide), if_neg (by decide),
      if_pos (by decide)]
    exact hrel _ _
  · simp only [canonicalValue]
    rw [if_neg (by decide), if_neg (by decide), if_neg (by decide), if_neg (by decide),
      if_neg (by decide), if_pos (by decide)]
    exact ⟨[testMarshalService], by simp, rfl⟩
  · simp only [canonicalValue]
    rw [if_neg (by decide), if_neg (by decide), if_neg (by decide), if_pos (by decide)]
    refine ⟨[testMarshalMethod], by simp, fun r hr => ?_, rfl⟩
    rw [List.mem_singleton.mp hr]
    simp only [testMarshalMethod, MethodTree.ok, testMarshalKey, stable, stableMembers,
      Bool.and_true, decide_eq_true_eq]
    decide

/-- C23 at the document of `testMarshal`, its keys visited in reverse order. -/
theorem C23_witness :
    ∃ d', NewDocument.UnmarshalJSON testMarshalTree List.reverse = .ret (d', none) ∧
      d'.MarshalJSON = .ret (testMarshalTree, none) :=
  C23_round_trip testMarshalTree testMarshalTree_canonical List.reverse
    (fun m => List.reverse_perm m) NewDocument

/-- An integer one above 2^53 is decoded to 2^53, the nearest float64, and a
tie goes to the even mantissa. -/
theorem decode_rounds :
    (Json.number 9007199254740993).decode = .number 9007199254740992 ∧
      (Json.number 9007199254740995).decode = .number 9007199254740996 ∧
      (Json.number (-9007199254740993)).decode = .number (-9007199254740992) :=
  ⟨rfl, rfl, rfl⟩

/-- A number above 2^53 in a relationship object does not come back: in
whatever order the keys are visited, `UnmarshalJSON` and then `MarshalJSON`
return the document with the number rounded to a float64. -/
theorem UnmarshalJSON_then_MarshalJSON_rounds
    (visit : List (GoString × Any) → List (GoString × Any)) (hv : ∀ m, (visit m).Perm m)
    (d : Document) :
    ∃ d', d.UnmarshalJSON (.object [(authenticationKey, .array [.object
        [(gs "id", .string (gs "a")), (gs "n", .number 9007199254740993)]])]) visit =
        .ret (d', none) ∧
      d'.MarshalJSON = .ret (.object [(authenticationKey, .array [.object
        [(gs "id", .string (gs "a")), (gs "n", .number 9007199254740992)]])], none) := by
  have hc : ∀ p ∈ [(authenticationKey, Json.array [.object
      [(gs "id", .string (gs "a")), (gs "n", .number 9007199254740992)]])],
      canonicalValue p.1 p.2 := by
    intro p hp
    rw [List.mem_singleton.mp hp]
    simp only [canonicalValue]
    rw [if_neg (by decide), if_neg (by decide), if_neg (by decide), if_neg (by decide),
      if_pos (by decide)]
    refine ⟨_, by simp, fun e he => ?_, rfl⟩
    rw [List.mem_singleton.mp he]
    decide
  have hd : ([(authenticationKey, Json.array [.object
      [(gs "id", .string (gs "a")), (gs "n", .number 9007199254740993)]])].map
      fun p => (p.1, p.2.decode)) =
      [(authenticationKey, Json.array [.object
        [(gs "id", .string (gs "a")), (gs "n", .number 9007199254740992)]])].map
      fun p => (p.1, p.2.decode) := rfl
  obtain ⟨d', h1, h2⟩ := UnmarshalJSON_then_MarshalJSON
    [(authenticationKey, .array [.object
      [(gs "id", .string (gs "a")), (gs "n", .number 9007199254740993)]])]
    (by decide) rfl
    (fun p hp => by
      rw [List.mem_singleton.mp hp]
      have h := canonical_member _ (hc _ (List.mem_singleton.mpr rfl))
      exact ⟨h.1, h.2.1⟩)
    visit hv d
  refine ⟨d', h1, ?_⟩
  rw [h2, hd]
  simp only [jsonMarshal, canonical_entries _ hc]
  rfl

set_option maxRecDepth 8000 in
/-- The largest integers that are decoded: a number rounds beyond the largest
float64 from 2^1024 - 2^970 on. -/
theorem float64Overflows_largest :
    float64Overflows ((2 ^ 1024 - 2 ^ 970 - 1 : Nat) : Int) = false ∧
      float64Overflows ((2 ^ 1024 - 2 ^ 970 : Nat) : Int) = true := by decide

set_option maxRecDepth 8000 in
/-- A document with a number beyond the range of float64 is not decoded:
`UnmarshalJSON` returns the error of `json.Unmarshal` and leaves the document
as it was. -/
theorem UnmarshalJSON_number_out_of_range (d : Document)
    (visit : List (GoString × Any) → List (GoString × Any)) :
    d.UnmarshalJSON (.object [(authenticationKey, .array [.object
      [(gs "id", .string (gs "a")), (gs "n", .number ((2 ^ 1024 : Nat) : Int))]])]) visit =
      .ret (d, some .jsonError) := by
  have h : float64Overflows ((2 ^ 1024 : Nat) : Int) = true := by decide
  simp only [Document.UnmarshalJSON, jsonUnmarshal, representableMembers, Json.representable,
    representableList, h]
  rfl

/-! ## Claims on a null source -/

/-- C31. For a nil source `encode` reports no error and leaves the destination
as it was, hence at its zero value when it starts there, for every destination
type. So `Builder.Subject(nil)` records the subject as the empty string, and
`Builder.Context(nil)`, `Builder.VerificationMethod(nil)` and
`Builder.Service(nil)` (and likewise `AlsoKnownAs`, `Controller` and the
verification relationships) each record an entry holding an empty list:
no call fails and none records nothing. `Build` keeps the entries and the
accessors read them back. -/
theorem C31_null_source_leaves_zero_value :
    (∀ (dt : GoType) (dv : Any), encode (some (dt, dv)) .null = .ret (dv, none)) ∧
    (∀ dt : GoType, encode (some (dt, reflectNew dt)) .null = .ret (reflectNew dt, none)) ∧
    (∀ b : builder,
      b.Subject .null = .ret {properties := b.properties ++ [⟨.str subjectKey, .str []⟩]} ∧
      b.Context .null = .ret {properties := b.properties ++ [⟨.str contextKey, .strings []⟩]} ∧
      b.VerificationMethod .null =
        .ret {properties := b.properties ++ [⟨.str verificationMethodKey, .vms []⟩]} ∧
      b.Service .null =
        .ret {properties := b.properties ++ [⟨.str serviceKey, .services []⟩]} ∧
      b.AlsoKnownAs .null =
        .ret {properties := b.properties ++ [⟨.str alsoKnownAsKey, .strings []⟩]} ∧
      b.Controller .null =
        .ret {properties := b.properties ++ [⟨.str controllerKey, .strings []⟩]} ∧
      b.Authentication .null =
        .ret {properties := b.properties ++ [⟨.str authenticationKey, .list []⟩]}) ∧
    builder.Build ⟨[⟨.str subjectKey, .str []⟩]⟩ = (⟨[⟨.str subjectKey, .str []⟩]⟩, none) ∧
    Document.Subject ⟨[⟨.str subjectKey, .str []⟩]⟩ = .str [] ∧
    Document.Context ⟨[⟨.str contextKey, .strings []⟩]⟩ = .strings [] ∧
    Document.VerificationMethod ⟨[⟨.str verificationMethodKey, .vms []⟩]⟩ = .vms [] ∧
    Document.Services ⟨[⟨.str serviceKey, .services []⟩]⟩ = .services [] := by
  refine ⟨encode_null, fun dt => encode_null dt _, fun b => ⟨?_, ?_, ?_, ?_, ?_, ?_, ?_⟩,
    Build_singleton _ _, Get_singleton _ _, Get_singleton _ _, Get_singleton _ _,
    Get_singleton _ _⟩
  · exact encodeProperty_ok b .string subjectKey _ _ (encode_null .string _)
  · exact encodeProperty_ok b .strings contextKey _ _ (encode_null .strings _)
  · exact encodeProperty_ok b .vms verificationMethodKey _ _ (encode_null .vms _)
  · exact encodeProperty_ok b .services serviceKey _ _ (encode_null .services _)
  · exact encodeProperty_ok b .strings alsoKnownAsKey _ _ (encode_null .strings _)
  · exact encodeProperty_ok b .strings controllerKey _ _ (encode_null .strings _)
  · exact encodeProperty_ok b .relations authenticationKey _ _ (encode_null .relations _)

end DidDoc
